import Mathlib

set_option autoImplicit false

/-!
Shallow embedding of the BusTub storage-engine core:
the extendible hash table (`src/container/hash/extendible_hash_table.cpp`),
the LRU-K replacer (`src/buffer/lru_k_replacer.cpp`) and the buffer pool
manager (`src/buffer/buffer_pool_manager_instance.cpp`), together with
proofs about the specification's claims.

Machine integers that can wrap (`size_t` counters) are modelled as `Nat`
with explicit reduction modulo `2 ^ 64` where the source can underflow.
`std::unordered_map` is modelled as a function `Nat → Option γ`; the C++
`operator[]`, which default-inserts on a missing key, is `mapEnsure`.
`std::shared_ptr<Bucket>` aliasing is modelled by a bucket id (`Nat`)
together with a store function from ids to bucket objects, so that C++
pointer equality between directory slots is id equality.
-/

namespace BusTub

/-- Wrap-around of 64-bit unsigned arithmetic (`size_t`). -/
def w64 (n : Nat) : Nat := n % (2 ^ 64)

/-- Decrement of a 64-bit unsigned value (`--` on `size_t`), wrapping at 0. -/
def w64dec (n : Nat) : Nat := (n + (2 ^ 64 - 1)) % (2 ^ 64)

/-- Point update of a finite map modelled as `Nat → Option γ`. -/
def mapSet {γ : Type} (m : Nat → Option γ) (key : Nat) (v : γ) : Nat → Option γ :=
  fun g => if g = key then some v else m g

/-- Erasure of a key from a finite map (`std::unordered_map::erase`). -/
def mapErase {γ : Type} (m : Nat → Option γ) (key : Nat) : Nat → Option γ :=
  fun g => if g = key then none else m g

/-- C++ `operator[]` on a map: reading a missing key default-inserts `d`. -/
def mapEnsure {γ : Type} (m : Nat → Option γ) (key : Nat) (d : γ) : Nat → Option γ :=
  fun g => if g = key then some ((m key).getD d) else m g

@[simp] theorem mapSet_same {γ : Type} (m : Nat → Option γ) (k : Nat) (v : γ) :
    mapSet m k v k = some v := by simp [mapSet]

@[simp] theorem mapSet_other {γ : Type} (m : Nat → Option γ) (k g : Nat) (v : γ) (h : g ≠ k) :
    mapSet m k v g = m g := by simp [mapSet, h]

@[simp] theorem mapErase_same {γ : Type} (m : Nat → Option γ) (k : Nat) :
    mapErase m k k = none := by simp [mapErase]

@[simp] theorem mapErase_other {γ : Type} (m : Nat → Option γ) (k g : Nat) (h : g ≠ k) :
    mapErase m k g = m g := by simp [mapErase, h]

@[simp] theorem mapEnsure_same {γ : Type} (m : Nat → Option γ) (k : Nat) (d : γ) :
    mapEnsure m k d k = some ((m k).getD d) := by simp [mapEnsure]

@[simp] theorem mapEnsure_other {γ : Type} (m : Nat → Option γ) (k g : Nat) (d : γ) (h : g ≠ k) :
    mapEnsure m k d g = m g := by simp [mapEnsure, h]

/-- `mapEnsure` does not change the defaulted view of the map. -/
theorem mapEnsure_getD {γ : Type} (m : Nat → Option γ) (k g : Nat) (d : γ) :
    (mapEnsure m k d g).getD d = (m g).getD d := by
  by_cases h : g = k <;> simp [mapEnsure, h]

/-! ### Bit-arithmetic bridges

The source computes bucket indices with `hash & ((1 << depth) - 1)` and split
sides with `hash & (1 << depth)`; these lemmas relate those operations to
`% 2 ^ depth` and `Nat.testBit`. -/

theorem one_shiftLeft (d : Nat) : (1 <<< d) = 2 ^ d := by
  simp [Nat.shiftLeft_eq]

theorem land_two_pow_sub_one (n g : Nat) : n &&& (2 ^ g - 1) = n % 2 ^ g := by
  apply Nat.eq_of_testBit_eq
  intro i
  by_cases h : i < g <;>
    simp [Nat.testBit_land, Nat.testBit_two_pow_sub_one, Nat.testBit_mod_two_pow, h]

theorem land_two_pow_eq_zero_iff (n d : Nat) :
    n &&& 2 ^ d = 0 ↔ n.testBit d = false := by
  rw [Nat.and_two_pow]
  cases h : n.testBit d <;> simp [h, (Nat.two_pow_pos d).ne']

theorem mod_two_pow_succ (n d : Nat) :
    n % 2 ^ (d + 1) = n % 2 ^ d + 2 ^ d * (n.testBit d).toNat := by
  have h : n % 2 ^ (d + 1) = n % 2 ^ d + 2 ^ d * (n / 2 ^ d % 2) := by
    calc n % 2 ^ (d + 1) = n % (2 ^ d * 2) := by ring_nf
    _ = n % 2 ^ d + 2 ^ d * (n / 2 ^ d % 2) := Nat.mod_mul
  rw [h, Nat.testBit_to_div_mod]
  rcases Nat.mod_two_eq_zero_or_one (n / 2 ^ d) with h2 | h2 <;> simp [h2]

/-! ## Extendible hash table (`extendible_hash_table.cpp`)

Buckets are heap objects shared between directory slots through
`std::shared_ptr`; we model the heap as `store : Nat → Bucket K V` and the
directory as a list of bucket ids, so pointer equality between slots is id
equality.  The template's `std::hash<K>` is a parameter `hash : K → Nat`. -/

/-- `ExtendibleHashTable<K,V>::Bucket`: capacity `size_`, local depth
`depth_`, entry list `list_`. -/
structure Bucket (K V : Type) where
  size : Nat
  depth : Nat
  list : List (K × V)
deriving DecidableEq

/-- `ExtendibleHashTable<K, V>`: directory of bucket ids plus the bucket
heap.  `next_id` tracks the next unused heap id (fresh `make_shared`). -/
structure HashTable (K V : Type) where
  global_depth : Nat
  bucket_size : Nat
  num_buckets : Nat
  dir : List Nat
  store : Nat → Bucket K V
  next_id : Nat

/-- `Bucket::IsFull()`: `list_.size() >= size_`. -/
def Bucket.isFull {K V : Type} (b : Bucket K V) : Prop := b.size ≤ b.list.length

instance {K V : Type} (b : Bucket K V) : Decidable b.isFull := by
  unfold Bucket.isFull; infer_instance

/-- First entry of `l` whose key equals `key` (iteration order of
`Bucket::Find` / `Bucket::Remove` / the update scan in `Insert`). -/
def firstEntry {K V : Type} [DecidableEq K] (l : List (K × V)) (key : K) : Option (K × V) :=
  match l with
  | [] => none
  | e :: es => if e.1 = key then some e else firstEntry es key

/-- `Bucket::Find`: first matching value, if any. -/
def bucketFind {K V : Type} [DecidableEq K] (l : List (K × V)) (key : K) : Option V :=
  (firstEntry l key).map Prod.snd

/-- `Bucket::Insert`: refuse when full, else append at the back. -/
def Bucket.insertB {K V : Type} (b : Bucket K V) (key : K) (v : V) : Bucket K V :=
  if b.isFull then b else { b with list := b.list ++ [(key, v)] }

/-- `Bucket::Remove`: `std::list::remove` of the first matching entry
(removes every element equal to that entry; `true` iff a match existed). -/
def Bucket.removeB {K V : Type} [DecidableEq K] [DecidableEq V] (b : Bucket K V) (key : K) :
    Bool × Bucket K V :=
  match firstEntry b.list key with
  | none => (false, b)
  | some e => (true, { b with list := b.list.filter (fun x => decide (x ≠ e)) })

/-- `IndexOf(key)`: `std::hash<K>()(key) & ((1 << global_depth_) - 1)`. -/
def indexOf {K V : Type} (hash : K → Nat) (t : HashTable K V) (key : K) : Nat :=
  hash key &&& ((1 <<< t.global_depth) - 1)

/-- The bucket id at directory slot `i` (`dir_[i]` as a shared pointer). -/
def dirId {K V : Type} (t : HashTable K V) (i : Nat) : Nat := t.dir.getD i 0

/-- The id of the target bucket of `key` (`dir_[IndexOf(key)]`). -/
def targetId {K V : Type} (hash : K → Nat) (t : HashTable K V) (key : K) : Nat :=
  dirId t (indexOf hash t key)

/-- Replace the heap object at id `id` (mutation through a shared pointer). -/
def storeSet {K V : Type} (t : HashTable K V) (id : Nat) (b : Bucket K V) : HashTable K V :=
  { t with store := fun j => if j = id then b else t.store j }

/-- `ExtendibleHashTable::Find`: pure lookup; the table is returned
unchanged because the source performs no write on this path. -/
def tableFind {K V : Type} [DecidableEq K] (hash : K → Nat) (t : HashTable K V) (key : K) :
    Option V × HashTable K V :=
  (bucketFind (t.store (targetId hash t key)).list key, t)

/-- `ExtendibleHashTable::Remove`: remove the first matching entry from the
target bucket. -/
def tableRemove {K V : Type} [DecidableEq K] [DecidableEq V] (hash : K → Nat)
    (t : HashTable K V) (key : K) : Bool × HashTable K V :=
  let tid := targetId hash t key
  let r := (t.store tid).removeB key
  (r.1, storeSet t tid r.2)

/-- The redistribution loop of a split: each entry of the old bucket goes to
`b0` or `b1` by `hash & (1 << old_depth)`, through capacity-checked
`Bucket::Insert`. -/
def redistribute {K V : Type} (hash : K → Nat) (d : Nat) (b0 b1 : Bucket K V) :
    List (K × V) → Bucket K V × Bucket K V
  | [] => (b0, b1)
  | e :: es =>
    if hash e.1 &&& (1 <<< d) = 0 then redistribute hash d (b0.insertB e.1 e.2) b1 es
    else redistribute hash d b0 (b1.insertB e.1 e.2) es

/-- The rewiring loop of a split: every slot `i` still holding the old
bucket is repointed to a child by `i & mask`.  `i` is the running index. -/
def rewire (tid b0id b1id mask : Nat) : Nat → List Nat → List Nat
  | _, [] => []
  | i, id :: rest =>
    (if id = tid then (if i &&& mask = 0 then b0id else b1id) else id) ::
      rewire tid b0id b1id mask (i + 1) rest

/-- One iteration of the `while (dir_[IndexOf(key)]->IsFull())` body in
`ExtendibleHashTable::Insert`: optional directory doubling, then the split
of the target bucket into two fresh buckets. -/
def splitStep {K V : Type} (hash : K → Nat) (t : HashTable K V) (key : K) : HashTable K V :=
  let tid := targetId hash t key
  let target := t.store tid
  let t1 : HashTable K V :=
    if target.depth = t.global_depth then
      { t with global_depth := t.global_depth + 1, dir := t.dir ++ t.dir }
    else t
  let mask := 1 <<< target.depth
  let c := redistribute hash target.depth
    ⟨t.bucket_size, target.depth + 1, []⟩ ⟨t.bucket_size, target.depth + 1, []⟩ target.list
  let b0id := t.next_id
  let b1id := t.next_id + 1
  { t1 with
    dir := rewire tid b0id b1id mask 0 t1.dir,
    store := fun id => if id = b0id then c.1 else if id = b1id then c.2 else t.store id,
    num_buckets := t.num_buckets + 1,
    next_id := t.next_id + 2 }

/-- In-place value update of the first entry matching `key`
(`item.second = value` in the update scan of `Insert`). -/
def replaceFirst {K V : Type} [DecidableEq K] (l : List (K × V)) (key : K) (v : V) :
    List (K × V) :=
  match l with
  | [] => []
  | e :: es => if e.1 = key then (e.1, v) :: es else e :: replaceFirst es key v

/-- The tail of `ExtendibleHashTable::Insert` after the split loop: update
the value in place when the key exists, else append the new entry. -/
def finishInsert {K V : Type} [DecidableEq K] (hash : K → Nat) (t : HashTable K V)
    (key : K) (v : V) : HashTable K V :=
  let tid := targetId hash t key
  let target := t.store tid
  if (firstEntry target.list key).isSome then
    storeSet t tid { target with list := replaceFirst target.list key v }
  else
    storeSet t tid (target.insertB key v)

/-- The split loop of `ExtendibleHashTable::Insert`, with explicit fuel:
`none` models the loop not having terminated within `fuel` iterations. -/
def insertLoop {K V : Type} [DecidableEq K] (hash : K → Nat) (key : K) (v : V) :
    Nat → HashTable K V → Option (HashTable K V)
  | 0, _ => none
  | fuel + 1, t =>
    if (t.store (targetId hash t key)).isFull then
      insertLoop hash key v fuel (splitStep hash t key)
    else
      some (finishInsert hash t key v)

/-- `InsertTerminates hash key v t`: the split loop of `Insert` reaches the
non-full target bucket after finitely many iterations. -/
def InsertTerminates {K V : Type} [DecidableEq K] (hash : K → Nat) (key : K) (v : V)
    (t : HashTable K V) : Prop :=
  ∃ fuel, (insertLoop hash key v fuel t).isSome

/-- Fuel that suffices for the split loop whenever it terminates at all
(proved sufficient under `WF` for an injective hash and capacity ≥ 2). -/
def insertFuel {K V : Type} (hash : K → Nat) (t : HashTable K V) (key : K) : Nat :=
  ((t.store (targetId hash t key)).list.map (fun e => hash e.1)).sum + hash key + 2

/-- `ExtendibleHashTable::Insert` as a total function: runs the split loop
with `insertFuel` and keeps the table unchanged if that fuel is exhausted
(which cannot happen in the well-formed executions considered below). -/
def tableInsert {K V : Type} [DecidableEq K] (hash : K → Nat) (t : HashTable K V)
    (key : K) (v : V) : HashTable K V :=
  (insertLoop hash key v (insertFuel hash t key) t).getD t

/-- The freshly constructed table: one empty bucket of local depth 0,
global depth 0, directory `[bucket]`. -/
def HashTable.init (K V : Type) (bucket_size : Nat) : HashTable K V :=
  { global_depth := 0
    bucket_size := bucket_size
    num_buckets := 1
    dir := [0]
    store := fun _ => ⟨bucket_size, 0, []⟩
    next_id := 1 }

/-! ### Well-formedness of a hash table state -/

/-- The inductive invariant of the extendible hash table.  `alias_iff` is
the directory-aliasing law claimed by the specification; `placement` says a
bucket holds only keys hashing into its directory class. -/
structure WF {K V : Type} (hash : K → Nat) (t : HashTable K V) : Prop where
  dir_len : t.dir.length = 2 ^ t.global_depth
  ids_lt : ∀ i, i < t.dir.length → dirId t i < t.next_id
  depth_le : ∀ i, i < t.dir.length → (t.store (dirId t i)).depth ≤ t.global_depth
  alias_iff : ∀ i j, i < t.dir.length → j < t.dir.length →
    (dirId t i = dirId t j ↔
      i % 2 ^ (t.store (dirId t i)).depth = j % 2 ^ (t.store (dirId t i)).depth)
  placement : ∀ i, i < t.dir.length → ∀ e ∈ (t.store (dirId t i)).list,
    hash e.1 % 2 ^ (t.store (dirId t i)).depth = i % 2 ^ (t.store (dirId t i)).depth
  cap : ∀ i, i < t.dir.length → (t.store (dirId t i)).list.length ≤ t.bucket_size
  keys_nodup : ∀ i, i < t.dir.length → ((t.store (dirId t i)).list.map Prod.fst).Nodup
  bsize : ∀ i, i < t.dir.length → (t.store (dirId t i)).size = t.bucket_size

theorem indexOf_eq_mod {K V : Type} (hash : K → Nat) (t : HashTable K V) (key : K) :
    indexOf hash t key = hash key % 2 ^ t.global_depth := by
  rw [indexOf, one_shiftLeft, land_two_pow_sub_one]

theorem indexOf_lt {K V : Type} (hash : K → Nat) (t : HashTable K V) (key : K)
    (h : t.dir.length = 2 ^ t.global_depth) : indexOf hash t key < t.dir.length := by
  rw [indexOf_eq_mod, h]
  exact Nat.mod_lt _ (Nat.two_pow_pos _)

theorem WF.init {K V : Type} (hash : K → Nat) (bucket_size : Nat) :
    WF hash (HashTable.init K V bucket_size) := by
  refine ⟨by simp [HashTable.init], ?_, ?_, ?_, ?_, ?_, ?_, ?_⟩ <;>
    simp [HashTable.init, dirId]

/-! ### Lemmas about the bucket primitives -/

theorem firstEntry_eq_none {K V : Type} [DecidableEq K] (l : List (K × V)) (key : K) :
    firstEntry l key = none ↔ key ∉ l.map Prod.fst := by
  induction l with
  | nil => simp [firstEntry]
  | cons e es ih =>
    by_cases h : e.1 = key
    · simp [firstEntry, h]
    · simp only [firstEntry, h, if_false, ih, List.map_cons, List.mem_cons]
      constructor
      · intro h1 h2
        rcases h2 with h2 | h2
        · exact h (h2.symm)
        · exact h1 h2
      · intro h1 h2
        exact h1 (Or.inr h2)

theorem firstEntry_mem {K V : Type} [DecidableEq K] {l : List (K × V)} {key : K}
    {e : K × V} (h : firstEntry l key = some e) : e ∈ l ∧ e.1 = key := by
  induction l with
  | nil => simp [firstEntry] at h
  | cons a es ih =>
    by_cases ha : a.1 = key <;> simp [firstEntry, ha] at h
    · exact ⟨by simp [← h], by rw [← h]; exact ha⟩
    · rcases ih h with ⟨h1, h2⟩
      exact ⟨List.mem_cons_of_mem _ h1, h2⟩

theorem firstEntry_isSome {K V : Type} [DecidableEq K] (l : List (K × V)) (key : K) :
    (firstEntry l key).isSome ↔ key ∈ l.map Prod.fst := by
  rcases h : firstEntry l key with _ | e
  · simpa [h] using (firstEntry_eq_none l key).mp h
  · simp only [Option.isSome_some, true_iff]
    rcases firstEntry_mem h with ⟨h1, h2⟩
    exact h2 ▸ List.mem_map_of_mem Prod.fst h1

theorem bucketFind_isSome {K V : Type} [DecidableEq K] (l : List (K × V)) (key : K) :
    (bucketFind l key).isSome ↔ key ∈ l.map Prod.fst := by
  rw [← firstEntry_isSome l key, bucketFind]
  cases firstEntry l key <;> simp

/-- With no duplicate keys, the first matching entry is the only membership
with that key, so `bucketFind` computes the associative lookup. -/
theorem bucketFind_eq_some {K V : Type} [DecidableEq K] {l : List (K × V)} {key : K} {v : V}
    (hman : (key, v) ∈ l) (hnd : (l.map Prod.fst).Nodup) : bucketFind l key = some v := by
  induction l with
  | nil => simp at hman
  | cons e es ih =>
    simp only [List.map_cons, List.nodup_cons] at hnd
    rcases List.mem_cons.mp hman with h | h
    · simp [bucketFind, firstEntry, ← h]
    · have hne : e.1 ≠ key := by
        intro hc
        exact hnd.1 (hc ▸ List.mem_map_of_mem Prod.fst h)
      simpa [bucketFind, firstEntry, hne] using ih h hnd.2

theorem replaceFirst_map_fst {K V : Type} [DecidableEq K] (l : List (K × V)) (key : K) (v : V) :
    (replaceFirst l key v).map Prod.fst = l.map Prod.fst := by
  induction l with
  | nil => simp [replaceFirst]
  | cons e es ih => by_cases h : e.1 = key <;> simp [replaceFirst, h, ih]

theorem replaceFirst_length {K V : Type} [DecidableEq K] (l : List (K × V)) (key : K) (v : V) :
    (replaceFirst l key v).length = l.length := by
  have := replaceFirst_map_fst l key v
  calc (replaceFirst l key v).length = ((replaceFirst l key v).map Prod.fst).length := by simp
  _ = (l.map Prod.fst).length := by rw [this]
  _ = l.length := by simp

theorem replaceFirst_mem {K V : Type} [DecidableEq K] {l : List (K × V)} (key : K) (v : V)
    {e : K × V} (h : e ∈ replaceFirst l key v) : e ∈ l ∨ e = (key, v) := by
  induction l with
  | nil => simp [replaceFirst] at h
  | cons a es ih =>
    by_cases ha : a.1 = key <;> simp only [replaceFirst, ha, if_true, if_false] at h
    · rcases List.mem_cons.mp h with h1 | h1
      · right; exact h1
      · left; exact List.mem_cons_of_mem _ h1
    · rcases List.mem_cons.mp h with h1 | h1
      · left; exact h1 ▸ List.mem_cons_self _ _
      · rcases ih h1 with h2 | h2
        · left; exact List.mem_cons_of_mem _ h2
        · right; exact h2

/-! ### Characterization of one split iteration -/

theorem mod_two_pow_succ_iff (x y d : Nat) :
    x % 2 ^ (d + 1) = y % 2 ^ (d + 1) ↔
      x % 2 ^ d = y % 2 ^ d ∧ x.testBit d = y.testBit d := by
  constructor
  · intro h
    constructor
    · have hx : x % 2 ^ (d + 1) % 2 ^ d = x % 2 ^ d :=
        Nat.mod_mod_of_dvd x (pow_dvd_pow 2 (Nat.le_succ d))
      have hy : y % 2 ^ (d + 1) % 2 ^ d = y % 2 ^ d :=
        Nat.mod_mod_of_dvd y (pow_dvd_pow 2 (Nat.le_succ d))
      rw [← hx, ← hy, h]
    · have hx := Nat.testBit_mod_two_pow x (d + 1) d
      have hy := Nat.testBit_mod_two_pow y (d + 1) d
      simp only [show decide (d < d + 1) = true from by simp, Bool.true_and,
        decide_True] at hx hy
      rw [← hx, ← hy, h]
  · intro ⟨h1, h2⟩
    rw [mod_two_pow_succ, mod_two_pow_succ, h1, h2]

/-- The first child bucket of a split (`bucket_0` with the entries whose
hash has bit `old_depth` clear). -/
def splitChild0 {K V : Type} (hash : K → Nat) (t : HashTable K V) (key : K) : Bucket K V :=
  let target := t.store (targetId hash t key)
  ⟨t.bucket_size, target.depth + 1,
    target.list.filter (fun e => decide (hash e.1 &&& (1 <<< target.depth) = 0))⟩

/-- The second child bucket of a split (`bucket_1`). -/
def splitChild1 {K V : Type} (hash : K → Nat) (t : HashTable K V) (key : K) : Bucket K V :=
  let target := t.store (targetId hash t key)
  ⟨t.bucket_size, target.depth + 1,
    target.list.filter (fun e => !decide (hash e.1 &&& (1 <<< target.depth) = 0))⟩

theorem redistribute_go {K V : Type} (hash : K → Nat) (d : Nat) (cap : Nat) :
    ∀ (l : List (K × V)) (b0 b1 : Bucket K V), b0.size = cap → b1.size = cap →
      b0.list.length + b1.list.length + l.length ≤ cap →
      redistribute hash d b0 b1 l =
        ({ b0 with list := b0.list ++ l.filter (fun e => decide (hash e.1 &&& (1 <<< d) = 0)) },
         { b1 with list := b1.list ++ l.filter (fun e => !decide (hash e.1 &&& (1 <<< d) = 0)) })
  | [], b0, b1, _, _, _ => by simp [redistribute]
  | e :: es, b0, b1, h0, h1, hlen => by
    simp only [List.length_cons] at hlen
    by_cases hbit : hash e.1 &&& (1 <<< d) = 0
    · have hnotfull : ¬ b0.isFull := by
        unfold Bucket.isFull; omega
      have hins : b0.insertB e.1 e.2 = { b0 with list := b0.list ++ [(e.1, e.2)] } := by
        simp [Bucket.insertB, hnotfull]
      have hrec := redistribute_go hash d cap es (b0.insertB e.1 e.2) b1
        (by simp [hins, h0]) h1 (by simp [hins]; omega)
      simp only [redistribute, hbit, if_true]
      rw [hrec, hins]
      simp [List.filter_cons, hbit]
    · have hnotfull : ¬ b1.isFull := by
        unfold Bucket.isFull; omega
      have hins : b1.insertB e.1 e.2 = { b1 with list := b1.list ++ [(e.1, e.2)] } := by
        simp [Bucket.insertB, hnotfull]
      have hrec := redistribute_go hash d cap es b0 (b1.insertB e.1 e.2)
        h0 (by simp [hins, h1]) (by simp [hins]; omega)
      simp only [redistribute, hbit, if_false]
      rw [hrec, hins]
      simp [List.filter_cons, hbit]

theorem redistribute_filter {K V : Type} (hash : K → Nat) (d cap : Nat)
    (l : List (K × V)) (hlen : l.length ≤ cap) :
    redistribute hash d ⟨cap, d + 1, []⟩ ⟨cap, d + 1, []⟩ l =
      (⟨cap, d + 1, l.filter (fun e => decide (hash e.1 &&& (1 <<< d) = 0))⟩,
       ⟨cap, d + 1, l.filter (fun e => !decide (hash e.1 &&& (1 <<< d) = 0))⟩) := by
  have := redistribute_go hash d cap l ⟨cap, d + 1, []⟩ ⟨cap, d + 1, []⟩ rfl rfl
    (by simpa using hlen)
  simpa using this

theorem rewire_length (tid b0id b1id mask : Nat) :
    ∀ (i : Nat) (l : List Nat), (rewire tid b0id b1id mask i l).length = l.length
  | _, [] => rfl
  | i, _ :: rest => by simp [rewire, rewire_length tid b0id b1id mask (i + 1) rest]

theorem rewire_getD (tid b0id b1id mask : Nat) :
    ∀ (l : List Nat) (i j : Nat), j < l.length →
      (rewire tid b0id b1id mask i l).getD j 0 =
        (if l.getD j 0 = tid then (if (i + j) &&& mask = 0 then b0id else b1id)
         else l.getD j 0)
  | [], _, j, hj => by simp at hj
  | id :: rest, i, 0, _ => by simp [rewire]
  | id :: rest, i, j + 1, hj => by
    have := rewire_getD tid b0id b1id mask rest (i + 1) j (by simpa using hj)
    simpa [rewire, Nat.add_assoc, Nat.add_comm 1 j] using this

theorem append_self_getD (l : List Nat) (g : Nat) (hlen : l.length = 2 ^ g)
    (j : Nat) (hj : j < 2 ^ (g + 1)) : (l ++ l).getD j 0 = l.getD (j % 2 ^ g) 0 := by
  by_cases h : j < 2 ^ g
  · rw [List.getD_append _ _ _ _ (by omega), Nat.mod_eq_of_lt h]
  · have h1 : l.length ≤ j := by omega
    rw [List.getD_append_right _ _ _ _ h1, hlen]
    have h2 : j - 2 ^ g < 2 ^ g := by
      have := Nat.pow_succ 2 g
      omega
    have h3 : j % 2 ^ g = j - 2 ^ g := by
      rw [Nat.mod_eq_sub_mod (by omega), Nat.mod_eq_of_lt h2]
    rw [h3]

theorem WF.target_cap {K V : Type} {hash : K → Nat} {t : HashTable K V} (w : WF hash t)
    (key : K) : (t.store (targetId hash t key)).list.length ≤ t.bucket_size :=
  w.cap _ (indexOf_lt hash t key w.dir_len)

theorem WF.target_depth_le {K V : Type} {hash : K → Nat} {t : HashTable K V} (w : WF hash t)
    (key : K) : (t.store (targetId hash t key)).depth ≤ t.global_depth :=
  w.depth_le _ (indexOf_lt hash t key w.dir_len)

theorem WF.target_size {K V : Type} {hash : K → Nat} {t : HashTable K V} (w : WF hash t)
    (key : K) : (t.store (targetId hash t key)).size = t.bucket_size :=
  w.bsize _ (indexOf_lt hash t key w.dir_len)

theorem WF.target_nodup {K V : Type} {hash : K → Nat} {t : HashTable K V} (w : WF hash t)
    (key : K) : ((t.store (targetId hash t key)).list.map Prod.fst).Nodup :=
  w.keys_nodup _ (indexOf_lt hash t key w.dir_len)

/-- `splitStep` written as an explicit record (the redistribution loop
computed away, which is exact because the old bucket respects capacity). -/
theorem splitStep_eq {K V : Type} [DecidableEq K] (hash : K → Nat) (t : HashTable K V)
    (key : K) (hcap : (t.store (targetId hash t key)).list.length ≤ t.bucket_size) :
    splitStep hash t key =
      { global_depth :=
          if (t.store (targetId hash t key)).depth = t.global_depth then t.global_depth + 1
          else t.global_depth
        bucket_size := t.bucket_size
        num_buckets := t.num_buckets + 1
        dir := rewire (targetId hash t key) t.next_id (t.next_id + 1)
          (1 <<< (t.store (targetId hash t key)).depth) 0
          (if (t.store (targetId hash t key)).depth = t.global_depth then t.dir ++ t.dir
           else t.dir)
        store := fun id => if id = t.next_id then splitChild0 hash t key
          else if id = t.next_id + 1 then splitChild1 hash t key
          else t.store id
        next_id := t.next_id + 2 } := by
  unfold splitStep splitChild0 splitChild1
  dsimp only
  rw [redistribute_filter hash _ _ _ hcap]
  by_cases hd : (t.store (targetId hash t key)).depth = t.global_depth <;> simp [hd]

theorem splitStep_dir_length {K V : Type} [DecidableEq K] {hash : K → Nat}
    {t : HashTable K V} (key : K) (w : WF hash t) :
    (splitStep hash t key).dir.length = 2 ^ (splitStep hash t key).global_depth := by
  rw [splitStep_eq hash t key (w.target_cap key)]
  by_cases hd : (t.store (targetId hash t key)).depth = t.global_depth <;>
    simp [hd, rewire_length, w.dir_len, Nat.pow_succ, Nat.mul_comm, Nat.two_mul]

theorem splitStep_global_ge {K V : Type} [DecidableEq K] {hash : K → Nat}
    {t : HashTable K V} (key : K) (w : WF hash t) :
    (t.store (targetId hash t key)).depth < (splitStep hash t key).global_depth := by
  rw [splitStep_eq hash t key (w.target_cap key)]
  have := w.target_depth_le key
  by_cases hd : (t.store (targetId hash t key)).depth = t.global_depth
  · simp [hd]
  · simp [hd]; omega

/-- Directory slots after a split: slots of the (possibly doubled)
directory that aliased the old bucket point at a child selected by bit
`old_depth` of the slot index; other slots are unchanged. -/
theorem splitStep_dirId {K V : Type} [DecidableEq K] {hash : K → Nat}
    {t : HashTable K V} (key : K) (w : WF hash t) (j : Nat)
    (hj : j < (splitStep hash t key).dir.length) :
    dirId (splitStep hash t key) j =
      if dirId t (j % 2 ^ t.global_depth) = targetId hash t key then
        (if j.testBit (t.store (targetId hash t key)).depth = false then t.next_id
         else t.next_id + 1)
      else dirId t (j % 2 ^ t.global_depth) := by
  have hlen := splitStep_dir_length key w
  rw [splitStep_eq hash t key (w.target_cap key)] at hj ⊢
  simp only [dirId] at hj ⊢
  by_cases hd : (t.store (targetId hash t key)).depth = t.global_depth
  · simp only [hd, if_true] at hj ⊢
    rw [rewire_length] at hj
    have hj2 : j < 2 ^ (t.global_depth + 1) := by
      have h := hj
      rw [List.length_append, w.dir_len] at h
      rw [Nat.pow_succ]
      omega
    rw [rewire_getD _ _ _ _ _ 0 j hj,
      append_self_getD t.dir t.global_depth w.dir_len j hj2]
    rw [Nat.zero_add, one_shiftLeft]
    simp only [land_two_pow_eq_zero_iff]
  · simp only [hd, if_false] at hj ⊢
    rw [rewire_length] at hj
    have hj2 : j < 2 ^ t.global_depth := by
      rw [w.dir_len] at hj
      exact hj
    rw [rewire_getD _ _ _ _ _ 0 j hj, Nat.mod_eq_of_lt hj2]
    rw [Nat.zero_add, one_shiftLeft]
    simp only [land_two_pow_eq_zero_iff]

theorem splitStep_store {K V : Type} [DecidableEq K] (hash : K → Nat) (t : HashTable K V)
    (key : K) (hcap : (t.store (targetId hash t key)).list.length ≤ t.bucket_size) :
    (splitStep hash t key).store = fun id =>
      if id = t.next_id then splitChild0 hash t key
      else if id = t.next_id + 1 then splitChild1 hash t key
      else t.store id := by
  rw [splitStep_eq hash t key hcap]

theorem splitStep_store0 {K V : Type} [DecidableEq K] (hash : K → Nat) (t : HashTable K V)
    (key : K) (hcap : (t.store (targetId hash t key)).list.length ≤ t.bucket_size) :
    (splitStep hash t key).store t.next_id = splitChild0 hash t key := by
  rw [splitStep_store hash t key hcap]
  simp

theorem splitStep_store1 {K V : Type} [DecidableEq K] (hash : K → Nat) (t : HashTable K V)
    (key : K) (hcap : (t.store (targetId hash t key)).list.length ≤ t.bucket_size) :
    (splitStep hash t key).store (t.next_id + 1) = splitChild1 hash t key := by
  rw [splitStep_store hash t key hcap]
  simp [show ¬ (t.next_id + 1 = t.next_id) from by omega]

theorem splitStep_store_old {K V : Type} [DecidableEq K] (hash : K → Nat) (t : HashTable K V)
    (key : K) (hcap : (t.store (targetId hash t key)).list.length ≤ t.bucket_size)
    {id : Nat} (hid : id < t.next_id) :
    (splitStep hash t key).store id = t.store id := by
  rw [splitStep_store hash t key hcap]
  simp only
  rw [if_neg (by omega), if_neg (by omega)]

theorem splitStep_next_id {K V : Type} [DecidableEq K] (hash : K → Nat) (t : HashTable K V)
    (key : K) (hcap : (t.store (targetId hash t key)).list.length ≤ t.bucket_size) :
    (splitStep hash t key).next_id = t.next_id + 2 := by
  rw [splitStep_eq hash t key hcap]

theorem splitStep_bucket_size {K V : Type} [DecidableEq K] (hash : K → Nat)
    (t : HashTable K V) (key : K)
    (hcap : (t.store (targetId hash t key)).list.length ≤ t.bucket_size) :
    (splitStep hash t key).bucket_size = t.bucket_size := by
  rw [splitStep_eq hash t key hcap]

theorem mod_mod_collapse (a : Nat) {d g : Nat} (h : d ≤ g) : a % 2 ^ g % 2 ^ d = a % 2 ^ d :=
  Nat.mod_mod_of_dvd a (pow_dvd_pow 2 h)

@[simp] theorem splitChild0_depth {K V : Type} (hash : K → Nat) (t : HashTable K V) (key : K) :
    (splitChild0 hash t key).depth = (t.store (targetId hash t key)).depth + 1 := rfl

@[simp] theorem splitChild1_depth {K V : Type} (hash : K → Nat) (t : HashTable K V) (key : K) :
    (splitChild1 hash t key).depth = (t.store (targetId hash t key)).depth + 1 := rfl

@[simp] theorem splitChild0_size {K V : Type} (hash : K → Nat) (t : HashTable K V) (key : K) :
    (splitChild0 hash t key).size = t.bucket_size := rfl

@[simp] theorem splitChild1_size {K V : Type} (hash : K → Nat) (t : HashTable K V) (key : K) :
    (splitChild1 hash t key).size = t.bucket_size := rfl

theorem splitChild0_list {K V : Type} (hash : K → Nat) (t : HashTable K V) (key : K) :
    (splitChild0 hash t key).list = (t.store (targetId hash t key)).list.filter
      (fun e => decide (hash e.1 &&& (1 <<< (t.store (targetId hash t key)).depth) = 0)) := rfl

theorem splitChild1_list {K V : Type} (hash : K → Nat) (t : HashTable K V) (key : K) :
    (splitChild1 hash t key).list = (t.store (targetId hash t key)).list.filter
      (fun e => !decide (hash e.1 &&& (1 <<< (t.store (targetId hash t key)).depth) = 0)) := rfl

/-- A directory slot aliases the target bucket of `key` iff its index
agrees with `IndexOf(key)` on the low `local_depth` bits. -/
theorem alias_target_iff {K V : Type} {hash : K → Nat} {t : HashTable K V}
    (w : WF hash t) (key : K) (i : Nat) (hi : i < t.dir.length) :
    dirId t i = targetId hash t key ↔
      i % 2 ^ (t.store (targetId hash t key)).depth =
        indexOf hash t key % 2 ^ (t.store (targetId hash t key)).depth := by
  have hidx := indexOf_lt hash t key w.dir_len
  have h := w.alias_iff (indexOf hash t key) i hidx hi
  rw [show dirId t (indexOf hash t key) = targetId hash t key from rfl] at h
  constructor
  · intro h1
    exact (h.mp h1.symm).symm
  · intro h1
    exact (h.mpr h1.symm).symm

/-- Well-formedness is preserved by one split iteration. -/
theorem splitStep_WF {K V : Type} [DecidableEq K] {hash : K → Nat} {t : HashTable K V}
    (w : WF hash t) (key : K) : WF hash (splitStep hash t key) := by
  have hcap := w.target_cap key
  set t' := splitStep hash t key with ht'
  set g := t.global_depth with hg
  set d := (t.store (targetId hash t key)).depth with hd
  set tid := targetId hash t key with htid
  have hdg : d ≤ g := w.target_depth_le key
  have hlen' : t'.dir.length = 2 ^ t'.global_depth := splitStep_dir_length key w
  have hstore : t'.store = fun id =>
      if id = t.next_id then splitChild0 hash t key
      else if id = t.next_id + 1 then splitChild1 hash t key
      else t.store id := splitStep_store hash t key hcap
  have hnext : t'.next_id = t.next_id + 2 := splitStep_next_id hash t key hcap
  have hbs : t'.bucket_size = t.bucket_size := splitStep_bucket_size hash t key hcap
  have hdlt : d < t'.global_depth := splitStep_global_ge key w
  have hgle : g ≤ t'.global_depth := by
    rw [ht', splitStep_eq hash t key hcap]
    by_cases hc : d = g <;> simp [← hd, ← hg, hc]
  have hdesc : ∀ j, j < t'.dir.length → dirId t' j =
      if dirId t (j % 2 ^ g) = tid then
        (if j.testBit d = false then t.next_id else t.next_id + 1)
      else dirId t (j % 2 ^ g) := fun j hj => splitStep_dirId key w j hj
  have hmod : ∀ j, j < t'.dir.length → j % 2 ^ g < t.dir.length := by
    intro j _
    rw [w.dir_len]
    exact Nat.mod_lt _ (Nat.two_pow_pos _)
  have hids_old : ∀ j, j < t'.dir.length → dirId t (j % 2 ^ g) < t.next_id := by
    intro j hj
    exact w.ids_lt _ (hmod j hj)
  -- which side of the described `if` a slot falls on, and agreement with idx
  have halias : ∀ j, j < t'.dir.length →
      (dirId t (j % 2 ^ g) = tid ↔ j % 2 ^ d = indexOf hash t key % 2 ^ d) := by
    intro j hj
    rw [alias_target_iff w key _ (hmod j hj), mod_mod_collapse j hdg]
  -- store of an old id is unchanged
  have hstore_old : ∀ id, id < t.next_id → t'.store id = t.store id := by
    intro id hid
    rw [hstore]
    simp only
    rw [if_neg (by omega), if_neg (by omega)]
  have hstore0 : t'.store t.next_id = splitChild0 hash t key := by
    rw [hstore]
    simp
  have hstore1 : t'.store (t.next_id + 1) = splitChild1 hash t key := by
    rw [hstore]
    simp [show ¬ (t.next_id + 1 = t.next_id) from by omega]
  constructor
  case dir_len => exact hlen'
  case ids_lt =>
    intro j hj
    rw [hdesc j hj, hnext]
    by_cases ha : dirId t (j % 2 ^ g) = tid
    · rw [if_pos ha]
      by_cases hb : j.testBit d = false
      · rw [if_pos hb]; omega
      · rw [if_neg hb]; omega
    · rw [if_neg ha]
      have := hids_old j hj
      omega
  case depth_le =>
    intro j hj
    rw [hdesc j hj]
    by_cases ha : dirId t (j % 2 ^ g) = tid
    · rw [if_pos ha]
      by_cases hb : j.testBit d = false
      · rw [if_pos hb, hstore0, splitChild0_depth]
        omega
      · rw [if_neg hb, hstore1, splitChild1_depth]
        omega
    · rw [if_neg ha, hstore_old _ (hids_old j hj)]
      exact le_trans (w.depth_le _ (hmod j hj)) hgle
  case alias_iff =>
    intro i j hi hj
    rw [hdesc i hi, hdesc j hj]
    by_cases hai : dirId t (i % 2 ^ g) = tid
    · rw [if_pos hai]
      by_cases haj : dirId t (j % 2 ^ g) = tid
      · -- both slots point into the split bucket: compare the child choice
        rw [if_pos haj]
        have him := (halias i hi).mp hai
        have hjm := (halias j hj).mp haj
        have hij : i % 2 ^ d = j % 2 ^ d := by rw [him, hjm]
        by_cases hbi : i.testBit d = false
        · rw [if_pos hbi, hstore0, splitChild0_depth, mod_two_pow_succ_iff]
          by_cases hbj : j.testBit d = false
          · rw [if_pos hbj]
            simp [hij, hbi, hbj]
          · rw [if_neg hbj]
            have hbj' : j.testBit d = true := by
              revert hbj; cases j.testBit d <;> simp
            constructor
            · intro hc
              exact absurd hc (by omega)
            · rintro ⟨h1, h2⟩
              rw [hbi, hbj'] at h2
              simp at h2
        · rw [if_neg hbi, hstore1, splitChild1_depth, mod_two_pow_succ_iff]
          have hbi' : i.testBit d = true := by
            revert hbi; cases i.testBit d <;> simp
          by_cases hbj : j.testBit d = false
          · rw [if_pos hbj]
            constructor
            · intro hc
              exact absurd hc (by omega)
            · rintro ⟨h1, h2⟩
              rw [hbi', hbj] at h2
              simp at h2
          · rw [if_neg hbj]
            have hbj' : j.testBit d = true := by
              revert hbj; cases j.testBit d <;> simp
            simp [hij, hbi', hbj']
      · -- i in the split class, j outside it: children have fresh ids
        rw [if_neg haj]
        have hlt := hids_old j hj
        by_cases hbi : i.testBit d = false
        · rw [if_pos hbi, hstore0, splitChild0_depth]
          constructor
          · intro hc
            exact absurd hc (by omega)
          · intro hc
            exfalso
            have h1 : i % 2 ^ d = j % 2 ^ d := by
              have h2 : i % 2 ^ (d + 1) % 2 ^ d = j % 2 ^ (d + 1) % 2 ^ d := by rw [hc]
              rwa [mod_mod_collapse i (Nat.le_succ d),
                mod_mod_collapse j (Nat.le_succ d)] at h2
            exact haj ((halias j hj).mpr (by rw [← h1, (halias i hi).mp hai]))
        · rw [if_neg hbi, hstore1, splitChild1_depth]
          constructor
          · intro hc
            exact absurd hc (by omega)
          · intro hc
            exfalso
            have h1 : i % 2 ^ d = j % 2 ^ d := by
              have h2 : i % 2 ^ (d + 1) % 2 ^ d = j % 2 ^ (d + 1) % 2 ^ d := by rw [hc]
              rwa [mod_mod_collapse i (Nat.le_succ d),
                mod_mod_collapse j (Nat.le_succ d)] at h2
            exact haj ((halias j hj).mpr (by rw [← h1, (halias i hi).mp hai]))
    · rw [if_neg hai]
      have hlt := hids_old i hi
      have hstoi := hstore_old _ hlt
      rw [hstoi]
      have hdi_le : (t.store (dirId t (i % 2 ^ g))).depth ≤ g := w.depth_le _ (hmod i hi)
      by_cases haj : dirId t (j % 2 ^ g) = tid
      · -- j in the split class, i outside it
        rw [if_pos haj]
        constructor
        · intro hc
          exfalso
          by_cases hbj : j.testBit d = false
          · rw [if_pos hbj] at hc
            omega
          · rw [if_neg hbj] at hc
            omega
        · intro hc
          exfalso
          have h1 : i % 2 ^ g % 2 ^ (t.store (dirId t (i % 2 ^ g))).depth
              = j % 2 ^ g % 2 ^ (t.store (dirId t (i % 2 ^ g))).depth := by
            rw [mod_mod_collapse i hdi_le, mod_mod_collapse j hdi_le]
            exact hc
          have h2 := (w.alias_iff _ _ (hmod i hi) (hmod j hj)).mpr h1
          rw [h2, haj] at hai
          exact hai rfl
      · -- neither slot touches the split bucket: the old aliasing law transfers
        rw [if_neg haj]
        have h := w.alias_iff _ _ (hmod i hi) (hmod j hj)
        rw [mod_mod_collapse i hdi_le, mod_mod_collapse j hdi_le] at h
        exact h
  case placement =>
    intro j hj e he
    rw [hdesc j hj] at he ⊢
    by_cases ha : dirId t (j % 2 ^ g) = tid
    · rw [if_pos ha] at he ⊢
      have hjm := (halias j hj).mp ha
      have hplace := w.placement (indexOf hash t key) (indexOf_lt hash t key w.dir_len)
      by_cases hb : j.testBit d = false
      · rw [if_pos hb] at he ⊢
        rw [hstore0] at he ⊢
        rw [splitChild0_depth]
        rw [splitChild0_list] at he
        have hmem := List.mem_filter.mp he
        have h1 : hash e.1 % 2 ^ d = j % 2 ^ d := by
          rw [hjm]
          exact hplace e hmem.1
        have h2 : (hash e.1).testBit d = false := by
          have h3 := hmem.2
          rw [one_shiftLeft] at h3
          simpa [land_two_pow_eq_zero_iff] using h3
        rw [mod_two_pow_succ_iff]
        exact ⟨h1, by rw [h2, hb]⟩
      · rw [if_neg hb] at he ⊢
        rw [hstore1] at he ⊢
        rw [splitChild1_depth]
        rw [splitChild1_list] at he
        have hmem := List.mem_filter.mp he
        have h1 : hash e.1 % 2 ^ d = j % 2 ^ d := by
          rw [hjm]
          exact hplace e hmem.1
        have h2 : (hash e.1).testBit d = true := by
          have h3 := hmem.2
          rw [one_shiftLeft] at h3
          simpa [land_two_pow_eq_zero_iff] using h3
        have hb' : j.testBit d = true := by
          revert hb; cases j.testBit d <;> simp
        rw [mod_two_pow_succ_iff]
        exact ⟨h1, by rw [h2, hb']⟩
    · rw [if_neg ha] at he ⊢
      rw [hstore_old _ (hids_old j hj)] at he ⊢
      have hdi_le : (t.store (dirId t (j % 2 ^ g))).depth ≤ g := w.depth_le _ (hmod j hj)
      have h := w.placement _ (hmod j hj) e he
      rw [mod_mod_collapse j hdi_le] at h
      exact h
  case cap =>
    intro j hj
    rw [hdesc j hj, hbs]
    by_cases ha : dirId t (j % 2 ^ g) = tid
    · rw [if_pos ha]
      by_cases hb : j.testBit d = false
      · rw [if_pos hb, hstore0, splitChild0_list]
        exact le_trans (List.length_filter_le _ _) hcap
      · rw [if_neg hb, hstore1, splitChild1_list]
        exact le_trans (List.length_filter_le _ _) hcap
    · rw [if_neg ha, hstore_old _ (hids_old j hj)]
      exact w.cap _ (hmod j hj)
  case keys_nodup =>
    intro j hj
    rw [hdesc j hj]
    have hnod := w.target_nodup key
    by_cases ha : dirId t (j % 2 ^ g) = tid
    · rw [if_pos ha]
      by_cases hb : j.testBit d = false
      · rw [if_pos hb, hstore0, splitChild0_list]
        exact hnod.sublist (List.Sublist.map _ (List.filter_sublist _))
      · rw [if_neg hb, hstore1, splitChild1_list]
        exact hnod.sublist (List.Sublist.map _ (List.filter_sublist _))
    · rw [if_neg ha, hstore_old _ (hids_old j hj)]
      exact w.keys_nodup _ (hmod j hj)
  case bsize =>
    intro j hj
    rw [hdesc j hj, hbs]
    by_cases ha : dirId t (j % 2 ^ g) = tid
    · rw [if_pos ha]
      by_cases hb : j.testBit d = false
      · rw [if_pos hb, hstore0, splitChild0_size]
      · rw [if_neg hb, hstore1, splitChild1_size]
    · rw [if_neg ha, hstore_old _ (hids_old j hj)]
      exact w.bsize _ (hmod j hj)

@[simp] theorem storeSet_dir {K V : Type} (t : HashTable K V) (id : Nat) (b : Bucket K V) :
    (storeSet t id b).dir = t.dir := rfl

@[simp] theorem storeSet_global {K V : Type} (t : HashTable K V) (id : Nat) (b : Bucket K V) :
    (storeSet t id b).global_depth = t.global_depth := rfl

@[simp] theorem storeSet_bucket_size {K V : Type} (t : HashTable K V) (id : Nat)
    (b : Bucket K V) : (storeSet t id b).bucket_size = t.bucket_size := rfl

@[simp] theorem storeSet_num_buckets {K V : Type} (t : HashTable K V) (id : Nat)
    (b : Bucket K V) : (storeSet t id b).num_buckets = t.num_buckets := rfl

@[simp] theorem storeSet_next_id {K V : Type} (t : HashTable K V) (id : Nat)
    (b : Bucket K V) : (storeSet t id b).next_id = t.next_id := rfl

theorem storeSet_store {K V : Type} (t : HashTable K V) (id : Nat) (b : Bucket K V)
    (j : Nat) : (storeSet t id b).store j = if j = id then b else t.store j := rfl

/-- The post-loop tail of `Insert` preserves well-formedness provided the
target bucket is no longer full. -/
theorem finishInsert_WF {K V : Type} [DecidableEq K] {hash : K → Nat} {t : HashTable K V}
    (w : WF hash t) (key : K) (v : V)
    (hnf : ¬ (t.store (targetId hash t key)).isFull) :
    WF hash (finishInsert hash t key v) := by
  have hidx := indexOf_lt hash t key w.dir_len
  set tid := targetId hash t key with htid
  set target := t.store tid with htarget
  -- the new bucket object written back at the target id
  have halias : ∀ j, j < t.dir.length →
      (dirId t j = tid ↔ j % 2 ^ target.depth = indexOf hash t key % 2 ^ target.depth) :=
    fun j hj => alias_target_iff w key j hj
  have hkeymod : hash key % 2 ^ target.depth = indexOf hash t key % 2 ^ target.depth := by
    rw [indexOf_eq_mod, mod_mod_collapse (hash key) (w.target_depth_le key)]
  have main : ∀ nb : Bucket K V, nb.depth = target.depth → nb.size = target.size →
      nb.list.length ≤ t.bucket_size →
      (nb.list.map Prod.fst).Nodup →
      (∀ e ∈ nb.list, hash e.1 % 2 ^ target.depth = indexOf hash t key % 2 ^ target.depth) →
      WF hash (storeSet t tid nb) := by
    intro nb hdep hsz hlen hnd hpl
    have hsto : ∀ j, j < t.dir.length → (storeSet t tid nb).store (dirId t j) =
        if dirId t j = tid then nb else t.store (dirId t j) := by
      intro j _
      exact storeSet_store t tid nb (dirId t j)
    have hdirId : ∀ j, dirId (storeSet t tid nb) j = dirId t j := fun j => rfl
    constructor
    case dir_len => exact w.dir_len
    case ids_lt => intro j hj; exact w.ids_lt j hj
    case depth_le =>
      intro j hj
      rw [hdirId, hsto j hj]
      by_cases ha : dirId t j = tid
      · rw [if_pos ha, hdep, htarget, ← ha]
        exact w.depth_le j hj
      · rw [if_neg ha]
        exact w.depth_le j hj
    case alias_iff =>
      intro i j hi hj
      rw [hdirId, hdirId, hsto i hi]
      by_cases ha : dirId t i = tid
      · rw [if_pos ha, hdep, htarget, ← ha]
        exact w.alias_iff i j hi hj
      · rw [if_neg ha]
        exact w.alias_iff i j hi hj
    case placement =>
      intro j hj e he
      rw [hdirId] at he ⊢
      rw [hsto j hj] at he ⊢
      by_cases ha : dirId t j = tid
      · rw [if_pos ha] at he ⊢
        rw [hdep]
        have h1 := hpl e he
        have h2 := (halias j hj).mp ha
        rw [h1, h2]
      · rw [if_neg ha] at he ⊢
        exact w.placement j hj e he
    case cap =>
      intro j hj
      rw [hdirId, hsto j hj]
      by_cases ha : dirId t j = tid
      · rw [if_pos ha]; exact hlen
      · rw [if_neg ha]; exact w.cap j hj
    case keys_nodup =>
      intro j hj
      rw [hdirId, hsto j hj]
      by_cases ha : dirId t j = tid
      · rw [if_pos ha]; exact hnd
      · rw [if_neg ha]; exact w.keys_nodup j hj
    case bsize =>
      intro j hj
      rw [hdirId, hsto j hj]
      by_cases ha : dirId t j = tid
      · rw [if_pos ha, hsz, htarget, ← ha]
        exact w.bsize j hj
      · rw [if_neg ha]; exact w.bsize j hj
  unfold finishInsert
  by_cases hexist : (firstEntry (t.store (targetId hash t key)).list key).isSome
  · rw [if_pos hexist]
    refine main _ rfl rfl ?_ ?_ ?_
    · rw [replaceFirst_length]
      exact w.target_cap key
    · rw [replaceFirst_map_fst]
      exact w.target_nodup key
    · intro e he
      rcases replaceFirst_mem key v he with h | h
      · have := w.placement _ hidx e h
        exact this
      · rw [h]
        exact hkeymod
  · rw [if_neg hexist]
    have hnotfull : ¬ (t.store tid).isFull := hnf
    have hins : (t.store tid).insertB key v =
        { t.store tid with list := (t.store tid).list ++ [(key, v)] } := by
      simp [Bucket.insertB, hnotfull]
    refine main _ (by rw [hins]) (by rw [hins]) ?_ ?_ ?_
    · rw [hins]
      simp only [List.length_append, List.length_singleton]
      have h1 : (t.store tid).list.length < (t.store tid).size := by
        unfold Bucket.isFull at hnotfull
        omega
      have h2 := w.target_size key
      rw [← htid] at h2
      omega
    · rw [hins]
      simp only [List.map_append, List.map_singleton]
      have hnotin : key ∉ (t.store tid).list.map Prod.fst := by
        have h3 := (firstEntry_eq_none (t.store (targetId hash t key)).list key).mp
          (Option.not_isSome_iff_eq_none.mp hexist)
        rw [← htid] at h3
        exact h3
      have hnod := w.target_nodup key
      rw [← htid] at hnod
      rw [List.nodup_append]
      refine ⟨hnod, List.nodup_singleton key, ?_⟩
      intro a ha hb
      rw [List.mem_singleton] at hb
      exact hnotin (hb ▸ ha)
    · intro e he
      rw [hins] at he
      simp only [List.mem_append, List.mem_singleton] at he
      rcases he with h | h
      · exact w.placement _ hidx e h
      · rw [h]
        exact hkeymod

theorem insertLoop_WF {K V : Type} [DecidableEq K] {hash : K → Nat} {key : K} {v : V} :
    ∀ (fuel : Nat) {t t' : HashTable K V}, WF hash t →
      insertLoop hash key v fuel t = some t' → WF hash t'
  | 0, t, t', _, h => by simp [insertLoop] at h
  | fuel + 1, t, t', w, h => by
    rw [insertLoop] at h
    by_cases hfull : (t.store (targetId hash t key)).isFull
    · rw [if_pos hfull] at h
      exact insertLoop_WF fuel (splitStep_WF w key) h
    · rw [if_neg hfull] at h
      have := finishInsert_WF w key v hfull
      simpa [← Option.some_inj.mp h] using this

theorem tableInsert_WF {K V : Type} [DecidableEq K] {hash : K → Nat} {t : HashTable K V}
    (w : WF hash t) (key : K) (v : V) : WF hash (tableInsert hash t key v) := by
  unfold tableInsert
  rcases h : insertLoop hash key v (insertFuel hash t key) t with _ | t'
  · simpa using w
  · simpa using insertLoop_WF _ w h

theorem tableRemove_WF {K V : Type} [DecidableEq K] [DecidableEq V] {hash : K → Nat}
    {t : HashTable K V} (w : WF hash t) (key : K) :
    WF hash (tableRemove hash t key).2 := by
  unfold tableRemove Bucket.removeB
  rcases hfe : firstEntry (t.store (targetId hash t key)).list key with _ | e
  · -- no match: the written-back bucket is unchanged
    simp only [hfe]
    have heq : storeSet t (targetId hash t key) (t.store (targetId hash t key)) = t := by
      have : (fun j => if j = targetId hash t key
          then t.store (targetId hash t key) else t.store j) = t.store := by
        funext j
        by_cases hj : j = targetId hash t key <;> simp [hj]
      simp [storeSet, this]
    rw [heq]
    exact w
  · simp only [hfe]
    set tid := targetId hash t key with htid
    set target := t.store tid with htarget
    set nb : Bucket K V :=
      { target with list := target.list.filter (fun x => decide (x ≠ e)) } with hnb
    have hidx := indexOf_lt hash t key w.dir_len
    constructor
    case dir_len => exact w.dir_len
    case ids_lt => exact w.ids_lt
    case depth_le =>
      intro j hj
      have : (storeSet t tid nb).store (dirId t j) =
          if dirId t j = tid then nb else t.store (dirId t j) := rfl
      rw [show dirId (storeSet t tid nb) j = dirId t j from rfl, this]
      by_cases ha : dirId t j = tid
      · rw [if_pos ha]
        have hh : nb.depth = target.depth := rfl
        rw [hh, htarget, ← ha]
        exact w.depth_le j hj
      · rw [if_neg ha]
        exact w.depth_le j hj
    case alias_iff =>
      intro i j hi hj
      rw [show dirId (storeSet t tid nb) i = dirId t i from rfl,
        show dirId (storeSet t tid nb) j = dirId t j from rfl]
      have : (storeSet t tid nb).store (dirId t i) =
          if dirId t i = tid then nb else t.store (dirId t i) := rfl
      rw [this]
      by_cases ha : dirId t i = tid
      · rw [if_pos ha, show nb.depth = target.depth from rfl, htarget, ← ha]
        exact w.alias_iff i j hi hj
      · rw [if_neg ha]
        exact w.alias_iff i j hi hj
    case placement =>
      intro j hj e2 he
      rw [show dirId (storeSet t tid nb) j = dirId t j from rfl] at he ⊢
      have hrw : (storeSet t tid nb).store (dirId t j) =
          if dirId t j = tid then nb else t.store (dirId t j) := rfl
      rw [hrw] at he ⊢
      by_cases ha : dirId t j = tid
      · rw [if_pos ha] at he ⊢
        rw [show nb.depth = target.depth from rfl]
        have he2 : e2 ∈ target.list := List.mem_of_mem_filter he
        have h1 := w.placement j hj e2
        rw [ha] at h1
        have h2 := h1 he2
        rw [show (t.store tid).depth = target.depth from rfl] at h2
        exact h2
      · rw [if_neg ha] at he ⊢
        exact w.placement j hj e2 he
    case cap =>
      intro j hj
      have hrw : (storeSet t tid nb).store (dirId t j) =
          if dirId t j = tid then nb else t.store (dirId t j) := rfl
      rw [show dirId (storeSet t tid nb) j = dirId t j from rfl, hrw,
        show (storeSet t tid nb).bucket_size = t.bucket_size from rfl]
      by_cases ha : dirId t j = tid
      · rw [if_pos ha]
        exact le_trans (List.length_filter_le _ _) (w.target_cap key)
      · rw [if_neg ha]
        exact w.cap j hj
    case keys_nodup =>
      intro j hj
      have hrw : (storeSet t tid nb).store (dirId t j) =
          if dirId t j = tid then nb else t.store (dirId t j) := rfl
      rw [show dirId (storeSet t tid nb) j = dirId t j from rfl, hrw]
      by_cases ha : dirId t j = tid
      · rw [if_pos ha]
        exact (w.target_nodup key).sublist (List.Sublist.map _ (List.filter_sublist _))
      · rw [if_neg ha]
        exact w.keys_nodup j hj
    case bsize =>
      intro j hj
      have hrw : (storeSet t tid nb).store (dirId t j) =
          if dirId t j = tid then nb else t.store (dirId t j) := rfl
      rw [show dirId (storeSet t tid nb) j = dirId t j from rfl, hrw,
        show (storeSet t tid nb).bucket_size = t.bucket_size from rfl]
      by_cases ha : dirId t j = tid
      · rw [if_pos ha, show nb.size = target.size from rfl, htarget, ← ha]
        exact w.bsize j hj
      · rw [if_neg ha]
        exact w.bsize j hj

/-! ### Lookup semantics: how `Find` behaves across the operations -/

@[simp] theorem bucketFind_nil {K V : Type} [DecidableEq K] (key : K) :
    bucketFind ([] : List (K × V)) key = none := rfl

theorem firstEntry_cons {K V : Type} [DecidableEq K] (a : K × V) (es : List (K × V))
    (key : K) :
    firstEntry (a :: es) key = if a.1 = key then some a else firstEntry es key := rfl

theorem bucketFind_cons {K V : Type} [DecidableEq K] (a : K × V) (es : List (K × V))
    (key : K) :
    bucketFind (a :: es) key = if a.1 = key then some a.2 else bucketFind es key := by
  rw [bucketFind, firstEntry_cons]
  by_cases h : a.1 = key <;> simp [h, bucketFind]

/-- Filtering with a predicate that keeps every entry of the sought key does
not change the lookup result. -/
theorem bucketFind_filter_of {K V : Type} [DecidableEq K] (p : K × V → Bool) (k : K) :
    ∀ (l : List (K × V)), (∀ e ∈ l, e.1 = k → p e = true) →
      bucketFind (l.filter p) k = bucketFind l k
  | [], _ => rfl
  | a :: es, h => by
    have hrec := bucketFind_filter_of p k es (fun e he => h e (List.mem_cons_of_mem a he))
    rcases hp : p a with _ | _
    · have hak : ¬ a.1 = k := fun hc => by
        rw [h a (List.mem_cons_self a es) hc] at hp
        exact Bool.noConfusion hp
      rw [List.filter_cons_of_neg (by simp [hp]), bucketFind_cons, if_neg hak, hrec]
    · rw [List.filter_cons_of_pos (by simp [hp]), bucketFind_cons, bucketFind_cons]
      by_cases hak : a.1 = k
      · rw [if_pos hak, if_pos hak]
      · rw [if_neg hak, if_neg hak, hrec]

theorem bucketFind_replaceFirst_self {K V : Type} [DecidableEq K] (v : V) (key : K) :
    ∀ (l : List (K × V)), (firstEntry l key).isSome →
      bucketFind (replaceFirst l key v) key = some v
  | [], h => by simp [firstEntry] at h
  | a :: es, h => by
    by_cases ha : a.1 = key
    · rw [replaceFirst, if_pos ha, bucketFind_cons, if_pos ha]
    · rw [firstEntry, if_neg ha] at h
      rw [replaceFirst, if_neg ha, bucketFind_cons, if_neg ha]
      exact bucketFind_replaceFirst_self v key es h

theorem bucketFind_replaceFirst_ne {K V : Type} [DecidableEq K] (v : V) (key k' : K)
    (hne : k' ≠ key) :
    ∀ (l : List (K × V)), bucketFind (replaceFirst l key v) k' = bucketFind l k'
  | [] => rfl
  | a :: es => by
    by_cases ha : a.1 = key
    · rw [replaceFirst, if_pos ha, bucketFind_cons, bucketFind_cons]
      have : ¬ a.1 = k' := by rw [ha]; exact fun hc => hne hc.symm
      rw [if_neg this, if_neg this]
    · rw [replaceFirst, if_neg ha, bucketFind_cons, bucketFind_cons]
      by_cases hak : a.1 = k'
      · rw [if_pos hak, if_pos hak]
      · rw [if_neg hak, if_neg hak]
        exact bucketFind_replaceFirst_ne v key k' hne es

theorem bucketFind_append_single_self {K V : Type} [DecidableEq K] (v : V) (key : K) :
    ∀ (l : List (K × V)), firstEntry l key = none →
      bucketFind (l ++ [(key, v)]) key = some v
  | [], _ => by simp [bucketFind_cons]
  | a :: es, h => by
    rw [firstEntry] at h
    by_cases ha : a.1 = key
    · rw [if_pos ha] at h
      exact Option.noConfusion h
    · rw [if_neg ha] at h
      rw [List.cons_append, bucketFind_cons, if_neg ha]
      exact bucketFind_append_single_self v key es h

theorem bucketFind_append_single_ne {K V : Type} [DecidableEq K] (v : V) (key k' : K)
    (hne : k' ≠ key) :
    ∀ (l : List (K × V)), bucketFind (l ++ [(key, v)]) k' = bucketFind l k'
  | [] => by
    rw [List.nil_append, bucketFind_cons, bucketFind_nil, if_neg (fun hc => hne hc.symm)]
  | a :: es => by
    rw [List.cons_append, bucketFind_cons, bucketFind_cons]
    by_cases hak : a.1 = k'
    · rw [if_pos hak, if_pos hak]
    · rw [if_neg hak, if_neg hak]
      exact bucketFind_append_single_ne v key k' hne es

/-- Dropping copies of an entry of a different key does not change lookup. -/
theorem bucketFind_filter_ne_entry {K V : Type} [DecidableEq K] [DecidableEq V]
    (e : K × V) (k' : K) (hne : e.1 ≠ k') :
    ∀ (l : List (K × V)),
      bucketFind (l.filter (fun x => decide (x ≠ e))) k' = bucketFind l k'
  | [] => rfl
  | a :: es => by
    have hrec := bucketFind_filter_ne_entry e k' hne es
    by_cases hae : a = e
    · rw [List.filter_cons_of_neg (by simp [hae]), bucketFind_cons,
        if_neg (by rw [hae]; exact hne), hrec]
    · rw [List.filter_cons_of_pos (by simp [hae]), bucketFind_cons, bucketFind_cons]
      by_cases hak : a.1 = k'
      · rw [if_pos hak, if_pos hak]
      · rw [if_neg hak, if_neg hak, hrec]

theorem bucketFind_eq_none {K V : Type} [DecidableEq K] (l : List (K × V)) (key : K) :
    bucketFind l key = none ↔ key ∉ l.map Prod.fst := by
  rw [← firstEntry_eq_none l key, bucketFind]
  cases firstEntry l key <;> simp

/-- After removing the first entry of `key` from a bucket with no duplicate
keys, looking up `key` fails. -/
theorem bucketFind_filter_self {K V : Type} [DecidableEq K] [DecidableEq V] {key : K}
    {e : K × V} :
    ∀ (l : List (K × V)), (l.map Prod.fst).Nodup → firstEntry l key = some e →
      bucketFind (l.filter (fun x => decide (x ≠ e))) key = none
  | [], _, hfe => by simp [firstEntry] at hfe
  | a :: es, hnd, hfe => by
    simp only [List.map_cons, List.nodup_cons] at hnd
    rw [firstEntry] at hfe
    by_cases ha : a.1 = key
    · rw [if_pos ha] at hfe
      have hea : e = a := (Option.some_inj.mp hfe).symm
      rw [List.filter_cons_of_neg (by simp [hea])]
      rw [bucketFind_eq_none]
      intro hc
      have : key ∈ es.map Prod.fst := by
        rcases List.mem_map.mp hc with ⟨x, hx, hx2⟩
        exact hx2 ▸ List.mem_map_of_mem Prod.fst (List.mem_of_mem_filter hx)
      exact hnd.1 (ha ▸ this)
    · rw [if_neg ha] at hfe
      have hae : ¬ a = e := by
        intro hc
        exact ha (by rw [hc, (firstEntry_mem hfe).2])
      rw [List.filter_cons_of_pos (by simp [hae]), bucketFind_cons, if_neg ha]
      exact bucketFind_filter_self es hnd.2 hfe

/-- A split does not change the result of any lookup. -/
theorem tableFind_splitStep {K V : Type} [DecidableEq K] {hash : K → Nat}
    {t : HashTable K V} (w : WF hash t) (key k' : K) :
    (tableFind hash (splitStep hash t key) k').1 = (tableFind hash t k').1 := by
  have hcap := w.target_cap key
  set t' := splitStep hash t key with ht'
  have hlen' : t'.dir.length = 2 ^ t'.global_depth := splitStep_dir_length key w
  have hstore := splitStep_store hash t key hcap
  have hdlt : (t.store (targetId hash t key)).depth < t'.global_depth :=
    splitStep_global_ge key w
  have hgle : t.global_depth ≤ t'.global_depth := by
    rw [ht', splitStep_eq hash t key hcap]
    by_cases hc : (t.store (targetId hash t key)).depth = t.global_depth <;> simp [hc]
  set d := (t.store (targetId hash t key)).depth with hd
  set idx' := indexOf hash t' k' with hidx'
  set idx := indexOf hash t k' with hidx
  have hidx'lt : idx' < t'.dir.length := indexOf_lt hash t' k' hlen'
  have hmodeq : idx' % 2 ^ t.global_depth = idx := by
    rw [hidx', hidx, indexOf_eq_mod, indexOf_eq_mod, mod_mod_collapse (hash k') hgle]
  have hdesc := splitStep_dirId (t := t) key w idx' hidx'lt
  rw [hmodeq] at hdesc
  have hbit : idx'.testBit d = (hash k').testBit d := by
    rw [hidx', indexOf_eq_mod, Nat.testBit_mod_two_pow]
    simp [hdlt]
  -- unfold both lookups to the underlying buckets
  show bucketFind (t'.store (dirId t' idx')).list k' = bucketFind (t.store (dirId t idx)).list k'
  rw [show dirId t' idx' = t'.dir.getD idx' 0 from rfl, ← show dirId t' idx' = t'.dir.getD idx' 0 from rfl]
  rw [hdesc]
  by_cases hcond : dirId t (idx) = targetId hash t key
  · rw [if_pos hcond, hcond]
    by_cases hb : (hash k').testBit d = false
    · rw [hbit, hb, if_pos rfl, splitStep_store0 hash t key hcap, splitChild0_list]
      apply bucketFind_filter_of
      intro e he hek
      have : hash e.1 = hash k' := by rw [hek]
      rw [this, one_shiftLeft]
      simp [land_two_pow_eq_zero_iff, hb]
    · rw [hbit, if_neg (by simpa using hb), splitStep_store1 hash t key hcap,
        splitChild1_list]
      apply bucketFind_filter_of
      intro e he hek
      have h2 : hash e.1 = hash k' := by rw [hek]
      have hb' : (hash k').testBit d = true := by
        revert hb; cases (hash k').testBit d <;> simp
      rw [h2, one_shiftLeft]
      simp [land_two_pow_eq_zero_iff, hb']
  · rw [if_neg hcond,
      splitStep_store_old hash t key hcap (w.ids_lt idx (indexOf_lt hash t k' w.dir_len))]

/-- After a split, the target bucket of the inserted key is the child
selected by bit `old_depth` of its hash, at depth `old_depth + 1`. -/
theorem splitStep_target {K V : Type} [DecidableEq K] {hash : K → Nat}
    {t : HashTable K V} (w : WF hash t) (key : K) :
    (splitStep hash t key).store (targetId hash (splitStep hash t key) key) =
      (if (hash key).testBit (t.store (targetId hash t key)).depth = false
       then splitChild0 hash t key else splitChild1 hash t key) := by
  have hcap := w.target_cap key
  set t' := splitStep hash t key with ht'
  have hlen' : t'.dir.length = 2 ^ t'.global_depth := splitStep_dir_length key w
  have hstore := splitStep_store hash t key hcap
  have hdlt : (t.store (targetId hash t key)).depth < t'.global_depth :=
    splitStep_global_ge key w
  have hgle : t.global_depth ≤ t'.global_depth := by
    rw [ht', splitStep_eq hash t key hcap]
    by_cases hc : (t.store (targetId hash t key)).depth = t.global_depth <;> simp [hc]
  set d := (t.store (targetId hash t key)).depth with hd
  set idx' := indexOf hash t' key with hidx'
  have hidx'lt : idx' < t'.dir.length := indexOf_lt hash t' key hlen'
  have hmodeq : idx' % 2 ^ t.global_depth = indexOf hash t key := by
    rw [hidx', indexOf_eq_mod, indexOf_eq_mod, mod_mod_collapse (hash key) hgle]
  have hdesc := splitStep_dirId (t := t) key w idx' hidx'lt
  rw [hmodeq] at hdesc
  have hbit : idx'.testBit d = (hash key).testBit d := by
    rw [hidx', indexOf_eq_mod, Nat.testBit_mod_two_pow]
    simp [hdlt]
  show t'.store (dirId t' idx') = _
  rw [hdesc,
    if_pos (show dirId t (indexOf hash t key) = targetId hash t key from rfl), hbit]
  by_cases hb : (hash key).testBit d = false
  · rw [if_pos hb, if_pos hb, splitStep_store0 hash t key hcap]
  · rw [if_neg hb, if_neg hb, splitStep_store1 hash t key hcap]

/-- The post-loop tail of `Insert` updates exactly the sought key. -/
theorem tableFind_finishInsert {K V : Type} [DecidableEq K] {hash : K → Nat}
    {t : HashTable K V} (w : WF hash t) (key : K) (v : V)
    (hnf : ¬ (t.store (targetId hash t key)).isFull) (k' : K) :
    (tableFind hash (finishInsert hash t key v) k').1 =
      if k' = key then some v else (tableFind hash t k').1 := by
  have hidx := indexOf_lt hash t key w.dir_len
  set tid := targetId hash t key with htid
  unfold finishInsert
  by_cases hex : (firstEntry (t.store (targetId hash t key)).list key).isSome
  · rw [if_pos hex]
    set nb : Bucket K V :=
      { t.store tid with list := replaceFirst (t.store tid).list key v } with hnb
    have hsto : ∀ id, (storeSet t tid nb).store id = if id = tid then nb else t.store id :=
      fun id => rfl
    have hdir : ∀ j, dirId (storeSet t tid nb) j = dirId t j := fun j => rfl
    have hix : indexOf hash (storeSet t tid nb) k' = indexOf hash t k' := rfl
    show bucketFind ((storeSet t tid nb).store
      (dirId (storeSet t tid nb) (indexOf hash (storeSet t tid nb) k'))).list k' = _
    rw [hdir, hix, hsto]
    by_cases hk : k' = key
    · rw [if_pos hk, hk]
      rw [show dirId t (indexOf hash t key) = tid from rfl, if_pos rfl]
      exact bucketFind_replaceFirst_self v key _ hex
    · rw [if_neg hk]
      by_cases hsame : dirId t (indexOf hash t k') = tid
      · rw [if_pos hsame]
        show bucketFind nb.list k' = bucketFind (t.store (dirId t (indexOf hash t k'))).list k'
        rw [hsame]
        exact bucketFind_replaceFirst_ne v key k' hk _
      · rw [if_neg hsame]
        rfl
  · rw [if_neg hex]
    have hfe : firstEntry (t.store tid).list key = none :=
      Option.not_isSome_iff_eq_none.mp hex
    set nb : Bucket K V := (t.store tid).insertB key v with hnb
    have hsto : ∀ id, (storeSet t tid nb).store id = if id = tid then nb else t.store id :=
      fun id => rfl
    show bucketFind ((storeSet t tid nb).store
      (dirId (storeSet t tid nb) (indexOf hash (storeSet t tid nb) k'))).list k' = _
    rw [show ∀ j, dirId (storeSet t tid nb) j = dirId t j from fun j => rfl,
      show indexOf hash (storeSet t tid nb) k' = indexOf hash t k' from rfl, hsto]
    have hins : nb = { t.store tid with list := (t.store tid).list ++ [(key, v)] } := by
      rw [hnb, Bucket.insertB, if_neg hnf]
    by_cases hk : k' = key
    · rw [if_pos hk, hk, show dirId t (indexOf hash t key) = tid from rfl, if_pos rfl,
        hins]
      exact bucketFind_append_single_self v key _ hfe
    · rw [if_neg hk]
      by_cases hsame : dirId t (indexOf hash t k') = tid
      · rw [if_pos hsame, hins]
        show bucketFind ((t.store tid).list ++ [(key, v)]) k'
          = bucketFind (t.store (dirId t (indexOf hash t k'))).list k'
        rw [hsame]
        exact bucketFind_append_single_ne v key k' hk _
      · rw [if_neg hsame]
        rfl

/-- A successful run of the split loop realises the map update. -/
theorem tableFind_insertLoop {K V : Type} [DecidableEq K] {hash : K → Nat}
    {key : K} {v : V} :
    ∀ (fuel : Nat) {t t' : HashTable K V}, WF hash t →
      insertLoop hash key v fuel t = some t' → ∀ k',
      (tableFind hash t' k').1 = if k' = key then some v else (tableFind hash t k').1
  | 0, t, t', _, h => by simp [insertLoop] at h
  | fuel + 1, t, t', w, h => by
    rw [insertLoop] at h
    by_cases hfull : (t.store (targetId hash t key)).isFull
    · rw [if_pos hfull] at h
      intro k'
      rw [tableFind_insertLoop fuel (splitStep_WF w key) h k']
      by_cases hk : k' = key
      · rw [if_pos hk, if_pos hk]
      · rw [if_neg hk, if_neg hk, tableFind_splitStep w key k']
    · rw [if_neg hfull] at h
      intro k'
      rw [← Option.some_inj.mp h]
      exact tableFind_finishInsert w key v hfull k'

/-! ### Termination of the split loop -/

theorem length_le_one_of_const_key {K V : Type} [DecidableEq K] {key : K} :
    ∀ (l : List (K × V)), (l.map Prod.fst).Nodup → (∀ e ∈ l, e.1 = key) →
      l.length ≤ 1
  | [], _, _ => by simp
  | [e], _, _ => by simp
  | e1 :: e2 :: es, hnd, hall => by
    exfalso
    simp only [List.map_cons, List.nodup_cons, List.mem_cons, List.mem_map] at hnd
    exact hnd.1 (Or.inl (by rw [hall e1 (by simp), hall e2 (by simp)]))

/-- The split loop reaches a non-full target within `n + 1` iterations once
`n` more splits push the target depth past every relevant hash value. -/
theorem insertLoop_reaches {K V : Type} [DecidableEq K] {hash : K → Nat}
    {key : K} {v : V} (hinj : Function.Injective hash) (D : Nat)
    (hkey : hash key < 2 ^ D) :
    ∀ (n : Nat) (t : HashTable K V), WF hash t → 2 ≤ t.bucket_size →
      (∀ e ∈ (t.store (targetId hash t key)).list, hash e.1 < 2 ^ D) →
      D ≤ (t.store (targetId hash t key)).depth + n →
      (insertLoop hash key v (n + 1) t).isSome := by
  intro n
  induction n with
  | zero =>
    intro t w hbs hbound hD
    rw [insertLoop]
    have hnotfull : ¬ (t.store (targetId hash t key)).isFull := by
      have hdep := hD
      rw [Nat.add_zero] at hdep
      -- every entry's hash agrees with the key's modulo 2 ^ depth, and both
      -- are below 2 ^ depth, so every entry is the key itself
      have hall : ∀ e ∈ (t.store (targetId hash t key)).list, e.1 = key := by
        intro e he
        have hidx := indexOf_lt hash t key w.dir_len
        have h1 : hash e.1 % 2 ^ (t.store (targetId hash t key)).depth =
            indexOf hash t key % 2 ^ (t.store (targetId hash t key)).depth :=
          w.placement _ hidx e he
        have h2 : hash key % 2 ^ (t.store (targetId hash t key)).depth =
            indexOf hash t key % 2 ^ (t.store (targetId hash t key)).depth := by
          rw [indexOf_eq_mod, mod_mod_collapse (hash key) (w.target_depth_le key)]
        have h3 : hash e.1 % 2 ^ (t.store (targetId hash t key)).depth =
            hash key % 2 ^ (t.store (targetId hash t key)).depth := by
          rw [h1, h2]
        have h4 : (2 : Nat) ^ D ≤ 2 ^ (t.store (targetId hash t key)).depth :=
          Nat.pow_le_pow_right (by omega) hdep
        have h0 := hbound e he
        have h5 : hash e.1 = hash key := by
          rwa [Nat.mod_eq_of_lt (by omega), Nat.mod_eq_of_lt (by omega)] at h3
        exact hinj h5
      have hlen := length_le_one_of_const_key _ (w.target_nodup key) hall
      have hsz := w.target_size key
      unfold Bucket.isFull
      omega
    rw [if_neg hnotfull]
    simp
  | succ m ih =>
    intro t w hbs hbound hD
    rw [insertLoop]
    by_cases hfull : (t.store (targetId hash t key)).isFull
    · rw [if_pos hfull]
      have htgt := splitStep_target w key
      have hw' := splitStep_WF w key
      have hbs' : 2 ≤ (splitStep hash t key).bucket_size := by
        rwa [splitStep_bucket_size hash t key (w.target_cap key)]
      apply ih (splitStep hash t key) hw' hbs'
      · intro e he
        rw [htgt] at he
        have hmem : e ∈ (t.store (targetId hash t key)).list := by
          by_cases hb : (hash key).testBit (t.store (targetId hash t key)).depth = false
          · rw [if_pos hb, splitChild0_list] at he
            exact List.mem_of_mem_filter he
          · rw [if_neg hb, splitChild1_list] at he
            exact List.mem_of_mem_filter he
        exact hbound e hmem
      · rw [htgt]
        by_cases hb : (hash key).testBit (t.store (targetId hash t key)).depth = false
        · rw [if_pos hb, splitChild0_depth]
          omega
        · rw [if_neg hb, splitChild1_depth]
          omega
    · rw [if_neg hfull]
      simp

/-- `insertFuel` iterations always suffice for an injective hash and bucket
capacity at least 2: `Insert`'s split loop terminates. -/
theorem insertFuel_sufficient {K V : Type} [DecidableEq K] {hash : K → Nat}
    {t : HashTable K V} (w : WF hash t) (key : K) (v : V)
    (hinj : Function.Injective hash) (hbs : 2 ≤ t.bucket_size) :
    (insertLoop hash key v (insertFuel hash t key) t).isSome := by
  set B : Nat := ((t.store (targetId hash t key)).list.map (fun e => hash e.1)).sum
    + hash key + 1 with hB
  have hfuel : insertFuel hash t key = B + 1 := by
    rw [insertFuel, hB]
  rw [hfuel]
  apply insertLoop_reaches hinj B (by
    have := Nat.lt_two_pow B
    omega) B t w hbs
  · intro e he
    have h1 : hash e.1 ≤ ((t.store (targetId hash t key)).list.map (fun e => hash e.1)).sum :=
      List.single_le_sum (fun x _ => Nat.zero_le x) _ (List.mem_map_of_mem _ he)
    have h2 := Nat.lt_two_pow B
    omega
  · omega

theorem tableInsert_eq_insertLoop {K V : Type} [DecidableEq K] {hash : K → Nat}
    {t : HashTable K V} (w : WF hash t) (key : K) (v : V)
    (hinj : Function.Injective hash) (hbs : 2 ≤ t.bucket_size) :
    some (tableInsert hash t key v) = insertLoop hash key v (insertFuel hash t key) t := by
  have h := insertFuel_sufficient w key v hinj hbs
  rcases hres : insertLoop hash key v (insertFuel hash t key) t with _ | t'
  · rw [hres] at h
    simp at h
  · rw [tableInsert, hres]
    rfl

/-- `Insert` realises the associative-map update on lookups. -/
theorem tableFind_tableInsert {K V : Type} [DecidableEq K] {hash : K → Nat}
    {t : HashTable K V} (w : WF hash t) (key : K) (v : V)
    (hinj : Function.Injective hash) (hbs : 2 ≤ t.bucket_size) (k' : K) :
    (tableFind hash (tableInsert hash t key v) k').1 =
      if k' = key then some v else (tableFind hash t k').1 := by
  have h := tableInsert_eq_insertLoop w key v hinj hbs
  exact tableFind_insertLoop (insertFuel hash t key) w h.symm k'

/-- `Remove` deletes exactly the sought key from lookups. -/
theorem tableFind_tableRemove {K V : Type} [DecidableEq K] [DecidableEq V]
    {hash : K → Nat} {t : HashTable K V} (w : WF hash t) (key : K) (k' : K) :
    (tableFind hash (tableRemove hash t key).2 k').1 =
      if k' = key then none else (tableFind hash t k').1 := by
  have hidx := indexOf_lt hash t key w.dir_len
  set tid := targetId hash t key with htid
  unfold tableRemove Bucket.removeB
  rcases hfe : firstEntry (t.store (targetId hash t key)).list key with _ | e
  · -- key absent: the bucket is written back unchanged
    simp only [hfe]
    have hkabs : bucketFind (t.store tid).list key = none := by
      rw [bucketFind, hfe]
      rfl
    show bucketFind ((storeSet t tid (t.store tid)).store
      (dirId (storeSet t tid (t.store tid))
        (indexOf hash (storeSet t tid (t.store tid)) k'))).list k' = _
    rw [show ∀ j, dirId (storeSet t tid (t.store tid)) j = dirId t j from fun j => rfl,
      show indexOf hash (storeSet t tid (t.store tid)) k' = indexOf hash t k' from rfl,
      show ∀ id, (storeSet t tid (t.store tid)).store id
        = if id = tid then t.store tid else t.store id from fun id => rfl]
    by_cases hk : k' = key
    · rw [if_pos hk, hk, show dirId t (indexOf hash t key) = tid from rfl, if_pos rfl]
      exact hkabs
    · rw [if_neg hk]
      by_cases hsame : dirId t (indexOf hash t k') = tid
      · rw [if_pos hsame, ← hsame]
        rfl
      · rw [if_neg hsame]
        rfl
  · simp only [hfe]
    set nb : Bucket K V :=
      { t.store tid with
        list := (t.store tid).list.filter (fun x => decide (x ≠ e)) } with hnb
    show bucketFind ((storeSet t tid nb).store
      (dirId (storeSet t tid nb) (indexOf hash (storeSet t tid nb) k'))).list k' = _
    rw [show ∀ j, dirId (storeSet t tid nb) j = dirId t j from fun j => rfl,
      show indexOf hash (storeSet t tid nb) k' = indexOf hash t k' from rfl,
      show ∀ id, (storeSet t tid nb).store id
        = if id = tid then nb else t.store id from fun id => rfl]
    by_cases hk : k' = key
    · rw [if_pos hk, hk, show dirId t (indexOf hash t key) = tid from rfl, if_pos rfl]
      exact bucketFind_filter_self _ (w.target_nodup key) hfe
    · rw [if_neg hk]
      by_cases hsame : dirId t (indexOf hash t k') = tid
      · rw [if_pos hsame]
        show bucketFind nb.list k' = bucketFind (t.store (dirId t (indexOf hash t k'))).list k'
        rw [hsame]
        have hek : e.1 ≠ k' := by
          rw [(firstEntry_mem hfe).2]
          exact fun hc => hk hc.symm
        exact bucketFind_filter_ne_entry e k' hek _
      · rw [if_neg hsame]
        rfl

/-! ### The multiset of entries stored in the table -/

/-- All `(key, value)` entries held by the table: the directory is
deduplicated into the set of live buckets (aliased slots share one bucket
object), and their lists are summed as a multiset. -/
def tableEntries {K V : Type} (t : HashTable K V) : Multiset (K × V) :=
  t.dir.toFinset.sum (fun id => ((t.store id).list : Multiset (K × V)))

theorem dirId_mem {K V : Type} (t : HashTable K V) {i : Nat} (hi : i < t.dir.length) :
    dirId t i ∈ t.dir := by
  rw [dirId, List.getD_eq_getElem t.dir 0 hi]
  exact List.getElem_mem hi

theorem mem_dir_iff {K V : Type} (t : HashTable K V) (a : Nat) :
    a ∈ t.dir ↔ ∃ i, i < t.dir.length ∧ dirId t i = a := by
  rw [List.mem_iff_getElem]
  constructor
  · rintro ⟨i, hi, hia⟩
    exact ⟨i, hi, by rw [dirId, List.getD_eq_getElem t.dir 0 hi, hia]⟩
  · rintro ⟨i, hi, hia⟩
    exact ⟨i, hi, by rw [← hia, dirId, List.getD_eq_getElem t.dir 0 hi]⟩

/-- Ids appearing in a well-formed directory are below `next_id`. -/
theorem mem_dir_lt {K V : Type} {hash : K → Nat} {t : HashTable K V} (w : WF hash t)
    {a : Nat} (ha : a ∈ t.dir) : a < t.next_id := by
  rcases (mem_dir_iff t a).mp ha with ⟨i, hi, hia⟩
  exact hia ▸ w.ids_lt i hi

/-- Retrieval: any stored entry is found by `Find` on its key. -/
theorem tableFind_isSome_of_mem {K V : Type} [DecidableEq K] {hash : K → Nat}
    {t : HashTable K V} (w : WF hash t) {k : K} {v : V}
    (hm : (k, v) ∈ tableEntries t) : ((tableFind hash t k).1).isSome := by
  rw [tableEntries, Finset.mem_sum] at hm
  rcases hm with ⟨id, hid, hkv⟩
  rw [Multiset.mem_coe] at hkv
  rcases (mem_dir_iff t id).mp (List.mem_toFinset.mp hid) with ⟨i, hi, hia⟩
  -- the slot holding this bucket agrees with the key's target slot
  have hplace := w.placement i hi (k, v) (by rw [hia]; exact hkv)
  have hdep_le := w.depth_le i hi
  have hidxlt := indexOf_lt hash t k w.dir_len
  have halias := w.alias_iff i (indexOf hash t k) hi hidxlt
  have hrhs : i % 2 ^ (t.store (dirId t i)).depth =
      indexOf hash t k % 2 ^ (t.store (dirId t i)).depth := by
    rw [indexOf_eq_mod, mod_mod_collapse (hash k) hdep_le]
    exact hplace.symm
  have htgt : targetId hash t k = dirId t i := (halias.mpr hrhs).symm
  show (bucketFind (t.store (targetId hash t k)).list k).isSome
  rw [htgt, hia, bucketFind_isSome]
  exact List.mem_map_of_mem Prod.fst hkv

/-- A split leaves the stored multiset of entries unchanged: the two fresh
children exactly repartition the old bucket, every other bucket survives. -/
theorem tableEntries_splitStep {K V : Type} [DecidableEq K] {hash : K → Nat}
    {t : HashTable K V} (w : WF hash t) (key : K) :
    tableEntries (splitStep hash t key) = tableEntries t := by
  have hcap := w.target_cap key
  set t' := splitStep hash t key with ht'
  have hlen' : t'.dir.length = 2 ^ t'.global_depth := splitStep_dir_length key w
  have hdlt : (t.store (targetId hash t key)).depth < t'.global_depth :=
    splitStep_global_ge key w
  have hgle : t.global_depth ≤ t'.global_depth := by
    rw [ht', splitStep_eq hash t key hcap]
    by_cases hc : (t.store (targetId hash t key)).depth = t.global_depth <;> simp [hc]
  set d := (t.store (targetId hash t key)).depth with hd
  set g := t.global_depth with hg
  set tid := targetId hash t key with htid
  set idx := indexOf hash t key with hidx
  have hidxlt : idx < t.dir.length := indexOf_lt hash t key w.dir_len
  have htid_lt : tid < t.next_id := w.ids_lt idx hidxlt
  have hdesc : ∀ j, j < t'.dir.length → dirId t' j =
      if dirId t (j % 2 ^ g) = tid then
        (if j.testBit d = false then t.next_id else t.next_id + 1)
      else dirId t (j % 2 ^ g) := fun j hj => splitStep_dirId key w j hj
  have hmod : ∀ j, j < t'.dir.length → j % 2 ^ g < t.dir.length := by
    intro j _
    rw [w.dir_len]
    exact Nat.mod_lt _ (Nat.two_pow_pos _)
  have hlen_le : t.dir.length ≤ t'.dir.length := by
    rw [w.dir_len, hlen']
    exact Nat.pow_le_pow_right (by omega) hgle
  have halias : ∀ j, j < t'.dir.length →
      (dirId t (j % 2 ^ g) = tid ↔ j % 2 ^ d = idx % 2 ^ d) := by
    intro j hj
    rw [alias_target_iff w key _ (hmod j hj),
      mod_mod_collapse j (w.target_depth_le key)]
  set c := idx % 2 ^ d with hc
  have hclt : c < 2 ^ d := Nat.mod_lt _ (Nat.two_pow_pos _)
  have hd1le : 2 ^ (d + 1) ≤ 2 ^ t'.global_depth := Nat.pow_le_pow_right (by omega) hdlt
  have hj0lt : c < t'.dir.length := by
    rw [hlen']
    have : (2 : Nat) ^ d < 2 ^ (d + 1) := by
      rw [Nat.pow_succ]
      omega
    omega
  have hj1lt : c + 2 ^ d < t'.dir.length := by
    rw [hlen']
    have : c + 2 ^ d < 2 ^ (d + 1) := by
      rw [Nat.pow_succ]
      omega
    omega
  have hb0mem : dirId t' c = t.next_id := by
    rw [hdesc c hj0lt]
    have hcm : c % 2 ^ d = idx % 2 ^ d := by
      rw [Nat.mod_eq_of_lt hclt]
    rw [if_pos ((halias c hj0lt).mpr hcm), if_pos (Nat.testBit_lt_two_pow hclt)]
  have hb1mem : dirId t' (c + 2 ^ d) = t.next_id + 1 := by
    rw [hdesc _ hj1lt]
    have hcm : (c + 2 ^ d) % 2 ^ d = idx % 2 ^ d := by
      rw [Nat.add_mod_right, Nat.mod_eq_of_lt hclt]
    have hbit : (c + 2 ^ d).testBit d = true := by
      rw [Nat.add_comm, Nat.testBit_two_pow_add_eq, Nat.testBit_lt_two_pow hclt]
      rfl
    rw [if_pos ((halias _ hj1lt).mpr hcm), if_neg (by rw [hbit]; exact fun hcon => Bool.noConfusion hcon)]
  have hS' : t'.dir.toFinset =
      insert t.next_id (insert (t.next_id + 1) (t.dir.toFinset.erase tid)) := by
    ext a
    simp only [List.mem_toFinset, Finset.mem_insert, Finset.mem_erase]
    constructor
    · intro ha
      rcases (mem_dir_iff t' a).mp ha with ⟨j, hj, hja⟩
      rw [hdesc j hj] at hja
      by_cases hcond : dirId t (j % 2 ^ g) = tid
      · rw [if_pos hcond] at hja
        by_cases hbj : j.testBit d = false
        · rw [if_pos hbj] at hja
          left
          exact hja.symm
        · rw [if_neg hbj] at hja
          right; left
          exact hja.symm
      · rw [if_neg hcond] at hja
        right; right
        refine ⟨?_, ?_⟩
        · rw [← hja]
          exact hcond
        · rw [← hja]
          exact dirId_mem t (hmod j hj)
    · intro ha
      rcases ha with ha | ha | ⟨hne, hmem⟩
      · exact (mem_dir_iff t' a).mpr ⟨c, hj0lt, by rw [hb0mem, ha]⟩
      · exact (mem_dir_iff t' a).mpr ⟨c + 2 ^ d, hj1lt, by rw [hb1mem, ha]⟩
      · rcases (mem_dir_iff t a).mp hmem with ⟨i, hi, hia⟩
        have hi' : i < t'.dir.length := lt_of_lt_of_le hi hlen_le
        refine (mem_dir_iff t' a).mpr ⟨i, hi', ?_⟩
        have himod : i % 2 ^ g = i := Nat.mod_eq_of_lt (by rw [← w.dir_len]; exact hi)
        rw [hdesc i hi', himod, hia, if_neg hne]
  have hfresh_erase : ∀ b : Nat, t.next_id ≤ b → b ∉ t.dir.toFinset.erase tid := by
    intro b hb hmem
    have := mem_dir_lt w (List.mem_toFinset.mp (Finset.mem_of_mem_erase hmem))
    omega
  have htid_mem : tid ∈ t.dir.toFinset := List.mem_toFinset.mpr (dirId_mem t hidxlt)
  rw [tableEntries, tableEntries, hS']
  rw [Finset.sum_insert (by
    simp only [Finset.mem_insert]
    rintro (hcon | hcon)
    · omega
    · exact hfresh_erase _ (le_refl _) hcon)]
  rw [Finset.sum_insert (hfresh_erase _ (by omega))]
  rw [← Finset.add_sum_erase _ _ htid_mem]
  have hsum_erase : ∑ id ∈ t.dir.toFinset.erase tid, ((t'.store id).list : Multiset (K × V))
      = ∑ id ∈ t.dir.toFinset.erase tid, ((t.store id).list : Multiset (K × V)) := by
    apply Finset.sum_congr rfl
    intro id hid
    rw [ht', splitStep_store_old hash t key hcap
      (mem_dir_lt w (List.mem_toFinset.mp (Finset.mem_of_mem_erase hid)))]
  rw [hsum_erase, ht', splitStep_store0 hash t key hcap, splitStep_store1 hash t key hcap,
    splitChild0_list, splitChild1_list]
  have hperm := List.filter_append_perm
    (fun e => decide (hash e.1 &&& (1 <<< (t.store (targetId hash t key)).depth) = 0))
    (t.store (targetId hash t key)).list
  have hchild :
      ((t.store (targetId hash t key)).list.filter
        (fun e => decide (hash e.1 &&& (1 <<< (t.store (targetId hash t key)).depth) = 0))
        : Multiset (K × V)) +
      ((t.store (targetId hash t key)).list.filter
        (fun e => !decide (hash e.1 &&& (1 <<< (t.store (targetId hash t key)).depth) = 0))
        : Multiset (K × V)) =
      ((t.store (targetId hash t key)).list : Multiset (K × V)) := by
    rw [Multiset.coe_add]
    exact Multiset.coe_eq_coe.mpr hperm
  rw [← add_assoc, hchild]

/-! ### A diverging run of the split loop (`bucket_size = 1`, duplicate key)

`std::hash<int>` is the identity on the values used here. -/

/-- `std::hash<int>` for non-negative ints: the identity. -/
def idHash : Nat → Nat := fun k => k

/-- Invariant of the diverging `Insert(5, _)` run: the target bucket of key
5 has capacity 1, local depth equal to the global depth, and already holds
the single entry `(5, 0)` — so it is full, and every split hands `(5, 0)`
back to the key's own child. -/
def c9State (t : HashTable Nat Nat) : Prop :=
  WF idHash t ∧ t.bucket_size = 1 ∧
    (t.store (targetId idHash t 5)).size = 1 ∧
    (t.store (targetId idHash t 5)).depth = t.global_depth ∧
    (t.store (targetId idHash t 5)).list = [(5, 0)]

theorem c9State_step {t : HashTable Nat Nat} (h : c9State t) :
    c9State (splitStep idHash t 5) := by
  obtain ⟨w, hbs, hsz, hdep, hlist⟩ := h
  have hcap := w.target_cap 5
  have ht := splitStep_target w 5
  have hglob : (splitStep idHash t 5).global_depth = t.global_depth + 1 := by
    rw [splitStep_eq idHash t 5 hcap]
    simp [hdep]
  have hband : ∀ b : Bool, (idHash 5).testBit (t.store (targetId idHash t 5)).depth = b →
      (decide (idHash 5 &&& (1 <<< (t.store (targetId idHash t 5)).depth) = 0) = !b) := by
    intro b hb
    rw [one_shiftLeft]
    rcases b with _ | _
    · simp [land_two_pow_eq_zero_iff, hb]
    · simp [land_two_pow_eq_zero_iff, hb]
  refine ⟨splitStep_WF w 5, ?_, ?_, ?_, ?_⟩
  · rw [splitStep_bucket_size idHash t 5 hcap, hbs]
  · rw [ht]
    by_cases hb : (idHash 5).testBit (t.store (targetId idHash t 5)).depth = false
    · rw [if_pos hb, splitChild0_size, hbs]
    · rw [if_neg hb, splitChild1_size, hbs]
  · rw [ht, hglob]
    by_cases hb : (idHash 5).testBit (t.store (targetId idHash t 5)).depth = false
    · rw [if_pos hb, splitChild0_depth, hdep]
    · rw [if_neg hb, splitChild1_depth, hdep]
  · rw [ht]
    by_cases hb : (idHash 5).testBit (t.store (targetId idHash t 5)).depth = false
    · rw [if_pos hb, splitChild0_list, hlist, List.filter_cons]
      have := hband false hb
      simp only [this]
      rfl
    · have hb' : (idHash 5).testBit (t.store (targetId idHash t 5)).depth = true := by
        revert hb
        cases (idHash 5).testBit (t.store (targetId idHash t 5)).depth <;> simp
      rw [if_neg hb, splitChild1_list, hlist, List.filter_cons]
      have := hband true hb'
      simp only [this]
      rfl

theorem c9_loop_none : ∀ (fuel : Nat) (t : HashTable Nat Nat), c9State t →
    insertLoop idHash 5 1 fuel t = none
  | 0, _, _ => rfl
  | fuel + 1, t, h => by
    rw [insertLoop]
    have hfull : (t.store (targetId idHash t 5)).isFull := by
      unfold Bucket.isFull
      rw [h.2.2.1, h.2.2.2.2]
      simp
    rw [if_pos hfull]
    exact c9_loop_none fuel _ (c9State_step h)

/-- The state after `Insert(5, 0)` on a fresh table with `bucket_size = 1`. -/
def c9Table : HashTable Nat Nat := tableInsert idHash (HashTable.init Nat Nat 1) 5 0

theorem c9Table_state : c9State c9Table := by
  refine ⟨tableInsert_WF (WF.init idHash 1) 5 0, ?_, ?_, ?_, ?_⟩ <;> decide

/-! ### States reachable through the hash table's public API -/

/-- Table states reachable from the constructor by any sequence of
`Insert`, `Find` and `Remove`. -/
inductive ReachableHT {K V : Type} [DecidableEq K] [DecidableEq V] (hash : K → Nat)
    (bucket_size : Nat) : HashTable K V → Prop where
  | init : ReachableHT hash bucket_size (HashTable.init K V bucket_size)
  | insert (t : HashTable K V) (key : K) (v : V) :
      ReachableHT hash bucket_size t →
      ReachableHT hash bucket_size (tableInsert hash t key v)
  | find (t : HashTable K V) (key : K) :
      ReachableHT hash bucket_size t →
      ReachableHT hash bucket_size (tableFind hash t key).2
  | remove (t : HashTable K V) (key : K) :
      ReachableHT hash bucket_size t →
      ReachableHT hash bucket_size (tableRemove hash t key).2

theorem reachableHT_WF {K V : Type} [DecidableEq K] [DecidableEq V] {hash : K → Nat}
    {bucket_size : Nat} {t : HashTable K V} (h : ReachableHT hash bucket_size t) :
    WF hash t := by
  induction h with
  | init => exact WF.init hash bucket_size
  | insert t key v _ ih => exact tableInsert_WF ih key v
  | find t key _ ih => exact ih
  | remove t key _ ih => exact tableRemove_WF ih key

/-- C8: in every state reachable by any sequence of `Insert`, `Find` and
`Remove` from a fresh `ExtendibleHashTable`, the directory length equals
`2 ^ global_depth`, and two directory slots hold the same bucket exactly
when their indices agree on the low `local_depth` bits of the first slot's
bucket. -/
theorem claim_c8 {K V : Type} [DecidableEq K] [DecidableEq V] (hash : K → Nat)
    (bucket_size : Nat) (t : HashTable K V) (h : ReachableHT hash bucket_size t) :
    t.dir.length = 2 ^ t.global_depth ∧
    ∀ i j, i < t.dir.length → j < t.dir.length →
      (dirId t i = dirId t j ↔
        i % 2 ^ (t.store (dirId t i)).depth = j % 2 ^ (t.store (dirId t i)).depth) :=
  ⟨(reachableHT_WF h).dir_len, (reachableHT_WF h).alias_iff⟩

/-- A table reached by one `Insert` on a fresh table, exercising C8. -/
def c8Table : HashTable Nat Nat := tableInsert idHash (HashTable.init Nat Nat 4) 5 7

theorem claim_c8_witness :
    ReachableHT idHash 4 c8Table ∧
      (c8Table.dir.length = 2 ^ c8Table.global_depth ∧
       ∀ i j, i < c8Table.dir.length → j < c8Table.dir.length →
        (dirId c8Table i = dirId c8Table j ↔
          i % 2 ^ (c8Table.store (dirId c8Table i)).depth =
            j % 2 ^ (c8Table.store (dirId c8Table i)).depth)) :=
  ⟨ReachableHT.insert _ 5 7 ReachableHT.init,
   claim_c8 idHash 4 c8Table (ReachableHT.insert _ 5 7 ReachableHT.init)⟩

/-- C10: `Find` leaves the table completely unchanged — directory, global
depth, bucket count, every bucket's entry list, indeed the whole state —
whether or not the key is present. -/
theorem claim_c10 {K V : Type} [DecidableEq K] (hash : K → Nat) (t : HashTable K V)
    (key : K) :
    (tableFind hash t key).2.dir = t.dir ∧
    (tableFind hash t key).2.global_depth = t.global_depth ∧
    (tableFind hash t key).2.num_buckets = t.num_buckets ∧
    (∀ id, ((tableFind hash t key).2.store id).list = (t.store id).list) ∧
    (tableFind hash t key).2 = t :=
  ⟨rfl, rfl, rfl, fun _ => rfl, rfl⟩

/-- C9 (amended): the split loop of `Insert` terminates whenever the hash
is injective and the bucket capacity is at least 2; and each split
iteration raises the local depth of the key's target bucket by one. -/
theorem claim_c9 {K V : Type} [DecidableEq K] (hash : K → Nat) (t : HashTable K V)
    (key : K) (v : V) (w : WF hash t) (hinj : Function.Injective hash)
    (hbs : 2 ≤ t.bucket_size) :
    InsertTerminates hash key v t ∧
    ((t.store (targetId hash t key)).isFull →
      ((splitStep hash t key).store (targetId hash (splitStep hash t key) key)).depth =
        (t.store (targetId hash t key)).depth + 1) := by
  constructor
  · exact ⟨insertFuel hash t key, insertFuel_sufficient w key v hinj hbs⟩
  · intro hfull
    rw [splitStep_target w key]
    by_cases hb : (hash key).testBit (t.store (targetId hash t key)).depth = false
    · rw [if_pos hb, splitChild0_depth]
    · rw [if_neg hb, splitChild1_depth]

theorem claim_c9_witness :
    Function.Injective idHash ∧ 2 ≤ (HashTable.init Nat Nat 4).bucket_size ∧
      (InsertTerminates idHash 9 3 (HashTable.init Nat Nat 4) ∧
       (((HashTable.init Nat Nat 4).store
           (targetId idHash (HashTable.init Nat Nat 4) 9)).isFull →
         ((splitStep idHash (HashTable.init Nat Nat 4) 9).store
             (targetId idHash (splitStep idHash (HashTable.init Nat Nat 4) 9) 9)).depth =
           ((HashTable.init Nat Nat 4).store
             (targetId idHash (HashTable.init Nat Nat 4) 9)).depth + 1)) :=
  ⟨fun _ _ hab => hab, by decide,
   claim_c9 idHash (HashTable.init Nat Nat 4) 9 3 (WF.init idHash 4)
     (fun _ _ hab => hab) (by decide)⟩

/-- C9 counterexample: with `bucket_size = 1`, re-inserting key 5 (hash 5)
after `Insert(5, 0)` never exits the split loop — every split hands the
old entry `(5, 0)` to the key's own child, which stays full — so the claim
that the loop terminates for every key and value is false on the code. -/
theorem claim_c9_counterexample : ¬ InsertTerminates idHash 5 1 c9Table := by
  rintro ⟨fuel, hs⟩
  rw [c9_loop_none fuel c9Table c9Table_state] at hs
  simp at hs

/-- C7: a split performed during `Insert` (target bucket full) preserves
the multiset of entries stored in the table; the two fresh buckets exactly
partition the old bucket's entries by bit `1 << old_local_depth` of each
key's hash with nothing lost or duplicated; and `Find` still succeeds for
every previously stored key. -/
theorem claim_c7 {K V : Type} [DecidableEq K] [DecidableEq V] (hash : K → Nat)
    (t : HashTable K V) (key : K) (w : WF hash t)
    (_hfull : (t.store (targetId hash t key)).isFull) :
    tableEntries (splitStep hash t key) = tableEntries t ∧
    ((splitStep hash t key).store t.next_id).list =
      (t.store (targetId hash t key)).list.filter
        (fun e => decide (hash e.1 &&& (1 <<< (t.store (targetId hash t key)).depth) = 0)) ∧
    ((splitStep hash t key).store (t.next_id + 1)).list =
      (t.store (targetId hash t key)).list.filter
        (fun e => !decide (hash e.1 &&& (1 <<< (t.store (targetId hash t key)).depth) = 0)) ∧
    ((((splitStep hash t key).store t.next_id).list : Multiset (K × V)) +
      (((splitStep hash t key).store (t.next_id + 1)).list : Multiset (K × V))) =
      ((t.store (targetId hash t key)).list : Multiset (K × V)) ∧
    ∀ (k : K) (v : V), (k, v) ∈ tableEntries t →
      ((tableFind hash (splitStep hash t key) k).1).isSome := by
  have hcap := w.target_cap key
  refine ⟨tableEntries_splitStep w key, ?_, ?_, ?_, ?_⟩
  · rw [splitStep_store0 hash t key hcap, splitChild0_list]
  · rw [splitStep_store1 hash t key hcap, splitChild1_list]
  · rw [splitStep_store0 hash t key hcap, splitStep_store1 hash t key hcap,
      splitChild0_list, splitChild1_list, Multiset.coe_add]
    exact Multiset.coe_eq_coe.mpr (List.filter_append_perm _ _)
  · intro k v hm
    rw [tableFind_splitStep w key k]
    exact tableFind_isSome_of_mem w hm

/-- A table whose target bucket for key 9 is full (capacity 2, holding the
entries for keys 1 and 5), exercising C7's split. -/
def c7Table : HashTable Nat Nat :=
  tableInsert idHash (tableInsert idHash (HashTable.init Nat Nat 2) 1 0) 5 0

theorem claim_c7_witness :
    (c7Table.store (targetId idHash c7Table 9)).isFull ∧
      tableEntries (splitStep idHash c7Table 9) = tableEntries c7Table :=
  ⟨by decide,
   (claim_c7 idHash c7Table 9
     (tableInsert_WF (tableInsert_WF (WF.init idHash 2) 1 0) 5 0) (by decide)).1⟩

/-! ## LRU-K replacer (`lru_k_replacer.cpp`)

`lru_list_` is the history list (fewer than `k` accesses), `lru_k_list_`
the cache list.  The two `std::unordered_map`s are modelled as
`Nat → Option _`; C++ `operator[]` reads go through `mapEnsure` where the
key may be absent.  `curr_size_` is a `size_t` and is decremented with
64-bit wrap-around (`w64dec`), exactly as the source can underflow it. -/

structure LRUKReplacer where
  replacer_size : Nat
  k : Nat
  lru_list : List Nat
  lru_k_list : List Nat
  access_count_map : Nat → Option Nat
  is_evictable_map : Nat → Option Bool
  curr_size : Nat

/-- `LRUKReplacer(num_frames, k)`. -/
def LRUKReplacer.init (num_frames k : Nat) : LRUKReplacer :=
  { replacer_size := num_frames
    k := k
    lru_list := []
    lru_k_list := []
    access_count_map := fun _ => none
    is_evictable_map := fun _ => none
    curr_size := 0 }

/-- The out-of-range check `frame_id > static_cast<int>(replacer_size_)`
that makes `RecordAccess`/`SetEvictable`/`Remove` throw.  (Note the
source's `>` rather than `>=`.) -/
def frameThrows (s : LRUKReplacer) (f : Nat) : Prop := s.replacer_size < f

instance (s : LRUKReplacer) (f : Nat) : Decidable (frameThrows s f) := by
  unfold frameThrows; infer_instance

/-- `LRUKReplacer::RecordAccess`.  On the throwing input the state is
returned unchanged; `frameThrows` marks that case. -/
def recordAccess (s : LRUKReplacer) (f : Nat) : LRUKReplacer :=
  if s.replacer_size < f then s
  else
    let c := w64 ((s.access_count_map f).getD 0 + 1)
    let m := mapSet s.access_count_map f c
    if c = 1 then
      { s with access_count_map := m, lru_list := s.lru_list ++ [f] }
    else if c < s.k then
      { s with access_count_map := m,
               lru_list := (s.lru_list.filter (fun g => decide (g ≠ f))) ++ [f] }
    else if c = s.k then
      { s with access_count_map := m,
               lru_list := s.lru_list.filter (fun g => decide (g ≠ f)),
               lru_k_list := s.lru_k_list ++ [f] }
    else
      { s with access_count_map := m,
               lru_k_list := (s.lru_k_list.filter (fun g => decide (g ≠ f))) ++ [f] }

/-- `LRUKReplacer::SetEvictable`.  The second and third `if` read
`is_evictable_map[frame_id]` after the first `if` has guaranteed the entry
exists, so plain lookups are exact there. -/
def setEvictable (s : LRUKReplacer) (f : Nat) (b : Bool) : LRUKReplacer :=
  if s.replacer_size < f then s
  else
    let s1 := if (s.is_evictable_map f).isNone then
        { s with is_evictable_map := mapSet s.is_evictable_map f b,
                 curr_size := if b then w64 (s.curr_size + 1) else s.curr_size }
      else s
    let s2 := if s1.is_evictable_map f = some false ∧ b then
        { s1 with is_evictable_map := mapSet s1.is_evictable_map f true,
                  curr_size := w64 (s1.curr_size + 1) }
      else s1
    if s2.is_evictable_map f = some true ∧ ¬ b then
      { s2 with is_evictable_map := mapSet s2.is_evictable_map f false,
                curr_size := w64dec s2.curr_size }
    else s2

/-- `LRUKReplacer::Remove`.  A non-evictable (or untracked) frame returns
silently, with only the `operator[]` default-insert as a side effect; an
evictable frame is removed from its list, but its access count is merely
decremented (erased only when it reaches 0) and its evictability entry is
left in place. -/
def removeR (s : LRUKReplacer) (f : Nat) : LRUKReplacer :=
  if s.replacer_size < f then s
  else
    let m := mapEnsure s.is_evictable_map f false
    if (m f).getD false = false then { s with is_evictable_map := m }
    else
      let am := mapEnsure s.access_count_map f 0
      let access_count := (am f).getD 0
      let s1 := { s with is_evictable_map := m, access_count_map := am }
      let s2 := if access_count < s.k then
          { s1 with lru_list := s1.lru_list.filter (fun g => decide (g ≠ f)) }
        else
          { s1 with lru_k_list := s1.lru_k_list.filter (fun g => decide (g ≠ f)) }
      let c2 := w64dec access_count
      let s3 := if c2 = 0 then { s2 with access_count_map := mapErase s2.access_count_map f }
        else { s2 with access_count_map := mapSet s2.access_count_map f c2 }
      { s3 with curr_size := w64dec s3.curr_size }

/-- The scan `while (p != lru_list_.end()) { if (is_evictable_map[*p])
break; p++; }`: returns the decomposition of the list at the first
evictable element, plus the map after the `operator[]` default-inserts. -/
def scanEvictable (m : Nat → Option Bool) :
    List Nat → (Option (List Nat × Nat × List Nat)) × (Nat → Option Bool)
  | [] => (none, m)
  | f :: fs =>
    let m1 := mapEnsure m f false
    if (m1 f).getD false then (some ([], f, fs), m1)
    else
      let r := scanEvictable m1 fs
      (r.1.map (fun x => (f :: x.1, x.2.1, x.2.2)), r.2)

/-- `LRUKReplacer::Evict`. -/
def evict (s : LRUKReplacer) : Option Nat × LRUKReplacer :=
  if s.curr_size = 0 then (none, s)
  else
    let r1 := scanEvictable s.is_evictable_map s.lru_list
    match r1.1 with
    | some (pre, f, post) =>
      (some f,
       { s with lru_list := pre ++ post,
                access_count_map := mapErase s.access_count_map f,
                is_evictable_map := mapErase r1.2 f,
                curr_size := w64dec s.curr_size })
    | none =>
      let r2 := scanEvictable r1.2 s.lru_k_list
      match r2.1 with
      | some (pre, f, post) =>
        (some f,
         { s with lru_k_list := pre ++ post,
                  access_count_map := mapErase s.access_count_map f,
                  is_evictable_map := mapErase r2.2 f,
                  curr_size := w64dec s.curr_size })
      | none => (none, { s with is_evictable_map := r2.2 })

/-- `LRUKReplacer::Size`. -/
def sizeR (s : LRUKReplacer) : Nat := s.curr_size

/-! ### Lemmas about the eviction scan -/

theorem scanEvictable_view (m : Nat → Option Bool) :
    ∀ (l : List Nat) (g : Nat),
      (((scanEvictable m l).2) g).getD false = (m g).getD false
  | [], _ => rfl
  | f :: fs, g => by
    unfold scanEvictable
    by_cases hb : ((mapEnsure m f false f).getD false) = true
    · simp only [hb, if_true]
      exact mapEnsure_getD m f g false
    · simp only [Bool.not_eq_true] at hb
      simp only [hb, Bool.false_eq_true, if_false]
      rw [scanEvictable_view (mapEnsure m f false) fs g, mapEnsure_getD]

theorem scanEvictable_none {m : Nat → Option Bool} :
    ∀ {l : List Nat}, (scanEvictable m l).1 = none →
      l.find? (fun f => (m f).getD false) = none
  | [], _ => rfl
  | f :: fs, h => by
    unfold scanEvictable at h
    by_cases hb : ((mapEnsure m f false f).getD false) = true
    · simp only [hb, if_true] at h
      exact Option.noConfusion h
    · simp only [Bool.not_eq_true] at hb
      simp only [hb, Bool.false_eq_true, if_false] at h
      have hf : (m f).getD false = false := by
        rw [← mapEnsure_getD m f f false]
        exact hb
      rw [List.find?_cons_of_neg _ (by rw [hf]; exact Bool.noConfusion)]
      rcases hr : (scanEvictable (mapEnsure m f false) fs).1 with _ | x
      · have hrec := scanEvictable_none (m := mapEnsure m f false) (l := fs) hr
        have hp : (fun x => ((mapEnsure m f false) x).getD false) =
            (fun x => (m x).getD false) := funext (fun x => mapEnsure_getD m f x false)
        rwa [hp] at hrec
      · rw [hr] at h
        exact Option.noConfusion h

theorem scanEvictable_some {m : Nat → Option Bool} :
    ∀ {l : List Nat} {pre : List Nat} {f : Nat} {post : List Nat},
      (scanEvictable m l).1 = some (pre, f, post) →
      l = pre ++ f :: post ∧ l.find? (fun g => (m g).getD false) = some f
  | [], pre, f, post, h => Option.noConfusion h
  | a :: fs, pre, f, post, h => by
    unfold scanEvictable at h
    by_cases hb : ((mapEnsure m a false a).getD false) = true
    · simp only [hb, if_true] at h
      have ha : (m a).getD false = true := by
        rw [← mapEnsure_getD m a a false]
        exact hb
      have hx := Option.some_inj.mp h
      have h1 : ([] : List Nat) = pre := congrArg Prod.fst hx
      have h2 : a = f := congrArg (fun p => p.2.1) hx
      have h3 : fs = post := congrArg (fun p => p.2.2) hx
      subst h1
      subst h2
      subst h3
      refine ⟨rfl, ?_⟩
      rw [List.find?_cons_of_pos _ (by rw [ha])]
    · simp only [Bool.not_eq_true] at hb
      simp only [hb, Bool.false_eq_true, if_false] at h
      have ha : (m a).getD false = false := by
        rw [← mapEnsure_getD m a a false]
        exact hb
      rcases hr : (scanEvictable (mapEnsure m a false) fs).1 with _ | x
      · rw [hr] at h
        exact Option.noConfusion h
      · rw [hr] at h
        have hx : (a :: x.1, x.2.1, x.2.2) = (pre, f, post) := Option.some_inj.mp h
        have h1 : a :: x.1 = pre := congrArg Prod.fst hx
        have h2 : x.2.1 = f := congrArg (fun p => p.2.1) hx
        have h3 : x.2.2 = post := congrArg (fun p => p.2.2) hx
        subst h1
        subst h2
        subst h3
        have hrec := @scanEvictable_some (mapEnsure m a false)
          fs x.1 x.2.1 x.2.2 (by rw [hr])
        have hp : (fun g => ((mapEnsure m a false) g).getD false) =
            (fun g => (m g).getD false) := funext (fun g => mapEnsure_getD m a g false)
        rw [hp] at hrec
        refine ⟨?_, ?_⟩
        · rw [List.cons_append, ← hrec.1]
        · rw [List.find?_cons_of_neg _ (by rw [ha]; exact Bool.noConfusion)]
          exact hrec.2

/-- What the specification means by the first evictable frame of a list:
the first element whose evictability flag reads true. -/
def specFirstEvictable (m : Nat → Option Bool) (l : List Nat) : Option Nat :=
  l.find? (fun f => (m f).getD false)

/-- C6 (amended): when `curr_size_` is nonzero, `Evict` returns the first
evictable frame of the history list, or else the first evictable frame of
the cache list, or none, and on success it erases the victim's access
count and evictability entries and removes it from both lists; when
`curr_size_ = 0` it returns none unconditionally with the state unchanged
— even when a tracked, listed frame still reads evictable, which the
`Remove` bug of C2 makes reachable (`claim_c6_counterexample`).  The
hypothesis says the scanned lists hold no duplicates, which holds in
every state produced by the replacer's API. -/
theorem claim_c6 (s : LRUKReplacer)
    (hnd : (s.lru_list ++ s.lru_k_list).Nodup) :
    (s.curr_size = 0 → evict s = (none, s)) ∧
    (s.curr_size ≠ 0 →
      ((evict s).1 = match specFirstEvictable s.is_evictable_map s.lru_list with
         | some f => some f
         | none => specFirstEvictable s.is_evictable_map s.lru_k_list) ∧
      (∀ f, (evict s).1 = some f →
        (evict s).2.access_count_map f = none ∧
        (evict s).2.is_evictable_map f = none ∧
        f ∉ (evict s).2.lru_list ∧ f ∉ (evict s).2.lru_k_list)) := by
  constructor
  · intro hc
    rw [evict, if_pos hc]
  · intro hc
    have hview := scanEvictable_view s.is_evictable_map s.lru_list
    rcases hfst : (scanEvictable s.is_evictable_map s.lru_list).1 with _ | x
    · -- no evictable frame in the history list
      have hfind1 : specFirstEvictable s.is_evictable_map s.lru_list = none :=
        scanEvictable_none hfst
      have hp : (fun g => (((scanEvictable s.is_evictable_map s.lru_list).2) g).getD false)
          = (fun g => (s.is_evictable_map g).getD false) := funext hview
      rcases hfst2 : (scanEvictable (scanEvictable s.is_evictable_map s.lru_list).2
          s.lru_k_list).1 with _ | x
      · have hev : evict s = (none,
            { s with is_evictable_map :=
                (scanEvictable (scanEvictable s.is_evictable_map s.lru_list).2
                  s.lru_k_list).2 }) := by
          rw [evict, if_neg hc]
          dsimp only
          rw [hfst]
          dsimp only
          rw [hfst2]
        have hfind2 : specFirstEvictable s.is_evictable_map s.lru_k_list = none := by
          have h := scanEvictable_none hfst2
          rw [hp] at h
          exact h
        constructor
        · rw [hev, hfind1, hfind2]
        · intro g hg
          rw [hev] at hg
          exact Option.noConfusion hg
      · obtain ⟨pre, f, post⟩ := x
        have hev : evict s = (some f,
            { s with lru_k_list := pre ++ post,
                     access_count_map := mapErase s.access_count_map f,
                     is_evictable_map := mapErase
                       (scanEvictable (scanEvictable s.is_evictable_map s.lru_list).2
                         s.lru_k_list).2 f,
                     curr_size := w64dec s.curr_size }) := by
          rw [evict, if_neg hc]
          dsimp only
          rw [hfst]
          dsimp only
          rw [hfst2]
        have hsome := scanEvictable_some hfst2
        have hfind2 : specFirstEvictable s.is_evictable_map s.lru_k_list = some f := by
          have h := hsome.2
          rw [hp] at h
          exact h
        have hdecomp := hsome.1
        constructor
        · rw [hev, hfind1, hfind2]
        · intro g hg
          rw [hev] at hg
          rcases Option.some_inj.mp hg with ⟨⟩
          refine ⟨by simp [hev, mapErase], by simp [hev, mapErase], ?_, ?_⟩
          · rw [hev]
            intro hmem
            have hdisj := List.disjoint_of_nodup_append hnd
            have hfc : f ∈ s.lru_k_list := by
              rw [hdecomp]
              exact List.mem_append_right pre (List.mem_cons_self f post)
            exact hdisj hmem hfc
          · rw [hev]
            intro hmem
            have hnd2 := hnd.of_append_right
            rw [hdecomp, List.nodup_middle, List.nodup_cons] at hnd2
            exact hnd2.1 hmem
    · obtain ⟨pre, f, post⟩ := x
      have hev : evict s = (some f,
          { s with lru_list := pre ++ post,
                   access_count_map := mapErase s.access_count_map f,
                   is_evictable_map := mapErase
                     (scanEvictable s.is_evictable_map s.lru_list).2 f,
                   curr_size := w64dec s.curr_size }) := by
        rw [evict, if_neg hc]
        dsimp only
        rw [hfst]
      have hsome := scanEvictable_some hfst
      have hfind1 : specFirstEvictable s.is_evictable_map s.lru_list = some f := hsome.2
      have hdecomp := hsome.1
      constructor
      · rw [hev, hfind1]
      · intro g hg
        rw [hev] at hg
        rcases Option.some_inj.mp hg with ⟨⟩
        refine ⟨by simp [hev, mapErase], by simp [hev, mapErase], ?_, ?_⟩
        · rw [hev]
          intro hmem
          have hnd1 := hnd.of_append_left
          rw [hdecomp, List.nodup_middle, List.nodup_cons] at hnd1
          exact hnd1.1 hmem
        · rw [hev]
          intro hmem
          have hdisj := List.disjoint_of_nodup_append hnd
          have hfh : f ∈ s.lru_list := by
            rw [hdecomp]
            exact List.mem_append_right pre (List.mem_cons_self f post)
          exact hdisj hfh hmem

/-- The spec's LRU-K scenario: 7 frames, `k = 2`, access pattern
1,2,3,4,1,2,3,4,5, then all five frames set evictable. -/
def c6State : LRUKReplacer :=
  [1, 2, 3, 4, 5].foldl (fun s f => setEvictable s f true)
    ([1, 2, 3, 4, 1, 2, 3, 4, 5].foldl recordAccess (LRUKReplacer.init 7 2))

theorem claim_c6_witness :
    (c6State.lru_list ++ c6State.lru_k_list).Nodup ∧
    c6State.curr_size ≠ 0 ∧
    (((evict c6State).1 = match specFirstEvictable c6State.is_evictable_map c6State.lru_list with
        | some f => some f
        | none => specFirstEvictable c6State.is_evictable_map c6State.lru_k_list) ∧
      (∀ f, (evict c6State).1 = some f →
        (evict c6State).2.access_count_map f = none ∧
        (evict c6State).2.is_evictable_map f = none ∧
        f ∉ (evict c6State).2.lru_list ∧ f ∉ (evict c6State).2.lru_k_list)) ∧
    (evict c6State).1 = some 5 :=
  ⟨by decide, by decide,
   (claim_c6 c6State (by decide)).2 (by decide), by decide⟩

/-- An API-reachable state exhibiting the C6 divergence (a downstream
effect of the `Remove` bug of C2): `RecordAccess(1); SetEvictable(1, true);
Remove(1); RecordAccess(1)` on a replacer with 7 frames and `k = 2` leaves
`curr_size_ = 0` while frame 1 heads the history list with its
evictability flag still `true`. -/
def c6BugState : LRUKReplacer :=
  recordAccess
    (removeR (setEvictable (recordAccess (LRUKReplacer.init 7 2) 1) 1 true) 1) 1

/-- C6 counterexample to the original claim: in `c6BugState` frame 1 is
tracked, first in the history list, and reads evictable — the first
evictable frame of the scan is frame 1 — yet `Evict` returns none, because
of the `curr_size_ == 0` early exit. -/
theorem claim_c6_counterexample :
    c6BugState.curr_size = 0 ∧
    c6BugState.lru_list = [1] ∧
    c6BugState.is_evictable_map 1 = some true ∧
    specFirstEvictable c6BugState.is_evictable_map c6BugState.lru_list = some 1 ∧
    (evict c6BugState).1 = none := by
  decide

/-- The state after `RecordAccess(1)` twice, `RecordAccess(2)` once and
`SetEvictable(1, true)` on a replacer with 7 frames and `k = 2`: frame 1 is
tracked and evictable (in the cache list with access count 2), frame 2 is
tracked and not evictable. -/
def c2State : LRUKReplacer :=
  setEvictable (recordAccess (recordAccess (recordAccess (LRUKReplacer.init 7 2) 1) 1) 2)
    1 true

/-- C2 (code bug): on the failing input, `Remove(1)` of the tracked,
evictable frame 1 leaves its access count (decremented to 1, not erased)
and its evictability entry (still `true`) behind instead of removing the
frame's entire bookkeeping; and `Remove(2)` of the tracked, non-evictable
frame 2 silently returns (no exception path is taken and no state relevant
to frame 2's tracking changes) instead of being fatal. -/
theorem claim_c2 :
    (c2State.is_evictable_map 1 = some true ∧ c2State.access_count_map 1 = some 2 ∧
      c2State.lru_k_list = [1]) ∧
    ((removeR c2State 1).access_count_map 1 = some 1 ∧
      (removeR c2State 1).is_evictable_map 1 = some true) ∧
    (c2State.is_evictable_map 2 = none ∧ c2State.access_count_map 2 = some 1) ∧
    (¬ frameThrows c2State 2 ∧
      (removeR c2State 2).lru_list = c2State.lru_list ∧
      (removeR c2State 2).lru_k_list = c2State.lru_k_list ∧
      (removeR c2State 2).access_count_map 2 = c2State.access_count_map 2 ∧
      (removeR c2State 2).curr_size = c2State.curr_size) := by
  decide

/-! ## Buffer pool manager (`buffer_pool_manager_instance.cpp`)

The page table is the extendible hash table instantiated at
`<page_id_t, frame_id_t>` with the identity hash (`std::hash<int>` on the
non-negative page ids in use); the replacer is the LRU-K replacer above.
A page's byte buffer is abstracted to a single image token `data : Nat`
(`ResetMemory` writes 0, `ReadPage`/`WritePage` copy tokens to and from
`disk : Nat → Nat`), because the manager never inspects page bytes.
`page_id_ = INVALID_PAGE_ID` is modelled as `none`.

`NewPgImp` (line 68) and `FetchPgImp` (line 121) ignore `Evict`'s return
value; when `Evict` fails, the C++ goes on to read an uninitialized
`frame_id`, which is undefined behavior.  Those two operations therefore
return `Option`: `none` marks exactly that undefined path. -/

/-- One frame's `Page` object: resident page id (or none), pin count,
dirty flag and the page image. -/
structure Page where
  page_id : Option Nat
  pin_count : Nat
  is_dirty : Bool
  data : Nat
deriving DecidableEq

/-- `BufferPoolManagerInstance`.  `disk` is the consumed `DiskManager`. -/
structure BPM where
  pool_size : Nat
  pages : List Page
  page_table : HashTable Nat Nat
  replacer : LRUKReplacer
  free_list : List Nat
  next_page_id : Nat
  disk : Nat → Nat

/-- The constructor: empty zeroed frames, all frames on the free list. -/
def BPM.init (pool_size bucket_size replacer_k : Nat) (disk : Nat → Nat) : BPM :=
  { pool_size := pool_size
    pages := List.replicate pool_size ⟨none, 0, false, 0⟩
    page_table := HashTable.init Nat Nat bucket_size
    replacer := LRUKReplacer.init pool_size replacer_k
    free_list := List.range pool_size
    next_page_id := 0
    disk := disk }

/-- `pages_[fid]`. -/
def pageAt (s : BPM) (fid : Nat) : Page := s.pages.getD fid ⟨none, 0, false, 0⟩

/-- `DiskManager::WritePage`. -/
def diskWrite (d : Nat → Nat) (pid img : Nat) : Nat → Nat :=
  fun q => if q = pid then img else d q

/-- `NewPgImp`.  `none` is the undefined path (uninitialized `frame_id`
after a failed `Evict`); `some (none, s)` is the null return; otherwise
`some (some (page_id, frame_id), s)`. -/
def newPage (s0 : BPM) : Option (Option (Nat × Nat) × BPM) :=
  if ¬ s0.pages.any (fun p => p.pin_count == 0) then some (none, s0)
  else
    let page_id := s0.next_page_id
    let s1 := { s0 with next_page_id := s0.next_page_id + 1 }
    let acquire : Option (Nat × BPM) :=
      match s1.free_list with
      | fid :: rest => some (fid, { s1 with free_list := rest })
      | [] =>
        match evict s1.replacer with
        | (some fid, rep) =>
          let s2 := { s1 with replacer := rep }
          let evicted := pageAt s2 fid
          let s3 :=
            if evicted.is_dirty then
              { s2 with disk := diskWrite s2.disk ((evicted.page_id).getD 0) evicted.data,
                        pages := s2.pages.set fid { evicted with is_dirty := false } }
            else s2
          let s4 := { s3 with pages := s3.pages.set fid { pageAt s3 fid with data := 0 } }
          let s5 := { s4 with
            page_table := (tableRemove idHash s4.page_table ((evicted.page_id).getD 0)).2 }
          some (fid, s5)
        | (none, _) => none
    match acquire with
    | none => none
    | some (fid, s5) =>
      let s6 := { s5 with page_table := tableInsert idHash s5.page_table page_id fid }
      let s7 := { s6 with
        pages := s6.pages.set fid { pageAt s6 fid with page_id := some page_id, pin_count := 1 } }
      let s8 := { s7 with replacer := recordAccess s7.replacer fid }
      let s9 := { s8 with replacer := setEvictable s8.replacer fid false }
      some (some (page_id, fid), s9)

/-- `FetchPgImp`.  The handle is the frame id; `none` is the undefined
path, `some (none, s)` the null return. -/
def fetchPage (s0 : BPM) (page_id : Nat) : Option (Option Nat × BPM) :=
  match (tableFind idHash s0.page_table page_id).1 with
  | some fid =>
    let s1 := { s0 with
      pages := s0.pages.set fid
        { pageAt s0 fid with pin_count := (pageAt s0 fid).pin_count + 1 } }
    let s2 := { s1 with replacer := recordAccess s1.replacer fid }
    let s3 := { s2 with replacer := setEvictable s2.replacer fid false }
    some (some fid, s3)
  | none =>
    if ¬ s0.pages.any (fun p => p.pin_count == 0) then some (none, s0)
    else
      let acquire : Option (Nat × BPM) :=
        match s0.free_list with
        | fid :: rest => some (fid, { s0 with free_list := rest })
        | [] =>
          match evict s0.replacer with
          | (some fid, rep) =>
            let s2 := { s0 with replacer := rep }
            let evicted := pageAt s2 fid
            let s3 :=
              if evicted.is_dirty then
                { s2 with disk := diskWrite s2.disk ((evicted.page_id).getD 0) evicted.data,
                          pages := s2.pages.set fid { evicted with is_dirty := false } }
              else s2
            let s4 := { s3 with
              page_table := (tableRemove idHash s3.page_table ((evicted.page_id).getD 0)).2 }
            let s5 := { s4 with pages := s4.pages.set fid { pageAt s4 fid with data := 0 } }
            some (fid, s5)
          | (none, _) => none
      match acquire with
      | none => none
      | some (fid, s5) =>
        let s6 := { s5 with page_table := tableInsert idHash s5.page_table page_id fid }
        let s7 := { s6 with
          pages := s6.pages.set fid
            { pageAt s6 fid with page_id := some page_id, pin_count := 1 } }
        let s8 := { s7 with replacer := recordAccess s7.replacer fid }
        let s9 := { s8 with replacer := setEvictable s8.replacer fid false }
        let s10 := { s9 with
          pages := s9.pages.set fid { pageAt s9 fid with data := s9.disk page_id } }
        some (some fid, s10)

/-- `UnpinPgImp`. -/
def unpinPage (s0 : BPM) (page_id : Nat) (is_dirty : Bool) : Bool × BPM :=
  match (tableFind idHash s0.page_table page_id).1 with
  | none => (false, s0)
  | some fid =>
    if (pageAt s0 fid).pin_count = 0 then (false, s0)
    else
      let s1 := if is_dirty then
          { s0 with pages := s0.pages.set fid { pageAt s0 fid with is_dirty := is_dirty } }
        else s0
      let s2 := { s1 with
        pages := s1.pages.set fid
          { pageAt s1 fid with pin_count := (pageAt s1 fid).pin_count - 1 } }
      let s3 := if (pageAt s2 fid).pin_count = 0 then
          { s2 with replacer := setEvictable s2.replacer fid true }
        else s2
      (true, s3)

/-- `FlushPgImp`. -/
def flushPage (s0 : BPM) (page_id : Nat) : Bool × BPM :=
  match (tableFind idHash s0.page_table page_id).1 with
  | none => (false, s0)
  | some fid =>
    let s1 := { s0 with disk := diskWrite s0.disk page_id (pageAt s0 fid).data }
    (true, { s1 with pages := s1.pages.set fid { pageAt s1 fid with is_dirty := false } })

/-- `DeletePgImp`. -/
def deletePage (s0 : BPM) (page_id : Nat) : Bool × BPM :=
  match (tableFind idHash s0.page_table page_id).1 with
  | none => (true, s0)
  | some fid =>
    if 0 < (pageAt s0 fid).pin_count then (false, s0)
    else
      let s1 := if (pageAt s0 fid).is_dirty then
          { s0 with disk := diskWrite s0.disk page_id (pageAt s0 fid).data,
                    pages := s0.pages.set fid { pageAt s0 fid with is_dirty := false } }
        else s0
      let s2 := { s1 with
        pages := s1.pages.set fid
          { pageAt s1 fid with page_id := none, pin_count := 0, data := 0 } }
      let s3 := { s2 with free_list := s2.free_list ++ [fid] }
      let s4 := { s3 with page_table := (tableRemove idHash s3.page_table page_id).2 }
      let s5 := { s4 with replacer := removeR s4.replacer fid }
      (true, s5)

/-! ### Frame-array and replacer bookkeeping lemmas -/

theorem getD_set_self {α : Type} (l : List α) (i : Nat) (p d : α) (h : i < l.length) :
    (l.set i p).getD i d = p := by
  rw [List.getD_eq_getElem?_getD, List.getElem?_set_self', List.getElem?_eq_getElem h]
  rfl

theorem getD_set_other {α : Type} (l : List α) {i j : Nat} (p d : α) (h : j ≠ i) :
    (l.set i p).getD j d = l.getD j d := by
  rw [List.getD_eq_getElem?_getD, List.getElem?_set_ne (fun hc => h hc.symm),
    ← List.getD_eq_getElem?_getD]

theorem set_getD_self {α : Type} (l : List α) (i : Nat) (d : α) (h : i < l.length) :
    l.set i (l.getD i d) = l := by
  apply List.ext_getElem?
  intro n
  by_cases hn : n = i
  · rw [hn, List.getElem?_set_self', List.getD_eq_getElem?_getD,
      List.getElem?_eq_getElem h]
    rfl
  · rw [List.getElem?_set_ne (fun hc => hn hc.symm)]

theorem pageAt_set_self (s : BPM) (fid : Nat) (p : Page)
    (h : fid < s.pages.length) :
    (s.pages.set fid p).getD fid ⟨none, 0, false, 0⟩ = p := getD_set_self _ _ _ _ h

theorem recordAccess_evm (r : LRUKReplacer) (f : Nat) :
    (recordAccess r f).is_evictable_map = r.is_evictable_map := by
  unfold recordAccess
  split
  · rfl
  · dsimp only
    split
    · rfl
    · split
      · rfl
      · split
        · rfl
        · rfl

theorem recordAccess_size (r : LRUKReplacer) (f : Nat) :
    (recordAccess r f).replacer_size = r.replacer_size := by
  unfold recordAccess
  split
  · rfl
  · dsimp only
    split
    · rfl
    · split
      · rfl
      · split
        · rfl
        · rfl

theorem recordAccess_curr (r : LRUKReplacer) (f : Nat) :
    (recordAccess r f).curr_size = r.curr_size := by
  unfold recordAccess
  split
  · rfl
  · dsimp only
    split
    · rfl
    · split
      · rfl
      · split
        · rfl
        · rfl

theorem recordAccess_mem_lists (r : LRUKReplacer) (f : Nat) {g : Nat}
    (hg : g ∈ (recordAccess r f).lru_list ++ (recordAccess r f).lru_k_list) :
    g = f ∨ g ∈ r.lru_list ++ r.lru_k_list := by
  have hfilter : ∀ (l : List Nat), g ∈ l.filter (fun x => decide (x ≠ f)) → g ∈ l :=
    fun l h => List.mem_of_mem_filter h
  unfold recordAccess at hg
  split at hg
  · right; exact hg
  · dsimp only at hg
    split at hg
    · simp only [List.mem_append, List.mem_singleton] at hg ⊢
      rcases hg with (hg | hg) | hg
      · right; left; exact hg
      · left; exact hg
      · right; right; exact hg
    · split at hg
      · simp only [List.mem_append, List.mem_singleton] at hg ⊢
        rcases hg with (hg | hg) | hg
        · right; left; exact hfilter _ hg
        · left; exact hg
        · right; right; exact hg
      · split at hg
        · simp only [List.mem_append, List.mem_singleton] at hg ⊢
          rcases hg with hg | hg | hg
          · right; left; exact hfilter _ hg
          · right; right; exact hg
          · left; exact hg
        · simp only [List.mem_append, List.mem_singleton] at hg ⊢
          rcases hg with hg | (hg | hg)
          · right; left; exact hg
          · right; right; exact hfilter _ hg
          · left; exact hg

theorem setEvictable_size (r : LRUKReplacer) (f : Nat) (b : Bool) :
    (setEvictable r f b).replacer_size = r.replacer_size := by
  unfold setEvictable
  split
  · rfl
  · dsimp only
    repeat' split
    all_goals rfl

theorem setEvictable_k (r : LRUKReplacer) (f : Nat) (b : Bool) :
    (setEvictable r f b).k = r.k := by
  unfold setEvictable
  split
  · rfl
  · dsimp only
    repeat' split
    all_goals rfl

theorem setEvictable_lists (r : LRUKReplacer) (f : Nat) (b : Bool) :
    (setEvictable r f b).lru_list = r.lru_list ∧
      (setEvictable r f b).lru_k_list = r.lru_k_list := by
  unfold setEvictable
  split
  · exact ⟨rfl, rfl⟩
  · dsimp only
    repeat' split
    all_goals exact ⟨rfl, rfl⟩

theorem setEvictable_evm_other (r : LRUKReplacer) (f : Nat) (b : Bool) {g : Nat}
    (hg : g ≠ f) :
    (setEvictable r f b).is_evictable_map g = r.is_evictable_map g := by
  unfold setEvictable
  split
  · rfl
  · dsimp only
    repeat' split
    all_goals simp [mapSet, hg]

theorem setEvictable_evm_self (r : LRUKReplacer) (f : Nat) (b : Bool)
    (h : ¬ r.replacer_size < f) :
    (setEvictable r f b).is_evictable_map f = some b := by
  unfold setEvictable
  rw [if_neg h]
  dsimp only
  rcases b with _ | _ <;> rcases hold : r.is_evictable_map f with _ | _ | _ <;>
    simp [hold, mapSet]

theorem ite_curr_lt (c : Prop) [inst : Decidable c] (a b : LRUKReplacer)
    (ha : a.curr_size < 2 ^ 64) (hb : b.curr_size < 2 ^ 64) :
    (ite c a b).curr_size < 2 ^ 64 := by
  rcases inst with hI | hI
  · rw [if_neg hI]; exact hb
  · rw [if_pos hI]; exact ha

theorem setEvictable_curr_lt (r : LRUKReplacer) (f : Nat) (b : Bool)
    (h : r.curr_size < 2 ^ 64) : (setEvictable r f b).curr_size < 2 ^ 64 := by
  have hw : ∀ n : Nat, w64 n < 2 ^ 64 := fun n => Nat.mod_lt _ (by norm_num)
  have hw2 : ∀ n : Nat, w64dec n < 2 ^ 64 := fun n => Nat.mod_lt _ (by norm_num)
  unfold setEvictable
  refine ite_curr_lt _ _ _ h ?_
  dsimp only
  refine ite_curr_lt _ _ _ (hw2 _) (ite_curr_lt _ _ _ (hw _) (ite_curr_lt _ _ _ ?_ h))
  show (if b then w64 (r.curr_size + 1) else r.curr_size) < 2 ^ 64
  cases b
  · exact h
  · exact hw _

/-! ### Further bookkeeping lemmas for the buffer-pool proofs -/

theorem mapEnsure_of_isSome {γ : Type} {m : Nat → Option γ} {g : Nat} (k : Nat) (d : γ)
    (h : (m g).isSome) : mapEnsure m k d g = m g := by
  by_cases hg : g = k
  · subst hg
    rcases hm : m g with _ | x
    · rw [hm] at h
      exact absurd h (by simp)
    · simp [mapEnsure, hm]
  · simp [mapEnsure, hg]

theorem mapEnsure_isSome {γ : Type} {m : Nat → Option γ} {g : Nat} (k : Nat) (d : γ)
    (h : (m g).isSome) : (mapEnsure m k d g).isSome := by
  by_cases hg : g = k
  · subst hg
    simp [mapEnsure]
  · rwa [mapEnsure_other m k g d hg]

theorem removeR_size (r : LRUKReplacer) (f : Nat) :
    (removeR r f).replacer_size = r.replacer_size := by
  unfold removeR
  split
  · rfl
  · dsimp only
    repeat' split
    all_goals rfl

theorem removeR_evm (r : LRUKReplacer) (f g : Nat)
    (h : (r.is_evictable_map g).isSome) :
    (removeR r f).is_evictable_map g = r.is_evictable_map g := by
  unfold removeR
  split
  · rfl
  · dsimp only
    repeat' split
    all_goals exact mapEnsure_of_isSome f false h

theorem removeR_mem_lists (r : LRUKReplacer) (f : Nat) (g : Nat) :
    (g ∈ (removeR r f).lru_list ∨ g ∈ (removeR r f).lru_k_list) →
      g ∈ r.lru_list ∨ g ∈ r.lru_k_list := by
  unfold removeR
  split
  · exact id
  · dsimp only
    repeat' split
    all_goals rintro (hg | hg)
    all_goals first
      | exact Or.inl hg
      | exact Or.inr hg
      | exact Or.inl (List.mem_of_mem_filter hg)
      | exact Or.inr (List.mem_of_mem_filter hg)

theorem scanEvictable_map_of_isSome {m : Nat → Option Bool} {g : Nat}
    (h : (m g).isSome) : ∀ l : List Nat, ((scanEvictable m l).2) g = m g
  | [] => rfl
  | a :: fs => by
    unfold scanEvictable
    by_cases hb : ((mapEnsure m a false a).getD false) = true
    · simp only [hb, if_true]
      exact mapEnsure_of_isSome a false h
    · simp only [Bool.not_eq_true] at hb
      simp only [hb, Bool.false_eq_true, if_false]
      rw [scanEvictable_map_of_isSome (mapEnsure_isSome a false h) fs]
      exact mapEnsure_of_isSome a false h

theorem evict_some_spec (r : LRUKReplacer) (f : Nat) (r' : LRUKReplacer)
    (h : evict r = (some f, r')) :
    r'.replacer_size = r.replacer_size ∧
      (f ∈ r.lru_list ∨ f ∈ r.lru_k_list) ∧
      (∀ g, g ≠ f → (r.is_evictable_map g).isSome →
        r'.is_evictable_map g = r.is_evictable_map g) ∧
      (∀ g, g ∈ r'.lru_list ∨ g ∈ r'.lru_k_list →
        g ∈ r.lru_list ∨ g ∈ r.lru_k_list) := by
  unfold evict at h
  split at h
  · exact absurd (congrArg Prod.fst h) (by simp)
  · dsimp only at h
    rcases hs1 : (scanEvictable r.is_evictable_map r.lru_list).1 with _ | ⟨pre, v, post⟩ <;>
      rw [hs1] at h
    · rcases hs2 : (scanEvictable (scanEvictable r.is_evictable_map r.lru_list).2
          r.lru_k_list).1 with _ | ⟨pre, v, post⟩ <;> rw [hs2] at h
      · exact absurd (congrArg Prod.fst h) (by simp)
      · have hv : v = f := Option.some_inj.mp (congrArg Prod.fst h)
        subst hv
        have hr' := (congrArg Prod.snd h).symm
        subst hr'
        obtain ⟨hdec, _⟩ := scanEvictable_some hs2
        refine ⟨rfl, Or.inr (by rw [hdec]; simp), ?_, ?_⟩
        · intro g hg hsome
          show mapErase (scanEvictable _ r.lru_k_list).2 v g = r.is_evictable_map g
          rw [mapErase_other _ _ _ hg,
            scanEvictable_map_of_isSome
              (g := g) (by rw [scanEvictable_map_of_isSome hsome r.lru_list]; exact hsome)
              r.lru_k_list,
            scanEvictable_map_of_isSome hsome r.lru_list]
        · intro g hg
          rcases hg with hg | hg
          · exact Or.inl hg
          · refine Or.inr ?_
            rw [hdec]
            have : g ∈ pre ++ post := hg
            rcases List.mem_append.mp this with h1 | h1
            · exact List.mem_append.mpr (Or.inl h1)
            · exact List.mem_append.mpr (Or.inr (List.mem_cons_of_mem _ h1))
    · have hv : v = f := Option.some_inj.mp (congrArg Prod.fst h)
      subst hv
      have hr' := (congrArg Prod.snd h).symm
      subst hr'
      obtain ⟨hdec, _⟩ := scanEvictable_some hs1
      refine ⟨rfl, Or.inl (by rw [hdec]; simp), ?_, ?_⟩
      · intro g hg hsome
        show mapErase (scanEvictable _ r.lru_list).2 v g = r.is_evictable_map g
        rw [mapErase_other _ _ _ hg, scanEvictable_map_of_isSome hsome r.lru_list]
      · intro g hg
        rcases hg with hg | hg
        · refine Or.inl ?_
          rw [hdec]
          have : g ∈ pre ++ post := hg
          rcases List.mem_append.mp this with h1 | h1
          · exact List.mem_append.mpr (Or.inl h1)
          · exact List.mem_append.mpr (Or.inr (List.mem_cons_of_mem _ h1))
        · exact Or.inr hg

theorem tableRemove_bucket_size {K V : Type} [DecidableEq K] [DecidableEq V]
    (hash : K → Nat) (t : HashTable K V) (key : K) :
    (tableRemove hash t key).2.bucket_size = t.bucket_size := rfl

theorem finishInsert_bucket_size {K V : Type} [DecidableEq K] (hash : K → Nat)
    (t : HashTable K V) (key : K) (v : V) :
    (finishInsert hash t key v).bucket_size = t.bucket_size := by
  unfold finishInsert
  dsimp only
  split <;> rfl

theorem insertLoop_bucket_size {K V : Type} [DecidableEq K] {hash : K → Nat}
    {key : K} {v : V} :
    ∀ (fuel : Nat) {t t' : HashTable K V}, WF hash t →
      insertLoop hash key v fuel t = some t' → t'.bucket_size = t.bucket_size
  | 0, t, t', _, h => Option.noConfusion h
  | fuel + 1, t, t', w, h => by
    rw [insertLoop] at h
    by_cases hfull : (t.store (targetId hash t key)).isFull
    · rw [if_pos hfull] at h
      rw [insertLoop_bucket_size fuel (splitStep_WF w key) h]
      exact splitStep_bucket_size hash t key (w.target_cap key)
    · rw [if_neg hfull] at h
      rw [← Option.some_inj.mp h]
      exact finishInsert_bucket_size hash t key v

theorem tableInsert_bucket_size {K V : Type} [DecidableEq K] {hash : K → Nat}
    {t : HashTable K V} (w : WF hash t) (key : K) (v : V) :
    (tableInsert hash t key v).bucket_size = t.bucket_size := by
  unfold tableInsert
  rcases h : insertLoop hash key v (insertFuel hash t key) t with _ | t'
  · rfl
  · simpa using insertLoop_bucket_size _ w h

/-! ### Explicit characterizations of the buffer-pool operations -/

theorem unpinPage_spec (s : BPM) (pid : Nat) (d : Bool) (fid : Nat)
    (hfind : (tableFind idHash s.page_table pid).1 = some fid)
    (hlen : fid < s.pages.length)
    (hpin : (pageAt s fid).pin_count ≠ 0) :
    unpinPage s pid d =
      (true,
       { s with
          pages := s.pages.set fid
            { pageAt s fid with
                is_dirty := (pageAt s fid).is_dirty || d,
                pin_count := (pageAt s fid).pin_count - 1 },
          replacer := if (pageAt s fid).pin_count - 1 = 0
            then setEvictable s.replacer fid true else s.replacer }) := by
  unfold unpinPage
  rw [hfind]
  dsimp only
  rw [if_neg hpin]
  have h1 : (if d then
        { s with
            pages := s.pages.set fid { pageAt s fid with is_dirty := d } }
      else s) =
      { s with
          pages := s.pages.set fid
            { pageAt s fid with is_dirty := (pageAt s fid).is_dirty || d } } := by
    rcases d with _ | _
    · show s =
        { s with
            pages := s.pages.set fid
              { pageAt s fid with is_dirty := (pageAt s fid).is_dirty || false } }
      simp only [Bool.or_false]
      rw [show s.pages.set fid
          { pageAt s fid with is_dirty := (pageAt s fid).is_dirty } = s.pages from
        set_getD_self s.pages fid ⟨none, 0, false, 0⟩ hlen]
    · simp only [Bool.or_true]
      rfl
  rw [h1]
  have hset : ∀ P : Page, pageAt { s with pages := s.pages.set fid P } fid = P :=
    fun P => getD_set_self _ _ _ _ hlen
  rw [hset]
  dsimp only
  rw [List.set_set, hset]
  by_cases hz : (pageAt s fid).pin_count - 1 = 0
  · rw [if_pos hz, if_pos hz]
  · rw [if_neg hz, if_neg hz]

theorem flushPage_spec (s : BPM) (pid : Nat) (fid : Nat)
    (hfind : (tableFind idHash s.page_table pid).1 = some fid) :
    flushPage s pid =
      (true,
       { s with
          disk := diskWrite s.disk pid (pageAt s fid).data,
          pages := s.pages.set fid { pageAt s fid with is_dirty := false } }) := by
  unfold flushPage
  rw [hfind]
  rfl

theorem deletePage_spec (s : BPM) (pid : Nat) (fid : Nat)
    (hfind : (tableFind idHash s.page_table pid).1 = some fid)
    (hlen : fid < s.pages.length)
    (hpin : (pageAt s fid).pin_count = 0) :
    deletePage s pid =
      (true,
       { s with
          disk := if (pageAt s fid).is_dirty then
              diskWrite s.disk pid (pageAt s fid).data
            else s.disk,
          pages := s.pages.set fid ⟨none, 0, false, 0⟩,
          free_list := s.free_list ++ [fid],
          page_table := (tableRemove idHash s.page_table pid).2,
          replacer := removeR s.replacer fid }) := by
  unfold deletePage
  rw [hfind]
  dsimp only
  rw [if_neg (by omega)]
  have hset : ∀ (dk : Nat → Nat) (P : Page),
      pageAt { s with pages := s.pages.set fid P, disk := dk } fid = P :=
    fun _ P => getD_set_self _ _ _ _ hlen
  by_cases hd : (pageAt s fid).is_dirty = true
  · rw [if_pos hd]
    dsimp only
    rw [hset, List.set_set, if_pos hd]
  · rw [if_neg hd, if_neg hd]
    have hd' : (pageAt s fid).is_dirty = false := by
      simpa using hd
    rw [hd']

theorem fetchPage_hit_spec (s : BPM) (pid : Nat) (fid : Nat)
    (hfind : (tableFind idHash s.page_table pid).1 = some fid) :
    fetchPage s pid =
      some (some fid,
       { s with
          pages := s.pages.set fid
            { pageAt s fid with pin_count := (pageAt s fid).pin_count + 1 },
          replacer := setEvictable (recordAccess s.replacer fid) fid false }) := by
  unfold fetchPage
  rw [hfind]

theorem newPage_null_spec (s : BPM)
    (h : ¬ s.pages.any (fun p => p.pin_count == 0)) :
    newPage s = some (none, s) := by
  unfold newPage
  rw [if_pos h]

theorem newPage_free_spec (s : BPM) (fid : Nat) (rest : List Nat)
    (havail : s.pages.any (fun p => p.pin_count == 0))
    (hfree : s.free_list = fid :: rest) :
    newPage s =
      some (some (s.next_page_id, fid),
       { s with
          next_page_id := s.next_page_id + 1,
          free_list := rest,
          page_table := tableInsert idHash s.page_table s.next_page_id fid,
          pages := s.pages.set fid
            { pageAt s fid with page_id := some s.next_page_id, pin_count := 1 },
          replacer := setEvictable (recordAccess s.replacer fid) fid false }) := by
  unfold newPage
  rw [if_neg (not_not_intro havail)]
  dsimp only
  rw [hfree]
  rfl

theorem newPage_evict_spec (s : BPM) (fid : Nat) (rep : LRUKReplacer)
    (havail : s.pages.any (fun p => p.pin_count == 0))
    (hfree : s.free_list = [])
    (hevict : evict s.replacer = (some fid, rep))
    (hlen : fid < s.pages.length) :
    newPage s =
      some (some (s.next_page_id, fid),
       { s with
          next_page_id := s.next_page_id + 1,
          disk := if (pageAt s fid).is_dirty then
              diskWrite s.disk ((pageAt s fid).page_id.getD 0) (pageAt s fid).data
            else s.disk,
          page_table := tableInsert idHash
            (tableRemove idHash s.page_table ((pageAt s fid).page_id.getD 0)).2
            s.next_page_id fid,
          pages := s.pages.set fid
            { pageAt s fid with
                page_id := some s.next_page_id
                pin_count := 1
                is_dirty := false
                data := 0 },
          replacer := setEvictable (recordAccess rep fid) fid false }) := by
  have hid : ∀ (pt : HashTable Nat Nat) (rp : LRUKReplacer) (fl : List Nat) (np : Nat)
      (dk : Nat → Nat),
      pageAt { pool_size := s.pool_size, pages := s.pages, page_table := pt,
               replacer := rp, free_list := fl, next_page_id := np, disk := dk } fid
        = pageAt s fid :=
    fun _ _ _ _ _ => rfl
  have hset : ∀ (pt : HashTable Nat Nat) (rp : LRUKReplacer) (fl : List Nat) (np : Nat)
      (dk : Nat → Nat) (P : Page),
      pageAt { pool_size := s.pool_size, pages := s.pages.set fid P, page_table := pt,
               replacer := rp, free_list := fl, next_page_id := np, disk := dk } fid = P :=
    fun _ _ _ _ _ P => getD_set_self _ _ _ _ hlen
  unfold newPage
  rw [if_neg (not_not_intro havail)]
  dsimp only
  rw [hfree]
  dsimp only
  rw [hevict]
  dsimp only
  simp only [hid]
  by_cases hd : (pageAt s fid).is_dirty = true
  · rw [if_pos hd]
    dsimp only
    simp only [hset, List.set_set, if_pos hd]
  · rw [if_neg hd]
    have hd' : (pageAt s fid).is_dirty = false := by
      simpa using hd
    dsimp only
    simp only [hid, hset, List.set_set, if_neg hd, hd', Bool.false_eq_true, if_false]

theorem fetchPage_missfree_spec (s : BPM) (pid fid : Nat) (rest : List Nat)
    (hmiss : (tableFind idHash s.page_table pid).1 = none)
    (havail : s.pages.any (fun p => p.pin_count == 0))
    (hfree : s.free_list = fid :: rest)
    (hlen : fid < s.pages.length) :
    fetchPage s pid =
      some (some fid,
       { s with
          free_list := rest,
          page_table := tableInsert idHash s.page_table pid fid,
          pages := s.pages.set fid
            { pageAt s fid with
                page_id := some pid
                pin_count := 1
                data := s.disk pid },
          replacer := setEvictable (recordAccess s.replacer fid) fid false }) := by
  have hid : ∀ (pt : HashTable Nat Nat) (rp : LRUKReplacer) (fl : List Nat) (np : Nat)
      (dk : Nat → Nat),
      pageAt { pool_size := s.pool_size, pages := s.pages, page_table := pt,
               replacer := rp, free_list := fl, next_page_id := np, disk := dk } fid
        = pageAt s fid :=
    fun _ _ _ _ _ => rfl
  have hset : ∀ (pt : HashTable Nat Nat) (rp : LRUKReplacer) (fl : List Nat) (np : Nat)
      (dk : Nat → Nat) (P : Page),
      pageAt { pool_size := s.pool_size, pages := s.pages.set fid P, page_table := pt,
               replacer := rp, free_list := fl, next_page_id := np, disk := dk } fid = P :=
    fun _ _ _ _ _ P => getD_set_self _ _ _ _ hlen
  unfold fetchPage
  rw [hmiss]
  dsimp only
  rw [if_neg (not_not_intro havail)]
  try dsimp only
  rw [hfree]
  dsimp only
  simp only [hid, hset, List.set_set]

theorem fetchPage_missevict_spec (s : BPM) (pid fid : Nat) (rep : LRUKReplacer)
    (hmiss : (tableFind idHash s.page_table pid).1 = none)
    (havail : s.pages.any (fun p => p.pin_count == 0))
    (hfree : s.free_list = [])
    (hevict : evict s.replacer = (some fid, rep))
    (hlen : fid < s.pages.length) :
    fetchPage s pid =
      some (some fid,
       { s with
          disk := if (pageAt s fid).is_dirty then
              diskWrite s.disk ((pageAt s fid).page_id.getD 0) (pageAt s fid).data
            else s.disk,
          page_table := tableInsert idHash
            (tableRemove idHash s.page_table ((pageAt s fid).page_id.getD 0)).2 pid fid,
          pages := s.pages.set fid
            { pageAt s fid with
                page_id := some pid
                pin_count := 1
                is_dirty := false
                data := (if (pageAt s fid).is_dirty then
                    diskWrite s.disk ((pageAt s fid).page_id.getD 0) (pageAt s fid).data
                  else s.disk) pid },
          replacer := setEvictable (recordAccess rep fid) fid false }) := by
  have hid : ∀ (pt : HashTable Nat Nat) (rp : LRUKReplacer) (fl : List Nat) (np : Nat)
      (dk : Nat → Nat),
      pageAt { pool_size := s.pool_size, pages := s.pages, page_table := pt,
               replacer := rp, free_list := fl, next_page_id := np, disk := dk } fid
        = pageAt s fid :=
    fun _ _ _ _ _ => rfl
  have hset : ∀ (pt : HashTable Nat Nat) (rp : LRUKReplacer) (fl : List Nat) (np : Nat)
      (dk : Nat → Nat) (P : Page),
      pageAt { pool_size := s.pool_size, pages := s.pages.set fid P, page_table := pt,
               replacer := rp, free_list := fl, next_page_id := np, disk := dk } fid = P :=
    fun _ _ _ _ _ P => getD_set_self _ _ _ _ hlen
  unfold fetchPage
  rw [hmiss]
  dsimp only
  rw [if_neg (not_not_intro havail)]
  try dsimp only
  rw [hfree]
  dsimp only
  rw [hevict]
  dsimp only
  simp only [hid]
  by_cases hd : (pageAt s fid).is_dirty = true
  · rw [if_pos hd]
    dsimp only
    simp only [hset, List.set_set, if_pos hd]
  · rw [if_neg hd]
    have hd' : (pageAt s fid).is_dirty = false := by
      simpa using hd
    dsimp only
    simp only [hid, hset, List.set_set, if_neg hd, hd', Bool.false_eq_true, if_false]

/-! ### The buffer-pool invariant and its preservation (C1) -/

/-- The state invariant of the buffer pool.  `view_fwd` is the page-table
view (a mapped page id names a frame that indeed holds it), `pin_evict`
the claimed pin-count/evictability correspondence for resident frames,
and the remaining fields the bookkeeping facts needed to push it through
each operation. -/
structure Inv (s : BPM) : Prop where
  pages_len : s.pages.length = s.pool_size
  rep_size : s.replacer.replacer_size = s.pool_size
  table_wf : WF idHash s.page_table
  table_cap : 2 ≤ s.page_table.bucket_size
  view_fwd : ∀ pid fid, (tableFind idHash s.page_table pid).1 = some fid →
    fid < s.pool_size ∧ (pageAt s fid).page_id = some pid
  pin_evict : ∀ fid, fid < s.pool_size → ((pageAt s fid).page_id).isSome →
    s.replacer.is_evictable_map fid = some (decide ((pageAt s fid).pin_count = 0))
  free_char : ∀ fid, fid ∈ s.free_list → (pageAt s fid).page_id = none
  free_lt : ∀ fid, fid ∈ s.free_list → fid < s.pool_size
  free_nodup : s.free_list.Nodup
  lists_lt : ∀ fid, fid ∈ s.replacer.lru_list ∨ fid ∈ s.replacer.lru_k_list →
    fid < s.pool_size

theorem getD_replicate_page (n i : Nat) :
    (List.replicate n (⟨none, 0, false, 0⟩ : Page)).getD i ⟨none, 0, false, 0⟩ =
      (⟨none, 0, false, 0⟩ : Page) := by
  rcases Nat.lt_or_ge i n with h | h
  · rw [List.getD_eq_getElem _ _ (by simpa using h), List.getElem_replicate]
  · rw [List.getD_eq_default]
    simpa using h

theorem tableFind_init (pid : Nat) (bucket_size : Nat) :
    (tableFind idHash (HashTable.init Nat Nat bucket_size) pid).1 = none := rfl

theorem Inv_init (pool_size bucket_size replacer_k : Nat) (disk : Nat → Nat)
    (hbs : 2 ≤ bucket_size) :
    Inv (BPM.init pool_size bucket_size replacer_k disk) := by
  refine ⟨by simp [BPM.init], rfl, WF.init idHash bucket_size, hbs, ?_, ?_, ?_, ?_, ?_, ?_⟩
  · intro pid fid h
    have h' : (tableFind idHash (HashTable.init Nat Nat bucket_size) pid).1 = some fid := h
    rw [tableFind_init] at h'
    exact Option.noConfusion h'
  · intro fid _ hsome
    have : (pageAt (BPM.init pool_size bucket_size replacer_k disk) fid).page_id = none := by
      show ((List.replicate pool_size (⟨none, 0, false, 0⟩ : Page)).getD fid
          ⟨none, 0, false, 0⟩).page_id = none
      rw [getD_replicate_page]
    rw [this] at hsome
    exact absurd hsome (by simp)
  · intro fid _
    show ((List.replicate pool_size (⟨none, 0, false, 0⟩ : Page)).getD fid
        ⟨none, 0, false, 0⟩).page_id = none
    rw [getD_replicate_page]
  · intro fid hfid
    exact List.mem_range.mp hfid
  · exact List.nodup_range _
  · intro fid hfid
    rcases hfid with h | h <;> exact absurd h (List.not_mem_nil fid)

theorem pageAt_set_lemma (l : List Page) (fid g : Nat) (P : Page) (hlen : fid < l.length) :
    (l.set fid P).getD g ⟨none, 0, false, 0⟩ =
      if g = fid then P else l.getD g ⟨none, 0, false, 0⟩ := by
  by_cases hg : g = fid
  · subst hg
    rw [if_pos rfl]
    exact getD_set_self _ _ _ _ hlen
  · rw [if_neg hg]
    exact getD_set_other _ _ _ hg

theorem flushPage_Inv {s : BPM} (inv : Inv s) (pid : Nat) :
    Inv (flushPage s pid).2 := by
  rcases hf : (tableFind idHash s.page_table pid).1 with _ | fid
  · unfold flushPage
    rw [hf]
    exact inv
  · have hlt := (inv.view_fwd pid fid hf).1
    have hlen : fid < s.pages.length := by rw [inv.pages_len]; exact hlt
    rw [flushPage_spec s pid fid hf]
    have hAt : ∀ g, pageAt { s with
        disk := diskWrite s.disk pid (pageAt s fid).data,
        pages := s.pages.set fid { pageAt s fid with is_dirty := false } } g =
        if g = fid then { pageAt s fid with is_dirty := false } else pageAt s g :=
      fun g => pageAt_set_lemma s.pages fid g _ hlen
    refine ⟨by simpa using inv.pages_len, inv.rep_size, inv.table_wf, inv.table_cap,
      ?_, ?_, ?_, inv.free_lt, inv.free_nodup, inv.lists_lt⟩
    · intro pid' fid' h
      obtain ⟨hlt', hpg⟩ := inv.view_fwd pid' fid' h
      refine ⟨hlt', ?_⟩
      rw [hAt]
      by_cases hg : fid' = fid
      · rw [if_pos hg]
        subst hg
        exact hpg
      · rw [if_neg hg]
        exact hpg
    · intro g hg hsome
      rw [hAt] at hsome ⊢
      by_cases hgf : g = fid
      · rw [if_pos hgf] at hsome ⊢
        subst hgf
        exact inv.pin_evict g hg (by simpa using hsome)
      · rw [if_neg hgf] at hsome ⊢
        exact inv.pin_evict g hg hsome
    · intro g hg
      rw [hAt]
      by_cases hgf : g = fid
      · subst hgf
        have := inv.free_char g hg
        rw [(inv.view_fwd pid g hf).2] at this
        exact Option.noConfusion this
      · rw [if_neg hgf]
        exact inv.free_char g hg

theorem unpinPage_Inv {s : BPM} (inv : Inv s) (pid : Nat) (d : Bool) :
    Inv (unpinPage s pid d).2 := by
  rcases hf : (tableFind idHash s.page_table pid).1 with _ | fid
  · unfold unpinPage
    rw [hf]
    exact inv
  · have hlt := (inv.view_fwd pid fid hf).1
    have hres := (inv.view_fwd pid fid hf).2
    have hlen : fid < s.pages.length := by rw [inv.pages_len]; exact hlt
    by_cases hpin : (pageAt s fid).pin_count = 0
    · unfold unpinPage
      rw [hf]
      dsimp only
      rw [if_pos hpin]
      exact inv
    · rw [unpinPage_spec s pid d fid hf hlen hpin]
      have hAt : ∀ g, pageAt { s with
          pages := s.pages.set fid
            { pageAt s fid with
                is_dirty := (pageAt s fid).is_dirty || d,
                pin_count := (pageAt s fid).pin_count - 1 },
          replacer := if (pageAt s fid).pin_count - 1 = 0
            then setEvictable s.replacer fid true else s.replacer } g =
          if g = fid then
            { pageAt s fid with
                is_dirty := (pageAt s fid).is_dirty || d,
                pin_count := (pageAt s fid).pin_count - 1 }
          else pageAt s g :=
        fun g => pageAt_set_lemma s.pages fid g _ hlen
      have hRsize : (if (pageAt s fid).pin_count - 1 = 0
          then setEvictable s.replacer fid true else s.replacer).replacer_size =
          s.replacer.replacer_size := by
        split
        · exact setEvictable_size s.replacer fid true
        · rfl
      have hRlists : (if (pageAt s fid).pin_count - 1 = 0
          then setEvictable s.replacer fid true else s.replacer).lru_list =
            s.replacer.lru_list ∧
          (if (pageAt s fid).pin_count - 1 = 0
          then setEvictable s.replacer fid true else s.replacer).lru_k_list =
            s.replacer.lru_k_list := by
        split
        · exact setEvictable_lists s.replacer fid true
        · exact ⟨rfl, rfl⟩
      refine ⟨by simpa using inv.pages_len, by rw [hRsize]; exact inv.rep_size,
        inv.table_wf, inv.table_cap, ?_, ?_, ?_, inv.free_lt, inv.free_nodup, ?_⟩
      · intro pid' fid' h
        obtain ⟨hlt', hpg⟩ := inv.view_fwd pid' fid' h
        refine ⟨hlt', ?_⟩
        rw [hAt]
        by_cases hg : fid' = fid
        · rw [if_pos hg]
          subst hg
          exact hpg
        · rw [if_neg hg]
          exact hpg
      · intro g hg hsome
        rw [hAt] at hsome ⊢
        by_cases hgf : g = fid
        · subst hgf
          rw [if_pos rfl] at hsome ⊢
          show (if (pageAt s g).pin_count - 1 = 0
              then setEvictable s.replacer g true else s.replacer).is_evictable_map g = _
          by_cases hz : (pageAt s g).pin_count - 1 = 0
          · rw [if_pos hz]
            rw [setEvictable_evm_self s.replacer g true (by rw [inv.rep_size]; omega)]
            simp [hz]
          · rw [if_neg hz]
            rw [inv.pin_evict g hg (by simpa using hsome)]
            simp [hpin, hz]
        · rw [if_neg hgf] at hsome ⊢
          show (if (pageAt s fid).pin_count - 1 = 0
              then setEvictable s.replacer fid true else s.replacer).is_evictable_map g = _
          have hold := inv.pin_evict g hg hsome
          split
          · rw [setEvictable_evm_other s.replacer fid true hgf]
            exact hold
          · exact hold
      · intro g hg
        rw [hAt]
        by_cases hgf : g = fid
        · subst hgf
          have := inv.free_char g hg
          rw [hres] at this
          exact Option.noConfusion this
        · rw [if_neg hgf]
          exact inv.free_char g hg
      · intro g hg
        rw [hRlists.1, hRlists.2] at hg
        exact inv.lists_lt g hg

theorem deletePage_Inv {s : BPM} (inv : Inv s) (pid : Nat) :
    Inv (deletePage s pid).2 := by
  rcases hf : (tableFind idHash s.page_table pid).1 with _ | fid
  · unfold deletePage
    rw [hf]
    exact inv
  · have hlt := (inv.view_fwd pid fid hf).1
    have hres := (inv.view_fwd pid fid hf).2
    have hlen : fid < s.pages.length := by rw [inv.pages_len]; exact hlt
    by_cases hpin : (pageAt s fid).pin_count = 0
    · rw [deletePage_spec s pid fid hf hlen hpin]
      have hAt : ∀ g, pageAt { s with
          disk := if (pageAt s fid).is_dirty then
              diskWrite s.disk pid (pageAt s fid).data
            else s.disk,
          pages := s.pages.set fid ⟨none, 0, false, 0⟩,
          free_list := s.free_list ++ [fid],
          page_table := (tableRemove idHash s.page_table pid).2,
          replacer := removeR s.replacer fid } g =
          if g = fid then (⟨none, 0, false, 0⟩ : Page) else pageAt s g :=
        fun g => pageAt_set_lemma s.pages fid g _ hlen
      have hfreefid : fid ∉ s.free_list := by
        intro hmem
        have := inv.free_char fid hmem
        rw [hres] at this
        exact Option.noConfusion this
      refine ⟨by simpa using inv.pages_len,
        by rw [removeR_size]; exact inv.rep_size,
        tableRemove_WF inv.table_wf pid,
        by rw [tableRemove_bucket_size]; exact inv.table_cap,
        ?_, ?_, ?_, ?_, ?_, ?_⟩
      · intro pid' fid' h
        rw [tableFind_tableRemove inv.table_wf pid pid'] at h
        by_cases hp : pid' = pid
        · rw [if_pos hp] at h
          exact Option.noConfusion h
        · rw [if_neg hp] at h
          obtain ⟨hlt', hpg⟩ := inv.view_fwd pid' fid' h
          refine ⟨hlt', ?_⟩
          rw [hAt]
          by_cases hg : fid' = fid
          · subst hg
            rw [hres] at hpg
            exact absurd (Option.some_inj.mp hpg).symm hp
          · rw [if_neg hg]
            exact hpg
      · intro g hg hsome
        rw [hAt] at hsome ⊢
        by_cases hgf : g = fid
        · rw [if_pos hgf] at hsome
          exact absurd hsome (by simp)
        · rw [if_neg hgf] at hsome ⊢
          have hold := inv.pin_evict g hg hsome
          rw [removeR_evm s.replacer fid g (by rw [hold]; rfl)]
          exact hold
      · intro g hg
        rw [hAt]
        rcases List.mem_append.mp hg with hg' | hg'
        · by_cases hgf : g = fid
          · subst hgf
            exact absurd hg' hfreefid
          · rw [if_neg hgf]
            exact inv.free_char g hg'
        · have hgf : g = fid := by simpa using hg'
          rw [if_pos hgf]
      · intro g hg
        rcases List.mem_append.mp hg with hg' | hg'
        · exact inv.free_lt g hg'
        · have hgf : g = fid := by simpa using hg'
          rw [hgf]
          exact hlt
      · refine List.Nodup.append inv.free_nodup (List.nodup_singleton fid) ?_
        intro a ha hb
        have : a = fid := by simpa using hb
        subst this
        exact hfreefid ha
      · intro g hg
        exact inv.lists_lt g (removeR_mem_lists s.replacer fid g hg)
    · unfold deletePage
      rw [hf]
      dsimp only
      rw [if_pos (by omega)]
      exact inv

theorem fetchPage_ub_spec (s : BPM) (pid : Nat) (rep : LRUKReplacer)
    (hmiss : (tableFind idHash s.page_table pid).1 = none)
    (havail : s.pages.any (fun p => p.pin_count == 0))
    (hfree : s.free_list = [])
    (hevict : evict s.replacer = (none, rep)) :
    fetchPage s pid = none := by
  unfold fetchPage
  rw [hmiss]
  dsimp only
  rw [if_neg (not_not_intro havail)]
  try dsimp only
  rw [hfree]
  dsimp only
  rw [hevict]

theorem newPage_ub_spec (s : BPM) (rep : LRUKReplacer)
    (havail : s.pages.any (fun p => p.pin_count == 0))
    (hfree : s.free_list = [])
    (hevict : evict s.replacer = (none, rep)) :
    newPage s = none := by
  unfold newPage
  rw [if_neg (not_not_intro havail)]
  dsimp only
  rw [hfree]
  dsimp only
  rw [hevict]

theorem idHash_inj : Function.Injective idHash := fun _ _ hab => hab

theorem fetchPage_Inv {s : BPM} (inv : Inv s) (pid : Nat) {r : Option Nat} {s' : BPM}
    (h : fetchPage s pid = some (r, s')) : Inv s' := by
  rcases hf : (tableFind idHash s.page_table pid).1 with _ | fid
  · -- the page is not resident
    by_cases hav : s.pages.any (fun p => p.pin_count == 0)
    · rcases hfl : s.free_list with _ | ⟨fid, rest⟩
      · -- no free frames: the replacer chooses the victim
        rcases hev : evict s.replacer with ⟨ofid, rep⟩
        rcases ofid with _ | fid
        · rw [fetchPage_ub_spec s pid rep hf hav hfl hev] at h
          exact Option.noConfusion h
        · obtain ⟨hrepsize, hmem, hevm, hlists⟩ := evict_some_spec s.replacer fid rep hev
          have hfid_lt : fid < s.pool_size := inv.lists_lt fid hmem
          have hlen : fid < s.pages.length := by rw [inv.pages_len]; exact hfid_lt
          rw [fetchPage_missevict_spec s pid fid rep hf hav hfl hev hlen] at h
          obtain ⟨hr', hs'⟩ := Prod.mk.inj (Option.some_inj.mp h)
          rw [← hs']
          have hremwf := tableRemove_WF inv.table_wf ((pageAt s fid).page_id.getD 0)
          have hrembs : 2 ≤ (tableRemove idHash s.page_table
              ((pageAt s fid).page_id.getD 0)).2.bucket_size := by
            rw [tableRemove_bucket_size]
            exact inv.table_cap
          have hAt : ∀ g, pageAt { s with
              disk := if (pageAt s fid).is_dirty then
                  diskWrite s.disk ((pageAt s fid).page_id.getD 0) (pageAt s fid).data
                else s.disk,
              page_table := tableInsert idHash
                (tableRemove idHash s.page_table ((pageAt s fid).page_id.getD 0)).2 pid fid,
              pages := s.pages.set fid
                { pageAt s fid with
                    page_id := some pid
                    pin_count := 1
                    is_dirty := false
                    data := (if (pageAt s fid).is_dirty then
                        diskWrite s.disk ((pageAt s fid).page_id.getD 0) (pageAt s fid).data
                      else s.disk) pid },
              replacer := setEvictable (recordAccess rep fid) fid false } g =
              if g = fid then
                { pageAt s fid with
                    page_id := some pid
                    pin_count := 1
                    is_dirty := false
                    data := (if (pageAt s fid).is_dirty then
                        diskWrite s.disk ((pageAt s fid).page_id.getD 0) (pageAt s fid).data
                      else s.disk) pid }
              else pageAt s g :=
            fun g => pageAt_set_lemma s.pages fid g _ hlen
          refine ⟨by simpa using inv.pages_len,
            by rw [setEvictable_size, recordAccess_size, hrepsize]; exact inv.rep_size,
            tableInsert_WF hremwf pid fid,
            by rw [tableInsert_bucket_size hremwf pid fid, tableRemove_bucket_size]
               exact inv.table_cap,
            ?_, ?_, ?_, ?_, ?_, ?_⟩
          · intro pid' fid' h'
            rw [tableFind_tableInsert hremwf pid fid idHash_inj hrembs pid'] at h'
            by_cases hp : pid' = pid
            · rw [if_pos hp] at h'
              obtain rfl : fid = fid' := Option.some_inj.mp h'
              refine ⟨hfid_lt, ?_⟩
              rw [hAt, if_pos rfl, hp]
            · rw [if_neg hp,
                tableFind_tableRemove inv.table_wf ((pageAt s fid).page_id.getD 0) pid']
                at h'
              by_cases hpe : pid' = (pageAt s fid).page_id.getD 0
              · rw [if_pos hpe] at h'
                exact Option.noConfusion h'
              · rw [if_neg hpe] at h'
                obtain ⟨hlt', hpg⟩ := inv.view_fwd pid' fid' h'
                refine ⟨hlt', ?_⟩
                rw [hAt]
                by_cases hg : fid' = fid
                · subst hg
                  rw [hpg] at hpe
                  simp at hpe
                · rw [if_neg hg]
                  exact hpg
          · intro g hg hsome
            rw [hAt] at hsome ⊢
            by_cases hgf : g = fid
            · rw [if_pos hgf] at hsome ⊢
              subst hgf
              rw [setEvictable_evm_self (recordAccess rep g) g false
                (by rw [recordAccess_size, hrepsize, inv.rep_size]; omega)]
              simp
            · rw [if_neg hgf] at hsome ⊢
              have hold := inv.pin_evict g hg hsome
              rw [setEvictable_evm_other (recordAccess rep fid) fid false hgf,
                recordAccess_evm, hevm g hgf (by rw [hold]; rfl)]
              exact hold
          · intro g hg
            have hg' : g ∈ s.free_list := hg
            rw [hfl] at hg'
            exact absurd hg' (List.not_mem_nil g)
          · intro g hg
            have hg' : g ∈ s.free_list := hg
            rw [hfl] at hg'
            exact absurd hg' (List.not_mem_nil g)
          · exact inv.free_nodup
          · intro g hg
            rw [setEvictable_lists (recordAccess rep fid) fid false |>.1,
              setEvictable_lists (recordAccess rep fid) fid false |>.2] at hg
            rcases recordAccess_mem_lists rep fid (List.mem_append.mpr hg) with hg' | hg'
            · rw [hg']
              exact hfid_lt
            · exact inv.lists_lt g (hlists g (List.mem_append.mp hg'))
      · -- take the head of the free list
        have hfid_mem : fid ∈ s.free_list := by rw [hfl]; exact List.mem_cons_self fid rest
        have hfid_lt : fid < s.pool_size := inv.free_lt fid hfid_mem
        have hlen : fid < s.pages.length := by rw [inv.pages_len]; exact hfid_lt
        rw [fetchPage_missfree_spec s pid fid rest hf hav hfl hlen] at h
        obtain ⟨hr', hs'⟩ := Prod.mk.inj (Option.some_inj.mp h)
        rw [← hs']
        have hAt : ∀ g, pageAt { s with
            free_list := rest,
            page_table := tableInsert idHash s.page_table pid fid,
            pages := s.pages.set fid
              { pageAt s fid with
                  page_id := some pid
                  pin_count := 1
                  data := s.disk pid },
            replacer := setEvictable (recordAccess s.replacer fid) fid false } g =
            if g = fid then
              { pageAt s fid with
                  page_id := some pid
                  pin_count := 1
                  data := s.disk pid }
            else pageAt s g :=
          fun g => pageAt_set_lemma s.pages fid g _ hlen
        have hnodup : s.free_list.Nodup := inv.free_nodup
        rw [hfl] at hnodup
        refine ⟨by simpa using inv.pages_len,
          by rw [setEvictable_size, recordAccess_size]; exact inv.rep_size,
          tableInsert_WF inv.table_wf pid fid,
          by rw [tableInsert_bucket_size inv.table_wf pid fid]; exact inv.table_cap,
          ?_, ?_, ?_, ?_, (List.nodup_cons.mp hnodup).2, ?_⟩
        · intro pid' fid' h'
          rw [tableFind_tableInsert inv.table_wf pid fid idHash_inj inv.table_cap pid']
            at h'
          by_cases hp : pid' = pid
          · rw [if_pos hp] at h'
            obtain rfl : fid = fid' := Option.some_inj.mp h'
            refine ⟨hfid_lt, ?_⟩
            rw [hAt, if_pos rfl, hp]
          · rw [if_neg hp] at h'
            obtain ⟨hlt', hpg⟩ := inv.view_fwd pid' fid' h'
            refine ⟨hlt', ?_⟩
            rw [hAt]
            by_cases hg : fid' = fid
            · subst hg
              rw [inv.free_char fid' hfid_mem] at hpg
              exact Option.noConfusion hpg
            · rw [if_neg hg]
              exact hpg
        · intro g hg hsome
          rw [hAt] at hsome ⊢
          by_cases hgf : g = fid
          · rw [if_pos hgf] at hsome ⊢
            subst hgf
            rw [setEvictable_evm_self (recordAccess s.replacer g) g false
              (by rw [recordAccess_size, inv.rep_size]; omega)]
            simp
          · rw [if_neg hgf] at hsome ⊢
            have hold := inv.pin_evict g hg hsome
            rw [setEvictable_evm_other (recordAccess s.replacer fid) fid false hgf,
              recordAccess_evm]
            exact hold
        · intro g hg
          have hgrest : g ∈ rest := hg
          have hgf : g ≠ fid := by
            intro hc
            subst hc
            exact (List.nodup_cons.mp hnodup).1 hgrest
          rw [hAt, if_neg hgf]
          exact inv.free_char g (by rw [hfl]; exact List.mem_cons_of_mem fid hgrest)
        · intro g hg
          exact inv.free_lt g (by rw [hfl]; exact List.mem_cons_of_mem fid hg)
        · intro g hg
          rw [setEvictable_lists (recordAccess s.replacer fid) fid false |>.1,
            setEvictable_lists (recordAccess s.replacer fid) fid false |>.2] at hg
          rcases recordAccess_mem_lists s.replacer fid (List.mem_append.mpr hg)
            with hg' | hg'
          · rw [hg']
            exact hfid_lt
          · exact inv.lists_lt g (List.mem_append.mp hg')
    · -- all frames pinned: null return, state unchanged
      unfold fetchPage at h
      rw [hf] at h
      dsimp only at h
      rw [if_pos hav] at h
      obtain ⟨hr', hs'⟩ := Prod.mk.inj (Option.some_inj.mp h)
      rw [← hs']
      exact inv
  · -- resident: pin-count bump only
    have hlt := (inv.view_fwd pid fid hf).1
    have hres := (inv.view_fwd pid fid hf).2
    have hlen : fid < s.pages.length := by rw [inv.pages_len]; exact hlt
    rw [fetchPage_hit_spec s pid fid hf] at h
    obtain ⟨hr', hs'⟩ := Prod.mk.inj (Option.some_inj.mp h)
    rw [← hs']
    have hAt : ∀ g, pageAt { s with
        pages := s.pages.set fid
          { pageAt s fid with pin_count := (pageAt s fid).pin_count + 1 },
        replacer := setEvictable (recordAccess s.replacer fid) fid false } g =
        if g = fid then
          { pageAt s fid with pin_count := (pageAt s fid).pin_count + 1 }
        else pageAt s g :=
      fun g => pageAt_set_lemma s.pages fid g _ hlen
    refine ⟨by simpa using inv.pages_len,
      by rw [setEvictable_size, recordAccess_size]; exact inv.rep_size,
      inv.table_wf, inv.table_cap, ?_, ?_, ?_, inv.free_lt, inv.free_nodup, ?_⟩
    · intro pid' fid' h'
      obtain ⟨hlt', hpg⟩ := inv.view_fwd pid' fid' h'
      refine ⟨hlt', ?_⟩
      rw [hAt]
      by_cases hg : fid' = fid
      · rw [if_pos hg]
        subst hg
        exact hpg
      · rw [if_neg hg]
        exact hpg
    · intro g hg hsome
      rw [hAt] at hsome ⊢
      by_cases hgf : g = fid
      · rw [if_pos hgf] at hsome ⊢
        subst hgf
        rw [setEvictable_evm_self (recordAccess s.replacer g) g false
          (by rw [recordAccess_size, inv.rep_size]; omega)]
        simp
      · rw [if_neg hgf] at hsome ⊢
        have hold := inv.pin_evict g hg hsome
        rw [setEvictable_evm_other (recordAccess s.replacer fid) fid false hgf,
          recordAccess_evm]
        exact hold
    · intro g hg
      rw [hAt]
      by_cases hgf : g = fid
      · subst hgf
        have := inv.free_char g hg
        rw [hres] at this
        exact Option.noConfusion this
      · rw [if_neg hgf]
        exact inv.free_char g hg
    · intro g hg
      rw [setEvictable_lists (recordAccess s.replacer fid) fid false |>.1,
        setEvictable_lists (recordAccess s.replacer fid) fid false |>.2] at hg
      rcases recordAccess_mem_lists s.replacer fid (List.mem_append.mpr hg)
        with hg' | hg'
      · rw [hg']
        exact hlt
      · exact inv.lists_lt g (List.mem_append.mp hg')

theorem newPage_Inv {s : BPM} (inv : Inv s) {r : Option (Nat × Nat)} {s' : BPM}
    (h : newPage s = some (r, s')) : Inv s' := by
  by_cases hav : s.pages.any (fun p => p.pin_count == 0)
  · rcases hfl : s.free_list with _ | ⟨fid, rest⟩
    · -- no free frames: the replacer chooses the victim
      rcases hev : evict s.replacer with ⟨ofid, rep⟩
      rcases ofid with _ | fid
      · rw [newPage_ub_spec s rep hav hfl hev] at h
        exact Option.noConfusion h
      · obtain ⟨hrepsize, hmem, hevm, hlists⟩ := evict_some_spec s.replacer fid rep hev
        have hfid_lt : fid < s.pool_size := inv.lists_lt fid hmem
        have hlen : fid < s.pages.length := by rw [inv.pages_len]; exact hfid_lt
        rw [newPage_evict_spec s fid rep hav hfl hev hlen] at h
        obtain ⟨hr', hs'⟩ := Prod.mk.inj (Option.some_inj.mp h)
        rw [← hs']
        have hremwf := tableRemove_WF inv.table_wf ((pageAt s fid).page_id.getD 0)
        have hrembs : 2 ≤ (tableRemove idHash s.page_table
            ((pageAt s fid).page_id.getD 0)).2.bucket_size := by
          rw [tableRemove_bucket_size]
          exact inv.table_cap
        have hAt : ∀ g, pageAt { s with
            next_page_id := s.next_page_id + 1,
            disk := if (pageAt s fid).is_dirty then
                diskWrite s.disk ((pageAt s fid).page_id.getD 0) (pageAt s fid).data
              else s.disk,
            page_table := tableInsert idHash
              (tableRemove idHash s.page_table ((pageAt s fid).page_id.getD 0)).2
              s.next_page_id fid,
            pages := s.pages.set fid
              { pageAt s fid with
                  page_id := some s.next_page_id
                  pin_count := 1
                  is_dirty := false
                  data := 0 },
            replacer := setEvictable (recordAccess rep fid) fid false } g =
            if g = fid then
              { pageAt s fid with
                  page_id := some s.next_page_id
                  pin_count := 1
                  is_dirty := false
                  data := 0 }
            else pageAt s g :=
          fun g => pageAt_set_lemma s.pages fid g _ hlen
        refine ⟨by simpa using inv.pages_len,
          by rw [setEvictable_size, recordAccess_size, hrepsize]; exact inv.rep_size,
          tableInsert_WF hremwf s.next_page_id fid,
          by rw [tableInsert_bucket_size hremwf s.next_page_id fid,
               tableRemove_bucket_size]
             exact inv.table_cap,
          ?_, ?_, ?_, ?_, inv.free_nodup, ?_⟩
        · intro pid' fid' h'
          rw [tableFind_tableInsert hremwf s.next_page_id fid idHash_inj hrembs pid']
            at h'
          by_cases hp : pid' = s.next_page_id
          · rw [if_pos hp] at h'
            obtain rfl : fid = fid' := Option.some_inj.mp h'
            refine ⟨hfid_lt, ?_⟩
            rw [hAt, if_pos rfl, hp]
          · rw [if_neg hp,
              tableFind_tableRemove inv.table_wf ((pageAt s fid).page_id.getD 0) pid']
              at h'
            by_cases hpe : pid' = (pageAt s fid).page_id.getD 0
            · rw [if_pos hpe] at h'
              exact Option.noConfusion h'
            · rw [if_neg hpe] at h'
              obtain ⟨hlt', hpg⟩ := inv.view_fwd pid' fid' h'
              refine ⟨hlt', ?_⟩
              rw [hAt]
              by_cases hg : fid' = fid
              · subst hg
                rw [hpg] at hpe
                simp at hpe
              · rw [if_neg hg]
                exact hpg
        · intro g hg hsome
          rw [hAt] at hsome ⊢
          by_cases hgf : g = fid
          · rw [if_pos hgf] at hsome ⊢
            subst hgf
            rw [setEvictable_evm_self (recordAccess rep g) g false
              (by rw [recordAccess_size, hrepsize, inv.rep_size]; omega)]
            simp
          · rw [if_neg hgf] at hsome ⊢
            have hold := inv.pin_evict g hg hsome
            rw [setEvictable_evm_other (recordAccess rep fid) fid false hgf,
              recordAccess_evm, hevm g hgf (by rw [hold]; rfl)]
            exact hold
        · intro g hg
          have hg' : g ∈ s.free_list := hg
          rw [hfl] at hg'
          exact absurd hg' (List.not_mem_nil g)
        · intro g hg
          have hg' : g ∈ s.free_list := hg
          rw [hfl] at hg'
          exact absurd hg' (List.not_mem_nil g)
        · intro g hg
          rw [setEvictable_lists (recordAccess rep fid) fid false |>.1,
            setEvictable_lists (recordAccess rep fid) fid false |>.2] at hg
          rcases recordAccess_mem_lists rep fid (List.mem_append.mpr hg) with hg' | hg'
          · rw [hg']
            exact hfid_lt
          · exact inv.lists_lt g (hlists g (List.mem_append.mp hg'))
    · -- take the head of the free list
      have hfid_mem : fid ∈ s.free_list := by rw [hfl]; exact List.mem_cons_self fid rest
      have hfid_lt : fid < s.pool_size := inv.free_lt fid hfid_mem
      have hlen : fid < s.pages.length := by rw [inv.pages_len]; exact hfid_lt
      rw [newPage_free_spec s fid rest hav hfl] at h
      obtain ⟨hr', hs'⟩ := Prod.mk.inj (Option.some_inj.mp h)
      rw [← hs']
      have hAt : ∀ g, pageAt { s with
          next_page_id := s.next_page_id + 1,
          free_list := rest,
          page_table := tableInsert idHash s.page_table s.next_page_id fid,
          pages := s.pages.set fid
            { pageAt s fid with page_id := some s.next_page_id, pin_count := 1 },
          replacer := setEvictable (recordAccess s.replacer fid) fid false } g =
          if g = fid then
            { pageAt s fid with page_id := some s.next_page_id, pin_count := 1 }
          else pageAt s g :=
        fun g => pageAt_set_lemma s.pages fid g _ hlen
      have hnodup : s.free_list.Nodup := inv.free_nodup
      rw [hfl] at hnodup
      refine ⟨by simpa using inv.pages_len,
        by rw [setEvictable_size, recordAccess_size]; exact inv.rep_size,
        tableInsert_WF inv.table_wf s.next_page_id fid,
        by rw [tableInsert_bucket_size inv.table_wf s.next_page_id fid]
           exact inv.table_cap,
        ?_, ?_, ?_, ?_, (List.nodup_cons.mp hnodup).2, ?_⟩
      · intro pid' fid' h'
        rw [tableFind_tableInsert inv.table_wf s.next_page_id fid idHash_inj
          inv.table_cap pid'] at h'
        by_cases hp : pid' = s.next_page_id
        · rw [if_pos hp] at h'
          obtain rfl : fid = fid' := Option.some_inj.mp h'
          refine ⟨hfid_lt, ?_⟩
          rw [hAt, if_pos rfl, hp]
        · rw [if_neg hp] at h'
          obtain ⟨hlt', hpg⟩ := inv.view_fwd pid' fid' h'
          refine ⟨hlt', ?_⟩
          rw [hAt]
          by_cases hg : fid' = fid
          · subst hg
            rw [inv.free_char fid' hfid_mem] at hpg
            exact Option.noConfusion hpg
          · rw [if_neg hg]
            exact hpg
      · intro g hg hsome
        rw [hAt] at hsome ⊢
        by_cases hgf : g = fid
        · rw [if_pos hgf] at hsome ⊢
          subst hgf
          rw [setEvictable_evm_self (recordAccess s.replacer g) g false
            (by rw [recordAccess_size, inv.rep_size]; omega)]
          simp
        · rw [if_neg hgf] at hsome ⊢
          have hold := inv.pin_evict g hg hsome
          rw [setEvictable_evm_other (recordAccess s.replacer fid) fid false hgf,
            recordAccess_evm]
          exact hold
      · intro g hg
        have hgrest : g ∈ rest := hg
        have hgf : g ≠ fid := by
          intro hc
          subst hc
          exact (List.nodup_cons.mp hnodup).1 hgrest
        rw [hAt, if_neg hgf]
        exact inv.free_char g (by rw [hfl]; exact List.mem_cons_of_mem fid hgrest)
      · intro g hg
        exact inv.free_lt g (by rw [hfl]; exact List.mem_cons_of_mem fid hg)
      · intro g hg
        rw [setEvictable_lists (recordAccess s.replacer fid) fid false |>.1,
          setEvictable_lists (recordAccess s.replacer fid) fid false |>.2] at hg
        rcases recordAccess_mem_lists s.replacer fid (List.mem_append.mpr hg)
          with hg' | hg'
        · rw [hg']
          exact hfid_lt
        · exact inv.lists_lt g (List.mem_append.mp hg')
  · -- all frames pinned: null return, state unchanged
    rw [newPage_null_spec s hav] at h
    obtain ⟨hr', hs'⟩ := Prod.mk.inj (Option.some_inj.mp h)
    rw [← hs']
    exact inv

/-- The buffer-pool states reachable through the public interface from a
fresh pool (any pool size, page-table bucket capacity at least 2, any
replacer `k`, any disk image).  `newP`/`fetch` require the executed call
not to hit the undefined path (the uninitialized `frame_id` after a
failed `Evict`). -/
inductive ReachableB : BPM → Prop
  | init (pool_size bucket_size replacer_k : Nat) (disk : Nat → Nat)
      (hbs : 2 ≤ bucket_size) :
      ReachableB (BPM.init pool_size bucket_size replacer_k disk)
  | newP {s : BPM} {r : Option (Nat × Nat)} {s' : BPM} :
      ReachableB s → newPage s = some (r, s') → ReachableB s'
  | fetch {s : BPM} (pid : Nat) {r : Option Nat} {s' : BPM} :
      ReachableB s → fetchPage s pid = some (r, s') → ReachableB s'
  | unpin {s : BPM} (pid : Nat) (d : Bool) :
      ReachableB s → ReachableB (unpinPage s pid d).2
  | flush {s : BPM} (pid : Nat) :
      ReachableB s → ReachableB (flushPage s pid).2
  | del {s : BPM} (pid : Nat) :
      ReachableB s → ReachableB (deletePage s pid).2

theorem reachableB_Inv {s : BPM} (h : ReachableB s) : Inv s := by
  induction h with
  | init p b k d hbs => exact Inv_init p b k d hbs
  | newP _ hstep ih => exact newPage_Inv ih hstep
  | fetch pid _ hstep ih => exact fetchPage_Inv ih pid hstep
  | unpin pid d _ ih => exact unpinPage_Inv ih pid d
  | flush pid _ ih => exact flushPage_Inv ih pid
  | del pid _ ih => exact deletePage_Inv ih pid

/-- C1: in every reachable buffer-pool state, a frame holding a resident
page has `pin_count = 0` exactly when the replacer records it as
evictable; and each of the five public operations preserves the pool
invariant (of which that correspondence is the `pin_evict` field). -/
theorem claim_c1 :
    (∀ s : BPM, ReachableB s → ∀ fid, fid < s.pool_size →
      ((pageAt s fid).page_id).isSome →
      ((pageAt s fid).pin_count = 0 ↔
        s.replacer.is_evictable_map fid = some true)) ∧
    (∀ (s : BPM) (pid : Nat) (d : Bool), Inv s → Inv (unpinPage s pid d).2) ∧
    (∀ (s : BPM) (pid : Nat), Inv s → Inv (flushPage s pid).2) ∧
    (∀ (s : BPM) (pid : Nat), Inv s → Inv (deletePage s pid).2) ∧
    (∀ (s : BPM) (pid : Nat) (r : Option Nat) (s' : BPM), Inv s →
      fetchPage s pid = some (r, s') → Inv s') ∧
    (∀ (s : BPM) (r : Option (Nat × Nat)) (s' : BPM), Inv s →
      newPage s = some (r, s') → Inv s') := by
  refine ⟨?_, fun s pid d inv => unpinPage_Inv inv pid d,
    fun s pid inv => flushPage_Inv inv pid,
    fun s pid inv => deletePage_Inv inv pid,
    fun s pid r s' inv h => fetchPage_Inv inv pid h,
    fun s r s' inv h => newPage_Inv inv h⟩
  intro s hs fid hlt hsome
  have h := (reachableB_Inv hs).pin_evict fid hlt hsome
  constructor
  · intro hz
    rw [h, hz]
    simp
  · intro he
    rw [h] at he
    simpa using Option.some_inj.mp he

/-- A fresh two-frame pool. -/
def c1Base : BPM := BPM.init 2 4 2 (fun _ => 0)

/-- The state after one `NewPage` on `c1Base`. -/
def bpmDemo : BPM :=
  match newPage c1Base with
  | some (_, s) => s
  | none => c1Base

theorem claim_c1_witness :
    (pageAt bpmDemo 0).pin_count = 0 ↔
      bpmDemo.replacer.is_evictable_map 0 = some true :=
  claim_c1.1 bpmDemo
    (ReachableB.newP (ReachableB.init 2 4 2 (fun _ => 0) (by norm_num))
      (show newPage c1Base = some (some (0, 0), bpmDemo) from rfl))
    0 (by decide) (by decide)

/-! ### The fetch-then-unpin round trip (C5) -/

theorem w64_roundtrip (c : Nat) (h : c < 2 ^ 64) : w64 (w64dec c + 1) = c := by
  unfold w64 w64dec
  omega

theorem recordAccess_k (r : LRUKReplacer) (f : Nat) :
    (recordAccess r f).k = r.k := by
  unfold recordAccess
  split
  · rfl
  · dsimp only
    split
    · rfl
    · split
      · rfl
      · split
        · rfl
        · rfl

theorem mapSet_mapSet {γ : Type} (m : Nat → Option γ) (k : Nat) (a b : γ) :
    mapSet (mapSet m k a) k b = mapSet m k b := by
  funext g
  by_cases hg : g = k <;> simp [mapSet, hg]

theorem mapSet_self_of {γ : Type} {m : Nat → Option γ} {k : Nat} {b : γ}
    (h : m k = some b) : mapSet m k b = m := by
  funext g
  by_cases hg : g = k
  · subst hg
    simp [mapSet, h]
  · simp [mapSet, hg]

theorem setEvictable_noop (r : LRUKReplacer) (f : Nat) (b : Bool)
    (h : ¬ r.replacer_size < f) (he : r.is_evictable_map f = some b) :
    setEvictable r f b = r := by
  unfold setEvictable
  rw [if_neg h]
  rcases b with _ | _ <;> simp [he, mapSet]

theorem setEvictable_flip_up (r : LRUKReplacer) (f : Nat)
    (h : ¬ r.replacer_size < f) (he : r.is_evictable_map f = some false) :
    setEvictable r f true =
      { r with is_evictable_map := mapSet r.is_evictable_map f true,
               curr_size := w64 (r.curr_size + 1) } := by
  unfold setEvictable
  rw [if_neg h]
  simp [he, mapSet]

theorem setEvictable_flip_down (r : LRUKReplacer) (f : Nat)
    (h : ¬ r.replacer_size < f) (he : r.is_evictable_map f = some true) :
    setEvictable r f false =
      { r with is_evictable_map := mapSet r.is_evictable_map f false,
               curr_size := w64dec r.curr_size } := by
  unfold setEvictable
  rw [if_neg h]
  simp [he, mapSet]

theorem roundtrip_replacer (r : LRUKReplacer) (fid : Nat) (pin : Nat)
    (hsize : ¬ r.replacer_size < fid) (hcurr : r.curr_size < 2 ^ 64)
    (hevm : r.is_evictable_map fid = some (decide (pin = 0))) :
    (if pin + 1 - 1 = 0
      then setEvictable (setEvictable (recordAccess r fid) fid false) fid true
      else setEvictable (recordAccess r fid) fid false).is_evictable_map
        = r.is_evictable_map ∧
    (if pin + 1 - 1 = 0
      then setEvictable (setEvictable (recordAccess r fid) fid false) fid true
      else setEvictable (recordAccess r fid) fid false).curr_size = r.curr_size ∧
    (if pin + 1 - 1 = 0
      then setEvictable (setEvictable (recordAccess r fid) fid false) fid true
      else setEvictable (recordAccess r fid) fid false).replacer_size
        = r.replacer_size ∧
    (if pin + 1 - 1 = 0
      then setEvictable (setEvictable (recordAccess r fid) fid false) fid true
      else setEvictable (recordAccess r fid) fid false).k = r.k := by
  have hsz1 : ¬ (recordAccess r fid).replacer_size < fid := by
    rw [recordAccess_size]
    exact hsize
  by_cases hz : pin = 0
  · have hcond : pin + 1 - 1 = 0 := by omega
    rw [if_pos hcond]
    have hevm' : r.is_evictable_map fid = some true := by simpa [hz] using hevm
    rw [setEvictable_flip_down (recordAccess r fid) fid hsz1
      (by rw [recordAccess_evm]; exact hevm')]
    rw [setEvictable_flip_up _ fid (by dsimp only; rw [recordAccess_size]; exact hsize)
      (by dsimp only; simp [mapSet])]
    dsimp only
    refine ⟨?_, ?_, ?_, ?_⟩
    · rw [mapSet_mapSet, recordAccess_evm, mapSet_self_of hevm']
    · rw [recordAccess_curr]
      exact w64_roundtrip _ hcurr
    · exact recordAccess_size r fid
    · exact recordAccess_k r fid
  · have hcond : ¬ (pin + 1 - 1 = 0) := by omega
    rw [if_neg hcond]
    have hevm' : r.is_evictable_map fid = some false := by simpa [hz] using hevm
    rw [setEvictable_noop (recordAccess r fid) fid false hsz1
      (by rw [recordAccess_evm]; exact hevm')]
    exact ⟨recordAccess_evm r fid, recordAccess_curr r fid,
      recordAccess_size r fid, recordAccess_k r fid⟩

/-- C5 (amended): when the requested page is resident, `FetchPage(id)`
followed by `UnpinPage(id, false)` restores the frame array, page table,
free list, disk, allocation counter, pool size, and the replacer's
evictability view, size and capacity; only the replacer's access history
(count map and the two recency lists) may differ.  The unamended claim —
the same for *every* page id — is refuted by `claim_c5_counterexample`:
on a miss the round trip leaves the fetched page resident. -/
theorem claim_c5 (s : BPM) (pid fid : Nat)
    (hfind : (tableFind idHash s.page_table pid).1 = some fid)
    (hlen : fid < s.pages.length)
    (hsize : ¬ s.replacer.replacer_size < fid)
    (hcurr : s.replacer.curr_size < 2 ^ 64)
    (hevm : s.replacer.is_evictable_map fid =
      some (decide ((pageAt s fid).pin_count = 0))) :
    ∃ s1 s2, fetchPage s pid = some (some fid, s1) ∧
      unpinPage s1 pid false = (true, s2) ∧
      s2.pages = s.pages ∧ s2.page_table = s.page_table ∧
      s2.free_list = s.free_list ∧ s2.disk = s.disk ∧
      s2.next_page_id = s.next_page_id ∧ s2.pool_size = s.pool_size ∧
      s2.replacer.is_evictable_map = s.replacer.is_evictable_map ∧
      s2.replacer.curr_size = s.replacer.curr_size ∧
      s2.replacer.replacer_size = s.replacer.replacer_size ∧
      s2.replacer.k = s.replacer.k := by
  have hfetch := fetchPage_hit_spec s pid fid hfind
  have hP1 : pageAt { s with
      pages := s.pages.set fid
        { pageAt s fid with pin_count := (pageAt s fid).pin_count + 1 },
      replacer := setEvictable (recordAccess s.replacer fid) fid false } fid =
      { pageAt s fid with pin_count := (pageAt s fid).pin_count + 1 } :=
    getD_set_self _ _ _ _ hlen
  have hunpin := unpinPage_spec { s with
      pages := s.pages.set fid
        { pageAt s fid with pin_count := (pageAt s fid).pin_count + 1 },
      replacer := setEvictable (recordAccess s.replacer fid) fid false } pid false fid
    hfind (by simpa using hlen) (by rw [hP1]; exact Nat.succ_ne_zero _)
  refine ⟨_, _, hfetch, hunpin, ?_, rfl, rfl, rfl, rfl, rfl, ?_, ?_, ?_, ?_⟩
  · rw [hP1]
    simp only [Bool.or_false]
    rw [List.set_set]
    exact set_getD_self s.pages fid ⟨none, 0, false, 0⟩ hlen
  · rw [hP1]
    exact (roundtrip_replacer s.replacer fid (pageAt s fid).pin_count
      hsize hcurr hevm).1
  · rw [hP1]
    exact (roundtrip_replacer s.replacer fid (pageAt s fid).pin_count
      hsize hcurr hevm).2.1
  · rw [hP1]
    exact (roundtrip_replacer s.replacer fid (pageAt s fid).pin_count
      hsize hcurr hevm).2.2.1
  · rw [hP1]
    exact (roundtrip_replacer s.replacer fid (pageAt s fid).pin_count
      hsize hcurr hevm).2.2.2

theorem claim_c5_witness :
    ∃ s1 s2, fetchPage bpmDemo 0 = some (some 0, s1) ∧
      unpinPage s1 0 false = (true, s2) ∧
      s2.pages = bpmDemo.pages ∧ s2.page_table = bpmDemo.page_table ∧
      s2.free_list = bpmDemo.free_list ∧ s2.disk = bpmDemo.disk ∧
      s2.next_page_id = bpmDemo.next_page_id ∧ s2.pool_size = bpmDemo.pool_size ∧
      s2.replacer.is_evictable_map = bpmDemo.replacer.is_evictable_map ∧
      s2.replacer.curr_size = bpmDemo.replacer.curr_size ∧
      s2.replacer.replacer_size = bpmDemo.replacer.replacer_size ∧
      s2.replacer.k = bpmDemo.replacer.k :=
  claim_c5 bpmDemo 0 0 (by decide) (by decide) (by decide) (by decide) (by decide)

/-- A fresh one-frame pool whose disk holds 7 everywhere. -/
def c5Pre : BPM := BPM.init 1 4 2 (fun _ => 7)

/-- C5 counterexample: for a non-resident page id the fetch/unpin round
trip does not restore the state — page 5 ends up resident in frame 0 with
its bytes loaded from disk. -/
theorem claim_c5_counterexample :
    ∃ s1 s2, fetchPage c5Pre 5 = some (some 0, s1) ∧
      unpinPage s1 5 false = (true, s2) ∧
      (pageAt c5Pre 0).page_id = none ∧
      (pageAt s2 0).page_id = some 5 ∧
      (pageAt s2 0).data = 7 := by
  refine ⟨_, _, rfl, rfl, rfl, ?_, ?_⟩ <;> decide

/-- C4: `UnpinPage(id, d)` fails (returning `false`, leaving the state
unchanged) exactly on a non-resident id or a pin count already at 0;
otherwise it decrements the pin count, ORs `d` into the dirty flag (so
`d = false` never clears a set dirty bit), marks the frame evictable
exactly when the pin count reaches 0, and returns `true`. -/
theorem claim_c4 :
    (∀ (s : BPM) (pid : Nat) (d : Bool),
      (tableFind idHash s.page_table pid).1 = none →
      unpinPage s pid d = (false, s)) ∧
    (∀ (s : BPM) (pid : Nat) (d : Bool) (fid : Nat),
      (tableFind idHash s.page_table pid).1 = some fid →
      (pageAt s fid).pin_count = 0 →
      unpinPage s pid d = (false, s)) ∧
    (∀ (s : BPM) (pid : Nat) (d : Bool) (fid : Nat),
      (tableFind idHash s.page_table pid).1 = some fid →
      fid < s.pages.length →
      (pageAt s fid).pin_count ≠ 0 →
      unpinPage s pid d =
        (true,
         { s with
            pages := s.pages.set fid
              { pageAt s fid with
                  is_dirty := (pageAt s fid).is_dirty || d,
                  pin_count := (pageAt s fid).pin_count - 1 },
            replacer := if (pageAt s fid).pin_count - 1 = 0
              then setEvictable s.replacer fid true else s.replacer })) := by
  refine ⟨?_, ?_, fun s pid d fid hf hlen hpin => unpinPage_spec s pid d fid hf hlen hpin⟩
  · intro s pid d hf
    unfold unpinPage
    rw [hf]
  · intro s pid d fid hf hz
    unfold unpinPage
    rw [hf]
    dsimp only
    rw [if_pos hz]

theorem claim_c4_witness :
    unpinPage bpmDemo 0 true =
      (true,
       { bpmDemo with
          pages := bpmDemo.pages.set 0
            { pageAt bpmDemo 0 with
                is_dirty := (pageAt bpmDemo 0).is_dirty || true,
                pin_count := (pageAt bpmDemo 0).pin_count - 1 },
          replacer := if (pageAt bpmDemo 0).pin_count - 1 = 0
            then setEvictable bpmDemo.replacer 0 true else bpmDemo.replacer }) :=
  claim_c4.2.2 bpmDemo 0 true 0 (by decide) (by decide) (by decide)

/-- `NewPage` iterated: the returned page ids of `n` successive calls
(the list is cut short only on the undefined `Evict` path). -/
def newPages : Nat → BPM → List (Option Nat)
  | 0, _ => []
  | n + 1, s =>
    match newPage s with
    | none => []
    | some (r, s') => (r.map Prod.fst) :: newPages n s'

/-- A one-frame pool with its only page pinned. -/
def c3Pinned : BPM :=
  { pool_size := 1
    pages := [⟨some 0, 1, false, 0⟩]
    page_table := tableInsert idHash (HashTable.init Nat Nat 4) 0 0
    replacer := LRUKReplacer.init 1 2
    free_list := []
    next_page_id := 1
    disk := fun _ => 0 }

/-- C3: `NewPage` returns null exactly when every frame's pin count is
positive; and on a fresh pool of ten frames (k = 2), ten calls yield
non-null handles with the distinct ids 0..9 while the eleventh returns
null. -/
theorem claim_c3 :
    (∀ s : BPM, (∃ s', newPage s = some (none, s')) ↔
      ∀ p ∈ s.pages, p.pin_count ≠ 0) ∧
    newPages 11 (BPM.init 10 4 2 (fun _ => 0)) =
      [some 0, some 1, some 2, some 3, some 4, some 5, some 6, some 7, some 8,
        some 9, none] := by
  constructor
  · intro s
    constructor
    · rintro ⟨s', hns⟩ p hp hz
      have hav : s.pages.any (fun p => p.pin_count == 0) = true := by
        rw [List.any_eq_true]
        exact ⟨p, hp, by simp [hz]⟩
      rcases hfl : s.free_list with _ | ⟨fid, rest⟩
      · rcases hev : evict s.replacer with ⟨ofid, rep⟩
        rcases ofid with _ | fid
        · rw [newPage_ub_spec s rep hav hfl hev] at hns
          exact Option.noConfusion hns
        · unfold newPage at hns
          rw [if_neg (not_not_intro hav)] at hns
          dsimp only at hns
          rw [hfl] at hns
          dsimp only at hns
          rw [hev] at hns
          dsimp only at hns
          obtain ⟨hfst, _⟩ := Prod.mk.inj (Option.some_inj.mp hns)
          exact Option.noConfusion hfst
      · rw [newPage_free_spec s fid rest hav hfl] at hns
        obtain ⟨hfst, _⟩ := Prod.mk.inj (Option.some_inj.mp hns)
        exact Option.noConfusion hfst
    · intro hall
      refine ⟨s, newPage_null_spec s ?_⟩
      rw [List.any_eq_true]
      rintro ⟨p, hp, hz⟩
      exact hall p hp (by simpa using hz)
  · decide

theorem claim_c3_witness :
    ∃ s', newPage c3Pinned = some (none, s') :=
  (claim_c3.1 c3Pinned).mpr (by decide)

end BusTub

